import Mathlib

/-!
Verification of the `string-matching` repository: a shallow embedding of
`src/aho_corasick.rs` (multi-pattern Aho-Corasick automaton) and
`src/kmp.rs` (single-pattern Knuth-Morris-Pratt matcher), with theorems
settling the specification claims.

Modelling conventions:
* Rust `HashMap<char, usize>` is an association list in insertion order;
  `HashSet<usize>` is a duplicate-free list in insertion order.
* `usize` subtraction that can underflow (a debug-mode panic in Rust) is
  modelled with `Option`, `none` meaning the computation failed.
* Each Rust `while` loop is modelled with explicit fuel; `none` on fuel
  exhaustion marks an execution that did not complete.  Sufficiency of the
  fuel actually passed is proved for automata built by keyword insertion.
* Rust `str::len` is the UTF-8 byte length, modelled by summing
  `Char.utf8Size` over the symbol list.
-/

namespace StringMatching

/-- `HashMap<char, usize>` modelled as an association list. -/
abbrev AMap := List (Char × Nat)

/-- `HashMap::get` on the association-list model. -/
def lookupA : AMap → Char → Option Nat
  | [], _ => none
  | (c', t) :: rest, c => if c' = c then some t else lookupA rest c

/-- `HashSet::insert` on the duplicate-free-list model. -/
def insertSet (l : List Nat) (k : Nat) : List Nat :=
  if k ∈ l then l else l ++ [k]

/-- Apply `f` to the `i`-th element of a list (in-place update model). -/
def modifyAt {α : Type*} (f : α → α) : Nat → List α → List α
  | _, [] => []
  | 0, x :: xs => f x :: xs
  | n+1, x :: xs => x :: modifyAt f n xs

/-- The `AhoCorasick` struct of `src/aho_corasick.rs`. -/
structure AhoCorasick where
  keywords : List (List Char)
  states : List AMap
  fails : Option (List Nat)
  outputs : List (List Nat)
deriving DecidableEq

/-- `AhoCorasick::new`. -/
def AhoCorasick.new : AhoCorasick :=
  { keywords := [], states := [[]], fails := none, outputs := [[]] }

/-- The trie walk of `AhoCorasick::add_keyword`: follow existing goto edges,
allocating a fresh state (next unused id) per missing edge.  Returns the new
`states`, `outputs` and the state at which the walk ends. -/
def addKeywordGo : List AMap → List (List Nat) → Nat → List Char →
    List AMap × List (List Nat) × Nat
  | states, outputs, state, [] => (states, outputs, state)
  | states, outputs, state, c :: cs =>
    match lookupA (states.getD state []) c with
    | some t => addKeywordGo states outputs t cs
    | none =>
      addKeywordGo (modifyAt (fun m => m ++ [(c, states.length)]) state states ++ [[]])
        (outputs ++ [[]]) states.length cs

/-- `AhoCorasick::add_keyword`: push the keyword, walk/extend the trie, mark
the end state's output set with the new keyword index, invalidate `fails`. -/
def AhoCorasick.add_keyword (ac : AhoCorasick) (s : List Char) : AhoCorasick :=
  let r := addKeywordGo ac.states ac.outputs 0 s
  { keywords := ac.keywords ++ [s]
    states := r.1
    fails := none
    outputs := modifyAt (fun l => insertSet l ac.keywords.length) r.2.2 r.2.1 }

/-- The automaton obtained by inserting the given keywords, in order, into an
empty automaton. -/
def buildAC (kws : List (List Char)) : AhoCorasick :=
  kws.foldl AhoCorasick.add_keyword AhoCorasick.new

/-- The shared backtracking loop
`while state != 0 && states[state].get(&ch).is_none() { state = fails[state-1] }`
(used both in `make_fails` and in matching), with explicit fuel. -/
def chase (states : List AMap) (fails : List Nat) (c : Char) : Nat → Nat → Option Nat
  | 0, _ => none
  | fuel+1, state =>
    if state ≠ 0 ∧ lookupA (states.getD state []) c = none then
      chase states fails c fuel (fails.getD (state - 1) 0)
    else
      some state

/-- The seeding loop of `make_fails`: push each child of the root onto the
work list and set its fail state to the root.  `none` models the
`assert!(*next != 0)` firing. -/
def seedRoot : List (Char × Nat) → List Nat → List Nat → Option (List Nat × List Nat)
  | [], queue, fails => some (queue, fails)
  | (_, next) :: rest, queue, fails =>
    if next = 0 then none
    else seedRoot rest (queue ++ [next]) (fails.set (next - 1) 0)

/-- Processing of the goto edges of one dequeued state `work` in `make_fails`:
for each edge `(c, next)` enqueue `next`, chase the failure chain from
`fails[work-1]`, set `fails[next-1]`, check the `assert!(*next != fails[*next-1])`,
and merge `outputs[fails[next-1]]` into `outputs[next]`. -/
def procEdges (states : List AMap) (work : Nat) :
    List (Char × Nat) → List Nat → List (List Nat) → List Nat →
    Option (List Nat × List (List Nat) × List Nat)
  | [], fails, outputs, queue => some (fails, outputs, queue)
  | (c, next) :: rest, fails, outputs, queue =>
    match chase states fails c states.length (fails.getD (work - 1) 0) with
    | none => none
    | some fstate =>
      let f := (lookupA (states.getD fstate []) c).getD 0
      let fails' := fails.set (next - 1) f
      if next = f then none
      else
        procEdges states work rest fails'
          (modifyAt (fun l => (outputs.getD f []).foldl insertSet l) next outputs)
          (queue ++ [next])

/-- The breadth-first work-list loop of `make_fails`, with explicit fuel.
`none` models a firing assertion or fuel exhaustion. -/
def makeFailsGo (states : List AMap) :
    Nat → List Nat → List Nat → List (List Nat) → Option (List Nat × List (List Nat))
  | _, [], fails, outputs => some (fails, outputs)
  | 0, _ :: _, _, _ => none
  | fuel+1, work :: queue, fails, outputs =>
    if work = 0 then none
    else
      match procEdges states work (states.getD work []) fails outputs queue with
      | none => none
      | some (fails', outputs', queue') => makeFailsGo states fuel queue' fails' outputs'

/-- `AhoCorasick::make_fails`: no-op if `fails` is already computed, otherwise
run the breadth-first computation of failure links, merging output sets. -/
def AhoCorasick.make_fails (ac : AhoCorasick) : Option AhoCorasick :=
  match ac.fails with
  | some _ => some ac
  | none =>
    match seedRoot (ac.states.getD 0 []) [] (List.replicate (ac.states.length - 1) 0) with
    | none => none
    | some (queue, fails0) =>
      match makeFailsGo ac.states ac.states.length queue fails0 ac.outputs with
      | none => none
      | some (fails, outputs) =>
        some { ac with fails := some fails, outputs := outputs }

/-- Rust `str::len` of a keyword: its UTF-8 byte length. -/
def byteLen (w : List Char) : Nat := (w.map Char.utf8Size).sum

/-- `usize` subtraction; `none` models the debug-mode underflow panic. -/
def checkedSub (a b : Nat) : Option Nat := if b ≤ a then some (a - b) else none

/-- The reported start offset `ch_idx - (kw.len() - 1)` of a match, where
`kw.len()` is the byte length of the keyword. -/
def reportOff (chIdx : Nat) (kw : List Char) : Option Nat := do
  let l ← checkedSub (byteLen kw) 1
  checkedSub chIdx l

/-- The inner reporting loop of `match_`: one `(start, keyword)` pair per
entry of the current state's output set. -/
def reports (kws : List (List Char)) (chIdx : Nat) :
    List Nat → Option (List (Nat × List Char))
  | [] => some []
  | k :: rest => do
    let kw := kws.getD k []
    let off ← reportOff chIdx kw
    let rs ← reports kws chIdx rest
    pure ((off, kw) :: rs)

/-- The scanning loop of `AhoCorasick::match_`: per symbol, backtrack through
failure links, take the goto edge (else root), and report the output set of
the reached state. -/
def scanGo (kws : List (List Char)) (states : List AMap) (outputs : List (List Nat))
    (fails : List Nat) : Nat → Nat → List Char → Option (List (Nat × List Char))
  | _, _, [] => some []
  | state, i, c :: cs => do
    let s1 ← chase states fails c states.length state
    let s2 := (lookupA (states.getD s1 []) c).getD 0
    let rs ← reports kws i (outputs.getD s2 [])
    let rest ← scanGo kws states outputs fails s2 (i+1) cs
    pure (rs ++ rest)

/-- `AhoCorasick::match_`: build failure links if stale, then scan the text.
The first component is the automaton after the (re)build (`&mut self` in
Rust); the second is the returned match list, `none` on a panic. -/
def AhoCorasick.match_ (ac : AhoCorasick) (text : List Char) :
    Option AhoCorasick × Option (List (Nat × List Char)) :=
  match ac.make_fails with
  | none => (none, none)
  | some ac2 =>
    (some ac2, scanGo ac2.keywords ac2.states ac2.outputs (ac2.fails.getD []) 0 0 text)

/-- The `MatchIter` struct: current state, current location, remaining
enumerated symbols, and the optional cursor over the current state's
outputs. -/
structure MatchIter where
  state : Nat
  loc : Nat
  chars : List (Nat × Char)
  output_iter : Option (List Nat)
deriving DecidableEq

/-- Result of one pull of `MatchIter::next`: a panic, exhaustion, or a
yielded match together with the successor iterator state. -/
inductive NextRes where
  | stuck : NextRes
  | finished : NextRes
  | emit : Nat × List Char → MatchIter → NextRes
deriving DecidableEq

/-- `MatchIter::next`, with explicit fuel for its self-recursion: yield the
next pending output if any, otherwise consume one symbol, perform the
goto/fail transition and recurse on the new state's output set. -/
def nextAC (ac : AhoCorasick) : Nat → MatchIter → Option NextRes
  | 0, _ => none
  | fuel+1, it =>
    match it.output_iter with
    | some (k :: rest) =>
      let kw := ac.keywords.getD k []
      match reportOff it.loc kw with
      | none => some .stuck
      | some off => some (.emit (off, kw) { it with output_iter := some rest })
    | _ =>
      match it.chars with
      | [] => some .finished
      | (i, c) :: cs =>
        match chase ac.states (ac.fails.getD []) c ac.states.length it.state with
        | none => none
        | some s1 =>
          let s2 := (lookupA (ac.states.getD s1 []) c).getD 0
          nextAC ac fuel
            { state := s2, loc := i, chars := cs,
              output_iter := some (ac.outputs.getD s2 []) }

/-- `AhoCorasick::match_iter`: build failure links if stale, then return the
initial iterator state over the enumerated text. -/
def AhoCorasick.match_iter (ac : AhoCorasick) (text : List Char) :
    Option (AhoCorasick × MatchIter) :=
  match ac.make_fails with
  | none => none
  | some ac2 =>
    some (ac2, { state := 0, loc := 0, chars := text.enum, output_iter := none })

/-- How one pull's result extends a drain of the rest of the iterator. -/
def drainStep (cont : MatchIter → Option (List (Nat × List Char))) :
    Option NextRes → Option (List (Nat × List Char))
  | none => none
  | some .stuck => none
  | some .finished => some []
  | some (.emit m it') => (cont it').map (fun l => m :: l)

/-- Fully drain a `MatchIter`: pull until exhaustion, collecting the yielded
matches.  Fuel bounds the number of pulls; a panic gives `none`. -/
def drainAC (ac : AhoCorasick) : Nat → MatchIter → Option (List (Nat × List Char))
  | 0, _ => none
  | fuel+1, it => drainStep (drainAC ac fuel) (nextAC ac (it.chars.length + 1) it)

/-! ### The KMP single-pattern matcher (`src/kmp.rs`) -/

/-- The `KMP<C>` struct: the pattern and its prefix-function table. -/
structure KMP (C : Type*) where
  pat : List C
  pfx : List Nat
deriving DecidableEq

variable {C : Type*} [DecidableEq C]

/-- The backtracking loop of `mk_pfx`:
`while n_matched > 0 && pat[n_matched] != *next { n_matched = ret[n_matched - 1] }`,
with explicit fuel. -/
def pfxChase (pat : List C) (ret : List Nat) (c : C) : Nat → Nat → Option Nat
  | 0, _ => none
  | fuel+1, n =>
    if n > 0 ∧ ¬ pat.get? n = some c then
      pfxChase pat ret c fuel (ret.getD (n - 1) 0)
    else
      some n

/-- The outer loop of `mk_pfx` (`for i in 1..pat.len()`), with explicit fuel. -/
def mkPfxGo (pat : List C) : Nat → Nat → Nat → List Nat → Option (List Nat)
  | 0, _, _, _ => none
  | fuel+1, i, n, ret =>
    if i < pat.length then
      match pat.get? i with
      | none => none
      | some c => do
        let n1 ← pfxChase pat ret c (n+1) n
        let n2 := if pat.get? n1 = some c then n1 + 1 else n1
        mkPfxGo pat fuel (i+1) n2 (ret.set i n2)
    else
      some ret

/-- `mk_pfx`: the prefix-function table of a pattern. -/
def mk_pfx (pat : List C) : Option (List Nat) :=
  mkPfxGo pat (pat.length + 1) 1 0 (List.replicate pat.length 0)

/-- `KMP::new`: rejects the empty pattern (`assert!(!pat.is_empty())`,
modelled as `none`), otherwise builds the prefix table. -/
def KMP.new (pat : List C) : Option (KMP C) :=
  if pat = [] then none
  else (mk_pfx pat).map fun pfx => { pat := pat, pfx := pfx }

/-- The backtracking loop of `KMP::match_`:
`while n_matched > 0 && pat[n_matched] != c { n_matched = pfx[n_matched] }`,
with explicit fuel.  Note the source indexes `pfx` with `n_matched`, not
`n_matched - 1`. -/
def kmpChase (pat : List C) (pfx : List Nat) (c : C) : Nat → Nat → Option Nat
  | 0, _ => none
  | fuel+1, n =>
    if n > 0 ∧ ¬ pat.get? n = some c then
      kmpChase pat pfx c fuel (pfx.getD n 0)
    else
      some n

/-- The scanning loop of `KMP::match_`.  On a full match it reports
`i + 1 - pat.len()` and resets the matched count to `pfx[pat.len() - 1]`. -/
def kmpMatchGo (pat : List C) (pfx : List Nat) (chaseFuel : Nat) :
    Nat → Nat → List C → Option (List Nat)
  | _, _, [] => some []
  | n, i, c :: cs => do
    let n1 ← kmpChase pat pfx c chaseFuel n
    let n2 := if pat.get? n1 = some c then n1 + 1 else n1
    if n2 = pat.length then do
      let rest ← kmpMatchGo pat pfx chaseFuel (pfx.getD (pat.length - 1) 0) (i+1) cs
      pure ((i + 1 - pat.length) :: rest)
    else
      kmpMatchGo pat pfx chaseFuel n2 (i+1) cs

/-- `KMP::match_`, with explicit fuel for each backtracking chase. -/
def KMP.match_ (k : KMP C) (chaseFuel : Nat) (t : List C) : Option (List Nat) :=
  kmpMatchGo k.pat k.pfx chaseFuel 0 0 t

/-! ### Specification-side notions -/

/-- The keyword `k` occurs in the text `t` beginning at symbol offset `i`
(offsets in symbol units, as the specification requires). -/
def occursAt (t k : List Char) (i : Nat) : Prop := k ≠ [] ∧ k <+: t.drop i

instance (t k : List Char) (i : Nat) : Decidable (occursAt t k i) := by
  unfold occursAt; infer_instance

-- ===== definitions continue below; theorems start at the marker =====

/-- All goto-edge targets of the trie, in state order. -/
def allTargets (states : List AMap) : List Nat :=
  (states.map (fun m => m.map Prod.snd)).flatten

/-- Structural invariants of a trie built by keyword insertion: at least the
root exists; every goto edge points forward (to a strictly larger, in-range
state id); per-state edge labels are distinct (the `HashMap` key property);
every non-root state has exactly one incoming edge. -/
structure TrieInv (states : List AMap) : Prop where
  root_exists : states ≠ []
  edge_lt : ∀ s, ∀ p ∈ states.getD s [], s < p.2 ∧ p.2 < states.length
  keys_nodup : ∀ s, ((states.getD s []).map Prod.fst).Nodup
  targets_nodup : (allTargets states).Nodup
  targets_complete : ∀ t, 1 ≤ t → t < states.length → t ∈ allTargets states

/-- `states'` extends `states`: it keeps every state's map as a prefix,
only appends new states, and every added edge points into the added part. -/
structure TrieExt (states states' : List AMap) : Prop where
  len_le : states.length ≤ states'.length
  map_prefix : ∀ s, states.getD s [] <+: states'.getD s []
  new_edge_big : ∀ s p, p ∈ states'.getD s [] → p ∉ states.getD s [] →
    states.length ≤ p.2

/-- The unique incoming goto edge of a state, as `(source, label)`. -/
def parentEdge (states : List AMap) (t : Nat) : Option (Nat × Char) :=
  (List.range states.length).findSome?
    (fun s => ((states.getD s []).find? (fun p => p.2 == t)).map (fun p => (s, p.1)))

/-- The root path of a state, with explicit fuel (the parent has a strictly
smaller id, so fuel `t` suffices for state `t`). -/
def pathOf (states : List AMap) : Nat → Nat → List Char
  | 0, _ => []
  | fuel+1, t =>
    if t = 0 then []
    else
      match parentEdge states t with
      | none => []
      | some (s, c) => pathOf states fuel s ++ [c]

/-- The root path of a state: the word spelled by the goto edges from the
root to the state. -/
def path (states : List AMap) (t : Nat) : List Char := pathOf states t t

/-- Trie depth of a state. -/
def depth (states : List AMap) (t : Nat) : Nat := (path states t).length

/-- The state spelling a given word, if any. -/
def stateOf (states : List AMap) (w : List Char) : Option Nat :=
  (List.range states.length).find? (fun t => path states t == w)

/-- The state spelling the longest suffix (possibly the word itself, possibly
empty) of a word that is the path of some state; the root if none is. -/
def bestSuf (states : List AMap) : List Char → Nat
  | [] => 0
  | c :: rest =>
    match stateOf states (c :: rest) with
    | some u => u
    | none => bestSuf states rest

/-- The intended failure link of a non-root state: the state spelling the
longest proper suffix of its path that is the path of some state (the root
when no non-empty such suffix exists). -/
def idealFail (states : List AMap) (t : Nat) : Nat :=
  bestSuf states (path states t).tail

/-- `w` is a prefix of some inserted keyword. -/
def KeywordPrefix (kws : List (List Char)) (w : List Char) : Prop :=
  ∃ k ∈ kws, w <+: k

/-- Invariants of automata built by keyword insertion (before any failure
computation has merged output sets): the trie invariants, and the output
sets are exactly the direct-terminal sets — `k ∈ outputs[t]` iff keyword `k`
spells the path of `t`.  Moreover state paths are exactly the prefixes of
inserted keywords. -/
structure ACInv (ac : AhoCorasick) : Prop where
  trie : TrieInv ac.states
  outs_len : ac.outputs.length = ac.states.length
  outs_char : ∀ t k, k ∈ ac.outputs.getD t [] ↔
    k < ac.keywords.length ∧ t < ac.states.length ∧
      path ac.states t = ac.keywords.getD k []
  outs_nodup : ∀ l ∈ ac.outputs, l.Nodup
  paths_kw : ∀ t, t < ac.states.length →
    path ac.states t = [] ∨ ∃ kw ∈ ac.keywords, path ac.states t <+: kw
  kw_paths : ∀ kw ∈ ac.keywords, ∀ w, w <+: kw →
    ∃ t, t < ac.states.length ∧ path ac.states t = w

/-- The invariant of the breadth-first work-list loop of `make_fails`,
between two pops.  `pr` is the (ghost) list of already-processed states, `q`
the current queue, `f` the failure array, `out` the output table; `O` is the
output table the computation started from. -/
structure BFSRun (states : List AMap) (O : List (List Nat)) (pr q : List Nat)
    (f : List Nat) (out : List (List Nat)) : Prop where
  bounds : ∀ t ∈ pr ++ q, 1 ≤ t ∧ t < states.length
  nodup : (pr ++ q).Nodup
  seen_iff : ∀ t, 1 ≤ t → t < states.length →
    (t ∈ pr ++ q ↔ ∃ s c, (c, t) ∈ states.getD s [] ∧ (s = 0 ∨ s ∈ pr))
  sorted : (pr ++ q).Pairwise (fun a b => depth states a ≤ depth states b)
  qclose : ∀ u ∈ q, ∀ v ∈ q, depth states u ≤ depth states v + 1
  seen_closed : ∀ u ∈ pr ++ q, ∀ t, 1 ≤ t → t < states.length →
    depth states t < depth states u → t ∈ pr ++ q
  fails_len : f.length = states.length - 1
  fails_correct : ∀ t ∈ pr ++ q, f.getD (t - 1) 0 = idealFail states t
  out_len : out.length = O.length
  out_merged : ∀ t ∈ pr ++ q, ∀ k, k ∈ out.getD t [] ↔ k ∈ O.getD t [] ∨
    ∃ u, 1 ≤ u ∧ u < states.length ∧ path states u <:+ path states t ∧
      path states u ≠ path states t ∧ k ∈ O.getD u []
  out_frozen : ∀ t, t ∉ pr ++ q → out.getD t [] = O.getD t []

/-- The invariant while the edges of one dequeued state `w` are processed:
`done` are the edges of `w` already handled, `qacc` the queue so far. -/
structure BFSMid (states : List AMap) (O : List (List Nat)) (pr : List Nat) (w : Nat)
    (done : List (Char × Nat)) (qacc f : List Nat) (out : List (List Nat)) : Prop where
  wbound : 1 ≤ w ∧ w < states.length
  bounds : ∀ t ∈ pr ++ [w] ++ qacc, 1 ≤ t ∧ t < states.length
  nodup : (pr ++ [w] ++ qacc).Nodup
  seen_iff : ∀ t, 1 ≤ t → t < states.length →
    (t ∈ pr ++ [w] ++ qacc ↔
      ∃ s c, (c, t) ∈ states.getD s [] ∧ (s = 0 ∨ s ∈ pr ∨ (s = w ∧ (c, t) ∈ done)))
  sorted : (pr ++ [w] ++ qacc).Pairwise (fun a b => depth states a ≤ depth states b)
  qwindow : ∀ u ∈ qacc, depth states w ≤ depth states u ∧
    depth states u ≤ depth states w + 1
  seen_closed : ∀ u ∈ pr ++ [w] ++ qacc, ∀ t, 1 ≤ t → t < states.length →
    depth states t < depth states u → t ∈ pr ++ [w] ++ qacc
  fails_len : f.length = states.length - 1
  fails_correct : ∀ t ∈ pr ++ [w] ++ qacc, f.getD (t - 1) 0 = idealFail states t
  out_len : out.length = O.length
  out_merged : ∀ t ∈ pr ++ [w] ++ qacc, ∀ k, k ∈ out.getD t [] ↔ k ∈ O.getD t [] ∨
    ∃ u, 1 ≤ u ∧ u < states.length ∧ path states u <:+ path states t ∧
      path states u ≠ path states t ∧ k ∈ O.getD u []
  out_frozen : ∀ t, t ∉ pr ++ [w] ++ qacc → out.getD t [] = O.getD t []

/-- What a successful pull of `MatchIter::next` can look like: either it
yields the head of the pending output set (or panics on it), consuming no
input, or the pending set is exhausted and the pull consumes input — at
least one symbol — before finishing or yielding. -/
def PullShape (ac : AhoCorasick) (it : MatchIter) (r : NextRes) : Prop :=
  (∃ k rest, it.output_iter = some (k :: rest) ∧
    ((∃ off, reportOff it.loc (ac.keywords.getD k []) = some off ∧
        r = .emit (off, ac.keywords.getD k []) ⟨it.state, it.loc, it.chars, some rest⟩) ∨
      (reportOff it.loc (ac.keywords.getD k []) = none ∧ r = .stuck))) ∨
  ((it.output_iter = none ∨ it.output_iter = some []) ∧
    (it.chars = [] → r = .finished) ∧
    (∀ m it2, r = .emit m it2 → it2.chars.length < it.chars.length))

/-- Well-formedness of the output-set table: every per-state output list is
duplicate-free (the `HashSet` model) with keyword indices below `K`. -/
def OutputsOK (K : Nat) (outputs : List (List Nat)) : Prop :=
  ∀ l ∈ outputs, l.Nodup ∧ ∀ k ∈ l, k < K

-- ===== theorems =====

/-! #### Basic lemmas about the container models -/

theorem mem_insertSet {l : List Nat} {k x : Nat} :
    x ∈ insertSet l k ↔ x ∈ l ∨ x = k := by
  unfold insertSet
  split
  · next h => simp only [iff_self_or]; rintro rfl; exact h
  · simp

theorem insertSet_nodup {l : List Nat} {k : Nat} (h : l.Nodup) :
    (insertSet l k).Nodup := by
  unfold insertSet
  split
  · exact h
  · next hk => simpa [List.nodup_append, h] using hk

theorem foldl_insertSet_nodup {l : List Nat} {init : List Nat} (h : init.Nodup) :
    (l.foldl insertSet init).Nodup := by
  induction l generalizing init with
  | nil => exact h
  | cons a l ih => exact ih (insertSet_nodup h)

theorem mem_foldl_insertSet {l init : List Nat} {x : Nat} :
    x ∈ l.foldl insertSet init ↔ x ∈ init ∨ x ∈ l := by
  induction l generalizing init with
  | nil => simp
  | cons a l ih =>
    simp only [List.foldl_cons, ih, mem_insertSet, List.mem_cons]
    tauto

theorem modifyAt_nil {α : Type*} (f : α → α) (i : Nat) : modifyAt f i ([] : List α) = [] := by
  cases i <;> rfl

theorem modifyAt_length {α : Type*} (f : α → α) (i : Nat) (l : List α) :
    (modifyAt f i l).length = l.length := by
  induction l generalizing i with
  | nil => rw [modifyAt_nil]
  | cons x xs ih => cases i <;> simp [modifyAt, ih]

theorem modifyAt_getD_ne {α : Type*} (f : α → α) {i j : Nat} (l : List α) (d : α)
    (h : i ≠ j) : (modifyAt f i l).getD j d = l.getD j d := by
  induction l generalizing i j with
  | nil => rw [modifyAt_nil]
  | cons x xs ih =>
    cases i with
    | zero => cases j with
      | zero => exact absurd rfl h
      | succ j => simp [modifyAt]
    | succ i => cases j with
      | zero => simp [modifyAt]
      | succ j => simpa [modifyAt] using ih (by omega)

theorem modifyAt_getD_eq {α : Type*} (f : α → α) {i : Nat} (l : List α) (d : α)
    (h : i < l.length) : (modifyAt f i l).getD i d = f (l.getD i d) := by
  induction l generalizing i with
  | nil => simp at h
  | cons x xs ih =>
    cases i with
    | zero => rfl
    | succ i => simpa [modifyAt] using ih (by simpa using h)

theorem modifyAt_forall {α : Type*} {P : α → Prop} (f : α → α) (i : Nat) (l : List α)
    (hl : ∀ x ∈ l, P x) (hf : ∀ x, P x → P (f x)) : ∀ y ∈ modifyAt f i l, P y := by
  induction l generalizing i with
  | nil => simp [modifyAt_nil]
  | cons x xs ih =>
    cases i with
    | zero =>
      rintro y hy
      rcases List.mem_cons.1 hy with rfl | hy
      · exact hf x (hl x (by simp))
      · exact hl y (List.mem_cons_of_mem _ hy)
    | succ i =>
      rintro y hy
      rcases List.mem_cons.1 (by simpa [modifyAt] using hy) with rfl | hy2
      · exact hl y (by simp)
      · exact ih i (fun x hx => hl x (List.mem_cons_of_mem _ hx)) y hy2

/-! #### Output-set well-formedness through every operation -/

theorem outputsOK_mono {K K' : Nat} {outputs : List (List Nat)} (h : OutputsOK K outputs)
    (hK : K ≤ K') : OutputsOK K' outputs :=
  fun l hl => ⟨(h l hl).1, fun k hk => lt_of_lt_of_le ((h l hl).2 k hk) hK⟩

theorem outputsOK_addKeywordGo {states : List AMap} {outputs : List (List Nat)}
    {state : Nat} {cs : List Char} {K : Nat} (h : OutputsOK K outputs) :
    OutputsOK K (addKeywordGo states outputs state cs).2.1 := by
  induction cs generalizing states outputs state with
  | nil => exact h
  | cons c cs ih =>
    rw [addKeywordGo]
    cases lookupA (states.getD state []) c with
    | some t => exact ih h
    | none =>
      exact ih (fun l hl => by
        rcases List.mem_append.1 hl with hl | hl
        · exact h l hl
        · simp only [List.mem_singleton] at hl
          simp [hl])

theorem outputsOK_add_keyword {ac : AhoCorasick} (h : OutputsOK ac.keywords.length ac.outputs) :
    OutputsOK (ac.add_keyword s).keywords.length (ac.add_keyword s).outputs := by
  unfold AhoCorasick.add_keyword
  intro l hl
  simp only [List.length_append, List.length_singleton] at hl ⊢
  have base : OutputsOK ac.keywords.length (addKeywordGo ac.states ac.outputs 0 s).2.1 :=
    outputsOK_addKeywordGo h
  have hbase : ∀ x ∈ (addKeywordGo ac.states ac.outputs 0 s).2.1,
      x.Nodup ∧ ∀ k ∈ x, k < ac.keywords.length + 1 :=
    fun x hx => ⟨(base x hx).1, fun k hk => Nat.lt_succ_of_lt ((base x hx).2 k hk)⟩
  refine modifyAt_forall _ _ _ hbase (fun x hx => ?_) l hl
  refine ⟨insertSet_nodup hx.1, fun k hk => ?_⟩
  rcases mem_insertSet.1 hk with hk | rfl
  · exact hx.2 k hk
  · simp

theorem outputsOK_buildAC (kws : List (List Char)) :
    OutputsOK (buildAC kws).keywords.length (buildAC kws).outputs := by
  suffices h : ∀ ac : AhoCorasick, OutputsOK ac.keywords.length ac.outputs →
      OutputsOK (kws.foldl AhoCorasick.add_keyword ac).keywords.length
        (kws.foldl AhoCorasick.add_keyword ac).outputs by
    refine h AhoCorasick.new ?_
    intro l hl
    simp only [AhoCorasick.new, List.mem_singleton] at hl
    simp [hl]
  induction kws with
  | nil => exact fun ac h => h
  | cons k ks ih => exact fun ac h => ih _ (outputsOK_add_keyword h)

theorem nodup_bounded_length_le {l : List Nat} {K : Nat} (hn : l.Nodup)
    (hb : ∀ x ∈ l, x < K) : l.length ≤ K := by
  have hsub : l.toFinset ⊆ Finset.range K := by
    intro x hx
    simpa using hb x (List.mem_toFinset.1 hx)
  calc l.length = l.toFinset.card := (List.toFinset_card_of_nodup hn).symm
    _ ≤ (Finset.range K).card := Finset.card_le_card hsub
    _ = K := Finset.card_range K

theorem outputsOK_procEdges {states : List AMap} {work : Nat} {es : List (Char × Nat)}
    {fails queue : List Nat} {outputs : List (List Nat)} {K : Nat}
    {r : List Nat × List (List Nat) × List Nat}
    (h : OutputsOK K outputs)
    (hr : procEdges states work es fails outputs queue = some r) :
    OutputsOK K r.2.1 := by
  induction es generalizing fails outputs queue with
  | nil =>
    rw [procEdges] at hr
    cases hr
    exact h
  | cons e rest ih =>
    obtain ⟨c, next⟩ := e
    rw [procEdges] at hr
    cases hch : chase states fails c states.length (fails.getD (work - 1) 0) with
    | none => rw [hch] at hr; cases hr
    | some fstate =>
      rw [hch] at hr
      simp only at hr
      by_cases hnf : next = (lookupA (states.getD fstate []) c).getD 0
      · rw [if_pos hnf] at hr; cases hr
      · rw [if_neg hnf] at hr
        refine ih ?_ hr
        set f := (lookupA (states.getD fstate []) c).getD 0 with hf
        refine modifyAt_forall _ _ _ h (fun x hx => ?_)
        refine ⟨foldl_insertSet_nodup hx.1, fun k hk => ?_⟩
        rcases mem_foldl_insertSet.1 hk with hk | hk
        · exact hx.2 k hk
        · have hmem : outputs.getD f [] ∈ outputs ∨ outputs.getD f [] = ([] : List Nat) := by
            by_cases hlen : f < outputs.length
            · exact Or.inl (by rw [List.getD_eq_getElem _ _ hlen]; exact List.getElem_mem _)
            · exact Or.inr (List.getD_eq_default _ _ (le_of_not_lt hlen))
          rcases hmem with hmem | hmem
          · exact (h _ hmem).2 k hk
          · rw [hmem] at hk; cases hk


theorem outputsOK_makeFailsGo {states : List AMap} {K fuel : Nat}
    {queue fails : List Nat} {outputs : List (List Nat)} {r : List Nat × List (List Nat)}
    (h : OutputsOK K outputs)
    (hr : makeFailsGo states fuel queue fails outputs = some r) : OutputsOK K r.2 := by
  induction fuel generalizing queue fails outputs with
  | zero =>
    cases queue with
    | nil => rw [makeFailsGo] at hr; cases hr; exact h
    | cons w q => rw [makeFailsGo] at hr; cases hr
  | succ fuel ih =>
    cases queue with
    | nil => rw [makeFailsGo] at hr; cases hr; exact h
    | cons w q =>
      rw [makeFailsGo] at hr
      by_cases hw : w = 0
      · rw [if_pos hw] at hr; cases hr
      · rw [if_neg hw] at hr
        cases hpe : procEdges states w (states.getD w []) fails outputs q with
        | none => rw [hpe] at hr; cases hr
        | some r2 =>
          rw [hpe] at hr
          exact ih (outputsOK_procEdges h hpe) hr

/-- Inversion principle for `make_fails`. -/
theorem make_fails_inv {ac ac2 : AhoCorasick} (h : ac.make_fails = some ac2) :
    (∃ fl, ac.fails = some fl ∧ ac2 = ac) ∨
    (ac.fails = none ∧ ∃ q f0 fl o,
      seedRoot (ac.states.getD 0 []) [] (List.replicate (ac.states.length - 1) 0)
          = some (q, f0) ∧
      makeFailsGo ac.states ac.states.length q f0 ac.outputs = some (fl, o) ∧
      ac2 = { ac with fails := some fl, outputs := o }) := by
  unfold AhoCorasick.make_fails at h
  cases hf : ac.fails with
  | some fl =>
    rw [hf] at h
    cases h
    exact Or.inl ⟨fl, rfl, rfl⟩
  | none =>
    rw [hf] at h
    cases hs : seedRoot (ac.states.getD 0 []) [] (List.replicate (ac.states.length - 1) 0) with
    | none => rw [hs] at h; cases h
    | some p =>
      obtain ⟨q, f0⟩ := p
      rw [hs] at h
      cases hg : makeFailsGo ac.states ac.states.length q f0 ac.outputs with
      | none => simp only [hg] at h; cases h
      | some r =>
        obtain ⟨fl, o⟩ := r
        simp only [hg] at h
        cases h
        exact Or.inr ⟨rfl, q, f0, fl, o, rfl, hg, rfl⟩

theorem make_fails_keywords {ac ac2 : AhoCorasick} (h : ac.make_fails = some ac2) :
    ac2.keywords = ac.keywords := by
  rcases make_fails_inv h with ⟨fl, _, rfl⟩ | ⟨_, q, f0, fl, o, _, _, rfl⟩ <;> rfl

theorem make_fails_states {ac ac2 : AhoCorasick} (h : ac.make_fails = some ac2) :
    ac2.states = ac.states := by
  rcases make_fails_inv h with ⟨fl, _, rfl⟩ | ⟨_, q, f0, fl, o, _, _, rfl⟩ <;> rfl

theorem outputsOK_make_fails {ac ac2 : AhoCorasick} {K : Nat}
    (hOK : OutputsOK K ac.outputs) (h : ac.make_fails = some ac2) :
    OutputsOK K ac2.outputs := by
  rcases make_fails_inv h with ⟨fl, _, rfl⟩ | ⟨_, q, f0, fl, o, _, hg, rfl⟩
  · exact hOK
  · exact outputsOK_makeFailsGo hOK hg

theorem foldl_add_keyword_keywords (kws : List (List Char)) :
    ∀ ac : AhoCorasick, (kws.foldl AhoCorasick.add_keyword ac).keywords
      = ac.keywords ++ kws := by
  induction kws with
  | nil => intro ac; simp
  | cons k ks ih =>
    intro ac
    rw [List.foldl_cons, ih]
    simp [AhoCorasick.add_keyword]

theorem buildAC_keywords (kws : List (List Char)) : (buildAC kws).keywords = kws := by
  simpa [AhoCorasick.new] using foldl_add_keyword_keywords kws AhoCorasick.new

/-! #### The lazy iterator refines the eager matcher -/

theorem nextAC_none_pending (ac : AhoCorasick) (fuel st loc : Nat)
    (chars : List (Nat × Char)) :
    nextAC ac fuel ⟨st, loc, chars, none⟩ = nextAC ac fuel ⟨st, loc, chars, some []⟩ := by
  cases fuel <;> rfl

theorem drainAC_none_pending (ac : AhoCorasick) (fuel st loc : Nat)
    (chars : List (Nat × Char)) :
    drainAC ac fuel ⟨st, loc, chars, none⟩ = drainAC ac fuel ⟨st, loc, chars, some []⟩ := by
  cases fuel with
  | zero => rfl
  | succ f =>
    show drainStep (drainAC ac f) (nextAC ac (chars.length + 1) ⟨st, loc, chars, none⟩)
      = drainStep (drainAC ac f) (nextAC ac (chars.length + 1) ⟨st, loc, chars, some []⟩)
    rw [nextAC_none_pending]

theorem drainAC_pending_cons (ac : AhoCorasick) (fuel st loc : Nat)
    (chars : List (Nat × Char)) (k : Nat) (rest : List Nat) :
    drainAC ac (fuel+1) ⟨st, loc, chars, some (k :: rest)⟩ =
      match reportOff loc (ac.keywords.getD k []) with
      | none => none
      | some off =>
        (drainAC ac fuel ⟨st, loc, chars, some rest⟩).map
          (fun l => (off, ac.keywords.getD k []) :: l) := by
  have h1 : nextAC ac (chars.length + 1) ⟨st, loc, chars, some (k :: rest)⟩ =
      match reportOff loc (ac.keywords.getD k []) with
      | none => some NextRes.stuck
      | some off => some (NextRes.emit (off, ac.keywords.getD k [])
          ⟨st, loc, chars, some rest⟩) := rfl
  show drainStep (drainAC ac fuel)
      (nextAC ac (chars.length + 1) ⟨st, loc, chars, some (k :: rest)⟩) = _
  rw [h1]
  cases hro : reportOff loc (ac.keywords.getD k []) <;> rfl

theorem drainAC_consume_none {ac : AhoCorasick} {st i : Nat} {c : Char}
    (fuel loc : Nat) (cs : List (Nat × Char))
    (hch : chase ac.states (ac.fails.getD []) c ac.states.length st = none) :
    drainAC ac (fuel+1) ⟨st, loc, (i, c) :: cs, some []⟩ = none := by
  have h1 : nextAC ac (((i, c) :: cs).length + 1) ⟨st, loc, (i, c) :: cs, some []⟩ =
      match chase ac.states (ac.fails.getD []) c ac.states.length st with
      | none => none
      | some s1 =>
        nextAC ac (cs.length + 1)
          ⟨(lookupA (ac.states.getD s1 []) c).getD 0, i, cs,
            some (ac.outputs.getD ((lookupA (ac.states.getD s1 []) c).getD 0) [])⟩ := rfl
  show drainStep (drainAC ac fuel)
      (nextAC ac (((i, c) :: cs).length + 1) ⟨st, loc, (i, c) :: cs, some []⟩) = none
  rw [h1, hch]
  rfl

theorem drainAC_consume_some {ac : AhoCorasick} {st i : Nat} {c : Char} {s1 : Nat}
    (fuel loc : Nat) (cs : List (Nat × Char))
    (hch : chase ac.states (ac.fails.getD []) c ac.states.length st = some s1) :
    drainAC ac (fuel+1) ⟨st, loc, (i, c) :: cs, some []⟩ =
      drainAC ac (fuel+1)
        ⟨(lookupA (ac.states.getD s1 []) c).getD 0, i, cs,
          some (ac.outputs.getD ((lookupA (ac.states.getD s1 []) c).getD 0) [])⟩ := by
  have h1 : nextAC ac (((i, c) :: cs).length + 1) ⟨st, loc, (i, c) :: cs, some []⟩ =
      match chase ac.states (ac.fails.getD []) c ac.states.length st with
      | none => none
      | some s1 =>
        nextAC ac (cs.length + 1)
          ⟨(lookupA (ac.states.getD s1 []) c).getD 0, i, cs,
            some (ac.outputs.getD ((lookupA (ac.states.getD s1 []) c).getD 0) [])⟩ := rfl
  show drainStep (drainAC ac fuel)
      (nextAC ac (((i, c) :: cs).length + 1) ⟨st, loc, (i, c) :: cs, some []⟩)
    = drainStep (drainAC ac fuel)
      (nextAC ac (cs.length + 1)
        ⟨(lookupA (ac.states.getD s1 []) c).getD 0, i, cs,
          some (ac.outputs.getD ((lookupA (ac.states.getD s1 []) c).getD 0) [])⟩)
  rw [h1, hch]

theorem drainAC_pending (ac : AhoCorasick) (st loc : Nat) (chars : List (Nat × Char))
    (R : Option (List (Nat × List Char))) (base : Nat)
    (hbase : ∀ fuel, base ≤ fuel → drainAC ac fuel ⟨st, loc, chars, some []⟩ = R) :
    ∀ (pend : List Nat) (fuel : Nat), pend.length + base ≤ fuel →
      drainAC ac fuel ⟨st, loc, chars, some pend⟩ =
        (do
          let rs ← reports ac.keywords loc pend
          let r ← R
          pure (rs ++ r)) := by
  intro pend
  induction pend with
  | nil =>
    intro fuel hf
    rw [hbase fuel (by simpa using hf)]
    cases R <;> rfl
  | cons k ks ih =>
    intro fuel hf
    rw [List.length_cons] at hf
    obtain ⟨f, rfl⟩ : ∃ f, fuel = f + 1 := ⟨fuel - 1, by omega⟩
    rw [drainAC_pending_cons]
    cases hro : reportOff loc (ac.keywords.getD k []) with
    | none =>
      simp only [reports]
      rw [hro]
      rfl
    | some off =>
      rw [ih f (by omega)]
      simp only [reports]
      rw [hro]
      cases hrs : reports ac.keywords loc ks with
      | none => cases R <;> rfl
      | some rs => cases R <;> rfl

theorem drainAC_eq_scanGo (ac : AhoCorasick) (K : Nat)
    (hK : ∀ s, (ac.outputs.getD s []).length ≤ K) :
    ∀ (cs : List Char) (i st loc : Nat) (pend : List Nat) (fuel : Nat),
      pend.length + (cs.length * (K + 1) + 1) ≤ fuel →
      drainAC ac fuel ⟨st, loc, List.enumFrom i cs, some pend⟩ =
        (do
          let rs ← reports ac.keywords loc pend
          let rest ← scanGo ac.keywords ac.states ac.outputs (ac.fails.getD []) st i cs
          pure (rs ++ rest)) := by
  intro cs
  induction cs with
  | nil =>
    intro i st loc pend fuel hf
    refine drainAC_pending ac st loc _ _ 1 ?_ pend fuel (by simpa using hf)
    intro fuel2 hf2
    obtain ⟨f, rfl⟩ : ∃ f, fuel2 = f + 1 := ⟨fuel2 - 1, by omega⟩
    rfl
  | cons c cs ih =>
    intro i st loc pend fuel hf
    rw [show List.enumFrom i (c :: cs) = (i, c) :: List.enumFrom (i+1) cs from rfl]
    refine drainAC_pending ac st loc _
      (scanGo ac.keywords ac.states ac.outputs (ac.fails.getD []) st i (c :: cs))
      (cs.length * (K + 1) + (K + 1) + 1) ?_ pend fuel ?_
    · intro fuel2 hf2
      obtain ⟨f, rfl⟩ : ∃ f, fuel2 = f + 1 := ⟨fuel2 - 1, by omega⟩
      cases hch : chase ac.states (ac.fails.getD []) c ac.states.length st with
      | none =>
        rw [drainAC_consume_none f loc (List.enumFrom (i+1) cs) hch]
        simp only [scanGo]
        rw [hch]
        rfl
      | some s1 =>
        rw [drainAC_consume_some f loc (List.enumFrom (i+1) cs) hch]
        have hpl := hK ((lookupA (ac.states.getD s1 []) c).getD 0)
        rw [ih (i+1) ((lookupA (ac.states.getD s1 []) c).getD 0) i
            (ac.outputs.getD ((lookupA (ac.states.getD s1 []) c).getD 0) []) (f+1)
            (by omega)]
        simp only [scanGo]
        rw [hch]
        rfl
    · have hmul : (c :: cs).length * (K + 1) = cs.length * (K + 1) + (K + 1) := by
        rw [List.length_cons, add_mul, one_mul]
      omega

/-- C3: for every keyword set and every text, fully draining the lazy
iterator `match_iter` produces exactly the same match list (same pairs, same
order, and a panic exactly when the eager matcher panics) as the eager
`match_`.  This is stronger than the claim, which allows reordering among
matches reported at the same position. -/
theorem c3_eager_equals_lazy (kws : List (List Char)) (t : List Char) :
    (match (buildAC kws).match_iter t with
      | none => none
      | some p => drainAC p.1 (t.length * (kws.length + 1) + 1) p.2) =
    ((buildAC kws).match_ t).2 := by
  unfold AhoCorasick.match_iter AhoCorasick.match_
  cases hmf : (buildAC kws).make_fails with
  | none => rfl
  | some ac2 =>
    simp only
    have hOK : OutputsOK kws.length ac2.outputs := by
      have h1 := outputsOK_buildAC kws
      rw [buildAC_keywords] at h1
      exact outputsOK_make_fails h1 hmf
    have hK : ∀ s, (ac2.outputs.getD s []).length ≤ kws.length := by
      intro s
      by_cases hs : s < ac2.outputs.length
      · have hmem : ac2.outputs.getD s [] ∈ ac2.outputs := by
          rw [List.getD_eq_getElem _ _ hs]
          exact List.getElem_mem _
        exact nodup_bounded_length_le (hOK _ hmem).1 (hOK _ hmem).2
      · rw [List.getD_eq_default _ _ (le_of_not_lt hs)]
        simp
    rw [show t.enum = List.enumFrom 0 t from rfl, drainAC_none_pending,
      drainAC_eq_scanGo ac2 kws.length hK t 0 0 0 [] (t.length * (kws.length + 1) + 1)
        (by simp)]
    cases scanGo ac2.keywords ac2.states ac2.outputs (ac2.fails.getD []) 0 0 t <;> rfl

/-- C9 (counterexample): a single pull of `MatchIter::next` can consume more
than one input symbol.  With keyword `"ab"` and text `"xab"` the freshly
built iterator holds 3 enumerated symbols, yet the very first pull yields
`(1, "ab")` with no symbols left: it consumed all three (the recursion in
`next` skips states with empty output sets). -/
theorem c9_next_consumes_several_symbols :
    ∃ ac it, (buildAC [['a', 'b']]).match_iter ['x', 'a', 'b'] = some (ac, it) ∧
      it.chars.length = 3 ∧
      nextAC ac 10 it = some (.emit (1, ['a', 'b']) ⟨2, 2, [], some []⟩) := by
  refine ⟨_, _, rfl, rfl, ?_⟩
  decide

/-- Consume case of a pull: with no pending outputs, a successful pull on a
non-empty input consumes at least one symbol before finishing or yielding. -/
theorem c9_consume_aux (ac : AhoCorasick) (f st loc : Nat) (chars : List (Nat × Char))
    (r : NextRes)
    (ih : ∀ it2 r2, nextAC ac f it2 = some r2 → PullShape ac it2 r2)
    (h : nextAC ac (f+1) ⟨st, loc, chars, some []⟩ = some r) :
    (chars = [] → r = .finished) ∧
    ∀ m it2, r = .emit m it2 → it2.chars.length < chars.length := by
  cases chars with
  | nil =>
    have h1 : nextAC ac (f+1) ⟨st, loc, [], some []⟩ = some .finished := rfl
    rw [h1] at h
    cases h
    exact ⟨(fun _ => rfl), (fun m it2 hm => nomatch hm)⟩
  | cons p cs =>
    obtain ⟨i, c⟩ := p
    have h1 : nextAC ac (f+1) ⟨st, loc, (i, c) :: cs, some []⟩ =
        match chase ac.states (ac.fails.getD []) c ac.states.length st with
        | none => none
        | some s1 =>
          nextAC ac f
            ⟨(lookupA (ac.states.getD s1 []) c).getD 0, i, cs,
              some (ac.outputs.getD ((lookupA (ac.states.getD s1 []) c).getD 0) [])⟩ := rfl
    rw [h1] at h
    cases hch : chase ac.states (ac.fails.getD []) c ac.states.length st with
    | none =>
      rw [hch] at h
      exact absurd h (by simp)
    | some s1 =>
      rw [hch] at h
      have h2 : nextAC ac f
          ⟨(lookupA (ac.states.getD s1 []) c).getD 0, i, cs,
            some (ac.outputs.getD ((lookupA (ac.states.getD s1 []) c).getD 0) [])⟩
          = some r := h
      have hps := ih _ r h2
      refine ⟨(fun hx => nomatch hx), ?_⟩
      rintro m it2 rfl
      rcases hps with ⟨k, rest, hoi2, hsub⟩ | ⟨_, _, h3⟩
      · rcases hsub with ⟨off, _, hemit⟩ | ⟨_, hstuck⟩
        · injection hemit with hm hit
          subst hit
          simp
        · exact nomatch hstuck
      · have h4 := h3 m it2 rfl
        simp only [List.length_cons]
        simp at h4
        omega

/-- C9 (amended): each pull of `next` either (a) yields the next pending
entry of the current state's output set, consuming no input (or panics on
offset underflow), or (b) consumes one or more input symbols — at least one,
but possibly several when the traversed states have empty output sets —
before yielding or signalling exhaustion. -/
theorem c9_next_pull_shape (ac : AhoCorasick) (fuel : Nat) (it : MatchIter)
    (r : NextRes) (h : nextAC ac fuel it = some r) : PullShape ac it r := by
  induction fuel generalizing it r with
  | zero => simp [nextAC] at h
  | succ f ih =>
    obtain ⟨st, loc, chars, oi⟩ := it
    cases oi with
    | some l =>
      cases l with
      | cons k rest =>
        have h1 : nextAC ac (f+1) ⟨st, loc, chars, some (k :: rest)⟩ =
            match reportOff loc (ac.keywords.getD k []) with
            | none => some NextRes.stuck
            | some off => some (.emit (off, ac.keywords.getD k [])
                ⟨st, loc, chars, some rest⟩) := rfl
        rw [h1] at h
        cases hro : reportOff loc (ac.keywords.getD k []) with
        | none =>
          rw [hro] at h
          cases h
          exact Or.inl ⟨k, rest, rfl, Or.inr ⟨hro, rfl⟩⟩
        | some off =>
          rw [hro] at h
          cases h
          exact Or.inl ⟨k, rest, rfl, Or.inl ⟨off, hro, rfl⟩⟩
      | nil =>
        exact Or.inr ⟨Or.inr rfl, (c9_consume_aux ac f st loc chars r ih h).1,
          (c9_consume_aux ac f st loc chars r ih h).2⟩
    | none =>
      have h0 : nextAC ac (f+1) ⟨st, loc, chars, some []⟩ = some r := by
        rw [← nextAC_none_pending]
        exact h
      exact Or.inr ⟨Or.inl rfl, (c9_consume_aux ac f st loc chars r ih h0).1,
        (c9_consume_aux ac f st loc chars r ih h0).2⟩

/-- Witness for the amended C9 theorem at a concrete input: pulling the
iterator of the empty automaton on empty input finishes, and the pull-shape
theorem instantiates there. -/
theorem c9_next_pull_shape_witness :
    PullShape AhoCorasick.new ⟨0, 0, [], none⟩ .finished :=
  c9_next_pull_shape AhoCorasick.new 1 ⟨0, 0, [], none⟩ .finished rfl

/-- C1 (code bug): the eager matcher does not report offsets in symbol
units.  With the single keyword `"aé"` (2 symbols, 3 bytes) and the text
`"xaé"`, the keyword occurs at symbol offset 1 and nowhere else, but
`match_` reports offset 0, because `aho_corasick.rs:129` computes
`ch_idx - (kw.len() - 1)` with `len()` the UTF-8 byte length (the source's
own FIXME acknowledges this). -/
theorem c1_match_reports_byte_based_offset :
    ((buildAC [['a', 'é']]).match_ ['x', 'a', 'é']).2 = some [(0, ['a', 'é'])] ∧
    occursAt ['x', 'a', 'é'] ['a', 'é'] 1 ∧ ¬ occursAt ['x', 'a', 'é'] ['a', 'é'] 0 := by
  refine ⟨by decide, by decide, by decide⟩

/-- C2 (code bug): matching can fail on valid input.  With the single
keyword `"é"` and the text `"é"`, the offset computation
`ch_idx - (kw.len() - 1)` at `aho_corasick.rs:129` underflows
(`0 - (2 - 1)` in `usize`), a panic in debug builds — `match_` does not
return a match list. -/
theorem c2_match_underflows_on_multibyte_keyword :
    ((buildAC [['é']]).match_ ['é']).2 = none := by decide

/-- C8 (code bug): `KMP::match_` does not terminate on pattern `"aab"` and
text `"ab"`.  The backtracking loop at `kmp.rs:108` sets
`n_matched = pfx[n_matched]` (instead of `pfx[n_matched - 1]`); at
`n_matched = 1` with mismatching `'b'` it loops forever since
`pfx[1] = 1`.  In the fuelled model the match returns `none` for every
fuel. -/
theorem c8_kmp_match_diverges :
    ∃ k : KMP Char, KMP.new ['a', 'a', 'b'] = some k ∧
      ∀ fuel, k.match_ fuel ['a', 'b'] = none := by
  refine ⟨{ pat := ['a', 'a', 'b'], pfx := [0, 1, 0] }, by decide, ?_⟩
  have hchase : ∀ fuel, kmpChase ['a', 'a', 'b'] [0, 1, 0] 'b' fuel 1 = none := by
    intro fuel
    induction fuel with
    | zero => rfl
    | succ f ih => simpa [kmpChase] using ih
  intro fuel
  cases fuel with
  | zero => rfl
  | succ f =>
    show kmpMatchGo ['a', 'a', 'b'] [0, 1, 0] (f + 1) 0 0 ['a', 'b'] = none
    simp [kmpMatchGo, kmpChase, hchase]

/-! #### Association-list lookup vs membership -/

theorem lookupA_eq_none_iff {m : AMap} {c : Char} :
    lookupA m c = none ↔ ∀ t, (c, t) ∉ m := by
  induction m with
  | nil => simp [lookupA]
  | cons p rest ih =>
    obtain ⟨c', t'⟩ := p
    rw [lookupA]
    by_cases hc : c' = c
    · subst hc
      rw [if_pos rfl]
      constructor
      · intro h
        cases h
      · intro h
        exact absurd (List.mem_cons_self (c', t') rest) (h t')
    · rw [if_neg hc, ih]
      constructor
      · intro h t hmem
        rcases List.mem_cons.1 hmem with heq | hmem
        · exact hc (by injection heq with h1 h2; exact h1.symm)
        · exact h t hmem
      · intro h t hmem
        exact h t (List.mem_cons_of_mem _ hmem)

theorem lookupA_mem {m : AMap} {c : Char} {t : Nat} (h : lookupA m c = some t) :
    (c, t) ∈ m := by
  induction m with
  | nil => simp [lookupA] at h
  | cons p rest ih =>
    obtain ⟨c', t'⟩ := p
    rw [lookupA] at h
    by_cases hc : c' = c
    · rw [if_pos hc] at h
      cases h
      subst hc
      exact List.mem_cons_self _ _
    · rw [if_neg hc] at h
      exact List.mem_cons_of_mem _ (ih h)

theorem mem_lookupA {m : AMap} {c : Char} {t : Nat} (hnd : (m.map Prod.fst).Nodup)
    (h : (c, t) ∈ m) : lookupA m c = some t := by
  induction m with
  | nil => cases h
  | cons p rest ih =>
    obtain ⟨c', t'⟩ := p
    rw [lookupA]
    rcases List.mem_cons.1 h with heq | hmem
    · injection heq with h1 h2
      rw [if_pos h1.symm, h2]
    · rw [List.map_cons, List.nodup_cons] at hnd
      have hc : c' ≠ c := by
        intro hcc
        subst hcc
        have hmem2 : c' ∈ rest.map Prod.fst := by
          have := List.mem_map_of_mem Prod.fst hmem
          simpa using this
        exact hnd.1 hmem2
      rw [if_neg hc]
      exact ih hnd.2 hmem

/-! #### Edge targets of the trie -/

theorem mem_getD_lt {states : List AMap} {s : Nat} {p : Char × Nat}
    (h : p ∈ states.getD s []) : s < states.length := by
  by_contra hs
  rw [List.getD_eq_default _ _ (le_of_not_lt hs)] at h
  cases h

theorem mem_allTargets {states : List AMap} {t : Nat} :
    t ∈ allTargets states ↔ ∃ s c, (c, t) ∈ states.getD s [] := by
  unfold allTargets
  rw [List.mem_flatten]
  constructor
  · rintro ⟨l, hl, ht⟩
    rw [List.mem_map] at hl
    obtain ⟨m, hm, rfl⟩ := hl
    rw [List.mem_iff_getElem] at hm
    obtain ⟨s, hs, rfl⟩ := hm
    rw [List.mem_map] at ht
    obtain ⟨p, hp, hpt⟩ := ht
    refine ⟨s, p.1, ?_⟩
    rw [List.getD_eq_getElem _ _ hs]
    obtain ⟨c, t2⟩ := p
    simp only at hpt
    rw [← hpt]
    exact hp
  · rintro ⟨s, c, hmem⟩
    have hs : s < states.length := mem_getD_lt hmem
    refine ⟨(states.get ⟨s, hs⟩).map Prod.snd,
      List.mem_map_of_mem (fun m => m.map Prod.snd) (List.getElem_mem hs), ?_⟩
    rw [List.getD_eq_getElem _ _ hs] at hmem
    exact List.mem_map.2 ⟨(c, t), hmem, rfl⟩

theorem edge_unique {states : List AMap} (hT : TrieInv states)
    {s1 s2 : Nat} {c1 c2 : Char} {t : Nat}
    (h1 : (c1, t) ∈ states.getD s1 []) (h2 : (c2, t) ∈ states.getD s2 []) :
    s1 = s2 ∧ c1 = c2 := by
  have hnd := hT.targets_nodup
  unfold allTargets at hnd
  rw [List.nodup_flatten] at hnd
  have hs1 : s1 < states.length := mem_getD_lt h1
  have hs2 : s2 < states.length := mem_getD_lt h2
  have heq : s1 = s2 := by
    by_contra hne
    have hpw := hnd.2
    rw [List.pairwise_iff_getElem] at hpw
    have hlen : (states.map (fun m => m.map Prod.snd)).length = states.length := by simp
    have hmem1 : t ∈ (states.map (fun m => m.map Prod.snd)).get ⟨s1, by omega⟩ := by
      rw [List.get_eq_getElem, List.getElem_map]
      exact List.mem_map.2 ⟨(c1, t), by rwa [List.getD_eq_getElem _ _ hs1] at h1, rfl⟩
    have hmem2 : t ∈ (states.map (fun m => m.map Prod.snd)).get ⟨s2, by omega⟩ := by
      rw [List.get_eq_getElem, List.getElem_map]
      exact List.mem_map.2 ⟨(c2, t), by rwa [List.getD_eq_getElem _ _ hs2] at h2, rfl⟩
    rcases Nat.lt_or_ge s1 s2 with hlt | hge
    · exact hpw s1 s2 (by omega) (by omega) hlt hmem1 hmem2
    · have hlt : s2 < s1 := by omega
      exact hpw s2 s1 (by omega) (by omega) hlt hmem2 hmem1
  subst heq
  refine ⟨rfl, ?_⟩
  have hone : ((states.get ⟨s1, hs1⟩).map Prod.snd).Nodup :=
    hnd.1 _ (List.mem_map_of_mem (fun m => m.map Prod.snd) (List.getElem_mem hs1))
  rw [List.getD_eq_getElem _ _ hs1] at h1 h2
  have hpair := List.inj_on_of_nodup_map hone h1 h2 rfl
  exact congrArg Prod.fst hpair

/-! #### Parent edges and root paths -/

theorem parentEdge_some {states : List AMap} {t s : Nat} {c : Char}
    (h : parentEdge states t = some (s, c)) : (c, t) ∈ states.getD s [] := by
  unfold parentEdge at h
  rw [List.findSome?_eq_some_iff] at h
  obtain ⟨l1, a, l2, hsplit, ha, hnone⟩ := h
  cases hf : (states.getD a []).find? (fun p => p.2 == t) with
  | none => rw [hf] at ha; cases ha
  | some p =>
    rw [hf] at ha
    simp only [Option.map_some'] at ha
    injection ha with hac
    have ha1 : a = s := congrArg Prod.fst hac
    have ha2 : p.1 = c := congrArg Prod.snd hac
    subst ha1
    have hmem := List.mem_of_find?_eq_some hf
    have hpt : p.2 = t := by simpa using List.find?_some hf
    obtain ⟨pc, pt⟩ := p
    simp only at ha2 hpt
    rw [← ha2, ← hpt]
    exact hmem

theorem edge_parentEdge {states : List AMap} (hT : TrieInv states) {s : Nat} {c : Char}
    {t : Nat} (h : (c, t) ∈ states.getD s []) : parentEdge states t = some (s, c) := by
  cases hp : parentEdge states t with
  | some p =>
    obtain ⟨s2, c2⟩ := p
    have hmem2 := parentEdge_some hp
    obtain ⟨rfl, rfl⟩ := edge_unique hT hmem2 h
    rfl
  | none =>
    exfalso
    unfold parentEdge at hp
    rw [List.findSome?_eq_none_iff] at hp
    have hs : s < states.length := mem_getD_lt h
    have := hp s (List.mem_range.2 hs)
    cases hf : (states.getD s []).find? (fun p => p.2 == t) with
    | some p => rw [hf] at this; cases this
    | none =>
      have := List.find?_eq_none.1 hf (c, t) h
      simp at this

theorem parentEdge_root {states : List AMap} (hT : TrieInv states) :
    parentEdge states 0 = none := by
  cases hp : parentEdge states 0 with
  | none => rfl
  | some p =>
    obtain ⟨s, c⟩ := p
    have hmem := parentEdge_some hp
    have := (hT.edge_lt s _ hmem).1
    omega

theorem path_zero (states : List AMap) : path states 0 = [] := rfl

theorem pathOf_stable {states : List AMap} (hT : TrieInv states) :
    ∀ t fuel, t ≤ fuel → pathOf states fuel t = path states t := by
  intro t
  induction t using Nat.strong_induction_on with
  | _ t ih =>
    intro fuel hf
    rcases Nat.eq_zero_or_pos t with rfl | htpos
    · rcases fuel with _ | f
      · rfl
      · rw [pathOf, if_pos rfl]
        rfl
    · obtain ⟨u, rfl⟩ : ∃ u, t = u + 1 := ⟨t - 1, by omega⟩
      obtain ⟨f, rfl⟩ : ∃ f, fuel = f + 1 := ⟨fuel - 1, by omega⟩
      have hne : u + 1 ≠ 0 := by omega
      cases hp : parentEdge states (u + 1) with
      | none =>
        show pathOf states (f+1) (u+1) = pathOf states (u+1) (u+1)
        rw [pathOf, if_neg hne, hp, pathOf, if_neg hne, hp]
      | some p =>
        obtain ⟨s, c⟩ := p
        have hmem := parentEdge_some hp
        have hslt : s < u + 1 := (hT.edge_lt s _ hmem).1
        have hL : pathOf states (f+1) (u+1) = pathOf states f s ++ [c] := by
          rw [pathOf, if_neg hne, hp]
        have hR : path states (u+1) = pathOf states u s ++ [c] := by
          show pathOf states (u+1) (u+1) = _
          rw [pathOf, if_neg hne, hp]
        rw [hL, hR, ih s (by omega) f (by omega), ih s (by omega) u (by omega)]

theorem path_edge {states : List AMap} (hT : TrieInv states) {s : Nat} {c : Char}
    {t : Nat} (h : (c, t) ∈ states.getD s []) :
    path states t = path states s ++ [c] := by
  have hp := edge_parentEdge hT h
  have hst := (hT.edge_lt s _ h).1
  have ht : t ≠ 0 := by omega
  obtain ⟨u, rfl⟩ : ∃ u, t = u + 1 := ⟨t - 1, by omega⟩
  have hx : path states (u+1) = pathOf states u s ++ [c] := by
    show pathOf states (u+1) (u+1) = _
    rw [pathOf, if_neg ht, hp]
  rw [hx, pathOf_stable hT s u (by omega)]

theorem path_ne_nil {states : List AMap} (hT : TrieInv states) {t : Nat} (h1 : 1 ≤ t)
    (h2 : t < states.length) : path states t ≠ [] := by
  have hmem := hT.targets_complete t h1 h2
  rw [mem_allTargets] at hmem
  obtain ⟨s, c, hmem⟩ := hmem
  rw [path_edge hT hmem]
  simp

theorem path_eq_nil {states : List AMap} (hT : TrieInv states) {t : Nat}
    (h2 : t < states.length) (h : path states t = []) : t = 0 := by
  by_contra ht
  exact path_ne_nil hT (by omega) h2 h

theorem path_inj {states : List AMap} (hT : TrieInv states) :
    ∀ t1, t1 < states.length → ∀ t2, t2 < states.length →
      path states t1 = path states t2 → t1 = t2 := by
  intro t1
  induction t1 using Nat.strong_induction_on with
  | _ t1 ih =>
    intro h1 t2 h2 heq
    rcases Nat.eq_zero_or_pos t1 with rfl | hpos1
    · rw [path_zero] at heq
      exact (path_eq_nil hT h2 heq.symm).symm
    · rcases Nat.eq_zero_or_pos t2 with rfl | hpos2
      · rw [path_zero] at heq
        exact path_eq_nil hT h1 heq
      · have e1 := hT.targets_complete t1 hpos1 h1
        have e2 := hT.targets_complete t2 hpos2 h2
        rw [mem_allTargets] at e1 e2
        obtain ⟨s1, c1, m1⟩ := e1
        obtain ⟨s2, c2, m2⟩ := e2
        rw [path_edge hT m1, path_edge hT m2] at heq
        rw [← List.concat_eq_append, ← List.concat_eq_append, List.concat_inj] at heq
        obtain ⟨hpar, rfl⟩ := heq
        have hs12 : s1 = s2 :=
          ih s1 (hT.edge_lt s1 _ m1).1 (mem_getD_lt m1) s2 (mem_getD_lt m2) hpar
        subst hs12
        have l1 := mem_lookupA (hT.keys_nodup s1) m1
        have l2 := mem_lookupA (hT.keys_nodup s1) m2
        rw [l1] at l2
        injection l2

theorem stateOf_eq_some {states : List AMap} (hT : TrieInv states) {w : List Char}
    {t : Nat} : stateOf states w = some t ↔ t < states.length ∧ path states t = w := by
  constructor
  · intro h
    unfold stateOf at h
    have hmem := List.mem_of_find?_eq_some h
    have hfind := List.find?_some h
    exact ⟨List.mem_range.1 hmem, by simpa using hfind⟩
  · rintro ⟨ht, rfl⟩
    unfold stateOf
    cases hf : (List.range states.length).find? (fun u => path states u == path states t) with
    | none =>
      exfalso
      have := List.find?_eq_none.1 hf t (List.mem_range.2 ht)
      simp at this
    | some u =>
      have hmemu := List.mem_of_find?_eq_some hf
      have hpu := List.find?_some hf
      have : u = t := path_inj hT u (List.mem_range.1 hmemu) t ht (by simpa using hpu)
      rw [this]

theorem stateOf_eq_none {states : List AMap} (hT : TrieInv states) {w : List Char}
    (h : stateOf states w = none) : ∀ t, t < states.length → path states t ≠ w := by
  intro t ht hw
  rw [(stateOf_eq_some hT).2 ⟨ht, hw⟩] at h
  cases h

theorem stateOf_nil {states : List AMap} (hT : TrieInv states) :
    stateOf states [] = some 0 := by
  refine (stateOf_eq_some hT).2 ⟨?_, path_zero states⟩
  have := hT.root_exists
  cases hst : states with
  | nil => exact absurd hst this
  | cons a l => simp [hst]

/-! #### The best-suffix state -/

theorem bestSuf_spec {states : List AMap} (hT : TrieInv states) (w : List Char) :
    bestSuf states w < states.length ∧
    path states (bestSuf states w) <:+ w ∧
    (∀ u, u < states.length → path states u <:+ w →
      (path states u).length ≤ (path states (bestSuf states w)).length) := by
  induction w with
  | nil =>
    refine ⟨?_, by simp [bestSuf, path_zero], ?_⟩
    · have := hT.root_exists
      rw [bestSuf]
      cases hst : states with
      | nil => exact absurd hst this
      | cons a l => simp [hst]
    · intro u hu hsuf
      have : path states u = [] := List.eq_nil_of_suffix_nil hsuf
      simp [bestSuf, this]
  | cons c rest ih =>
    rw [bestSuf]
    cases hso : stateOf states (c :: rest) with
    | some u =>
      have hu := (stateOf_eq_some hT).1 hso
      refine ⟨hu.1, by rw [hu.2], ?_⟩
      intro v hv hsuf
      rw [hu.2]
      exact hsuf.length_le
    | none =>
      obtain ⟨ih1, ih2, ih3⟩ := ih
      refine ⟨ih1, ih2.trans (List.suffix_cons c rest), ?_⟩
      intro v hv hsuf
      rcases List.suffix_cons_iff.1 hsuf with heq | hsuf2
      · exact absurd hso (by rw [(stateOf_eq_some hT).2 ⟨hv, heq⟩]; simp)
      · exact ih3 v hv hsuf2

/-! #### The ideal failure link -/

theorem idealFail_spec {states : List AMap} (hT : TrieInv states) {t : Nat}
    (h1 : 1 ≤ t) (h2 : t < states.length) :
    idealFail states t < states.length ∧
    path states (idealFail states t) <:+ path states t ∧
    path states (idealFail states t) ≠ path states t ∧
    ∀ u, u < states.length → path states u <:+ path states t →
      path states u ≠ path states t →
      (path states u).length ≤ (path states (idealFail states t)).length := by
  have hne := path_ne_nil hT h1 h2
  obtain ⟨a, l, hal⟩ : ∃ a l, path states t = a :: l := by
    cases hpt : path states t with
    | nil => exact absurd hpt hne
    | cons a l => exact ⟨a, l, rfl⟩
  have hbs := bestSuf_spec hT (path states t).tail
  rw [hal] at hbs
  simp only [List.tail_cons] at hbs
  have hif : idealFail states t = bestSuf states l := by
    unfold idealFail
    rw [hal, List.tail_cons]
  rw [hif, hal]
  refine ⟨hbs.1, hbs.2.1.trans (List.suffix_cons a l), ?_, ?_⟩
  · intro heq
    have hlen := hbs.2.1.length_le
    rw [heq] at hlen
    simp at hlen
  · intro u hu hsuf hneq
    rcases List.suffix_cons_iff.1 hsuf with heq | hsuf2
    · exact absurd heq hneq
    · exact hbs.2.2 u hu hsuf2

theorem idealFail_depth_lt {states : List AMap} (hT : TrieInv states) {t : Nat}
    (h1 : 1 ≤ t) (h2 : t < states.length) :
    (path states (idealFail states t)).length < (path states t).length := by
  obtain ⟨hlt, hsuf, hne, _⟩ := idealFail_spec hT h1 h2
  have := hsuf.length_le
  rcases Nat.lt_or_ge (path states (idealFail states t)).length (path states t).length
    with h | h
  · exact h
  · exfalso
    exact hne (List.IsSuffix.eq_of_length hsuf (by omega))

/-! #### The empty trie and trie extension -/

theorem trieInv_new : TrieInv AhoCorasick.new.states := by
  refine ⟨by simp [AhoCorasick.new], ?_, ?_, ?_, ?_⟩
  · intro s p hp
    have : (AhoCorasick.new.states.getD s []) = [] := by
      cases s <;> rfl
    rw [this] at hp
    cases hp
  · intro s
    have : (AhoCorasick.new.states.getD s []) = [] := by
      cases s <;> rfl
    rw [this]
    simp
  · decide
  · intro t ht1 ht2
    simp [AhoCorasick.new] at ht2
    omega

theorem trieExt_refl (states : List AMap) : TrieExt states states :=
  ⟨le_refl _, fun _ => List.prefix_refl _, fun _ _ hmem hnot => absurd hmem hnot⟩

theorem trieExt_trans {s1 s2 s3 : List AMap} (h12 : TrieExt s1 s2) (h23 : TrieExt s2 s3) :
    TrieExt s1 s3 := by
  refine ⟨le_trans h12.len_le h23.len_le,
    fun s => (h12.map_prefix s).trans (h23.map_prefix s), ?_⟩
  intro s p hmem3 hnot1
  by_cases hmem2 : p ∈ s2.getD s []
  · exact h12.new_edge_big s p hmem2 hnot1
  · exact le_trans h12.len_le (h23.new_edge_big s p hmem3 hmem2)

theorem path_stable_ext {states states' : List AMap} (hT : TrieInv states)
    (hT' : TrieInv states') (hE : TrieExt states states') :
    ∀ u, u < states.length → path states' u = path states u := by
  intro u
  induction u using Nat.strong_induction_on with
  | _ u ih =>
    intro hu
    rcases Nat.eq_zero_or_pos u with rfl | hpos
    · rw [path_zero, path_zero]
    · have hmem := hT.targets_complete u hpos hu
      rw [mem_allTargets] at hmem
      obtain ⟨s, c, hmem⟩ := hmem
      have hmem' : (c, u) ∈ states'.getD s [] := (hE.map_prefix s).subset hmem
      rw [path_edge hT' hmem', path_edge hT hmem,
        ih s (hT.edge_lt s _ hmem).1 (mem_getD_lt hmem)]

/-! #### `allTargets` under a vacant-edge insertion -/

theorem allTargets_cons (m : AMap) (rest : List AMap) :
    allTargets (m :: rest) = m.map Prod.snd ++ allTargets rest := rfl

theorem allTargets_append_unit (states : List AMap) :
    allTargets (states ++ [[]]) = allTargets states := by
  unfold allTargets
  rw [List.map_append, List.flatten_append]
  simp

theorem allTargets_extend (states : List AMap) (c : Char) (n : Nat) :
    ∀ state, state < states.length →
      (allTargets (modifyAt (fun m => m ++ [(c, n)]) state states ++ [[]])).Perm
        (n :: allTargets states) := by
  induction states with
  | nil => intro state h; simp at h
  | cons m rest ih =>
    intro state hstate
    rw [allTargets_append_unit]
    cases state with
    | zero =>
      show (allTargets ((m ++ [(c, n)]) :: rest)).Perm _
      rw [allTargets_cons, List.map_append]
      simp only [List.map_cons, List.map_nil]
      rw [List.append_assoc]
      exact List.perm_middle
    | succ state =>
      show (allTargets (m :: modifyAt (fun m => m ++ [(c, n)]) state rest)).Perm _
      rw [allTargets_cons, allTargets_cons]
      have hperm := ih state (by simpa using hstate)
      rw [allTargets_append_unit] at hperm
      exact (List.Perm.append_left (m.map Prod.snd) hperm).trans List.perm_middle

/-! #### The trie walk of `add_keyword` preserves the invariants -/

theorem length_extendStates (states : List AMap) (state : Nat) (c : Char) (n : Nat) :
    (modifyAt (fun m => m ++ [(c, n)]) state states ++ [[]]).length
      = states.length + 1 := by
  rw [List.length_append, modifyAt_length]
  rfl

theorem getD_extendStates (states : List AMap) (state : Nat) (c : Char) (n : Nat)
    (hstate : state < states.length) (s : Nat) :
    (modifyAt (fun m => m ++ [(c, n)]) state states ++ [[]]).getD s [] =
      if s = state then states.getD state [] ++ [(c, n)] else states.getD s [] := by
  by_cases hs : s = state
  · subst hs
    rw [if_pos rfl, List.getD_append _ _ _ _ (by rw [modifyAt_length]; exact hstate),
      modifyAt_getD_eq _ _ _ hstate]
  · rw [if_neg hs]
    by_cases hlt : s < states.length
    · rw [List.getD_append _ _ _ _ (by rw [modifyAt_length]; exact hlt),
        modifyAt_getD_ne _ _ _ (fun h => hs h.symm)]
    · rw [List.getD_eq_default _ _ (le_of_not_lt hlt),
        List.getD_append_right _ _ _ _ (by rw [modifyAt_length]; omega)]
      rcases Nat.eq_or_lt_of_le (le_of_not_lt hlt) with heq | hgt
      · rw [modifyAt_length, ← heq, Nat.sub_self]
        rfl
      · rw [modifyAt_length]
        rw [List.getD_eq_default]
        simp
        omega

theorem trieInv_extendStates {states : List AMap} (hT : TrieInv states) {state : Nat}
    (hst : state < states.length) {c : Char}
    (hlook : lookupA (states.getD state []) c = none) :
    TrieInv (modifyAt (fun m => m ++ [(c, states.length)]) state states ++ [[]]) := by
  have hlen2 := length_extendStates states state c states.length
  have hgetD := getD_extendStates states state c states.length hst
  have hperm := allTargets_extend states c states.length state hst
  refine ⟨?_, ?_, ?_, ?_, ?_⟩
  · intro hemp
    have := congrArg List.length hemp
    rw [hlen2] at this
    simp at this
  · intro s p hp
    rw [hgetD s] at hp
    by_cases hs : s = state
    · rw [if_pos hs] at hp
      rcases List.mem_append.1 hp with hp | hp
      · have := hT.edge_lt state p hp
        exact ⟨hs ▸ this.1, by rw [hlen2]; omega⟩
      · simp only [List.mem_singleton] at hp
        subst hp
        exact ⟨hs ▸ hst, by rw [hlen2]; omega⟩
    · rw [if_neg hs] at hp
      have := hT.edge_lt s p hp
      exact ⟨this.1, by rw [hlen2]; omega⟩
  · intro s
    rw [hgetD s]
    by_cases hs : s = state
    · rw [if_pos hs, List.map_append]
      rw [List.nodup_append]
      refine ⟨hs ▸ hT.keys_nodup state, by simp, ?_⟩
      intro x hx hx2
      simp only [List.map_cons, List.map_nil, List.mem_singleton] at hx2
      subst hx2
      rw [List.mem_map] at hx
      obtain ⟨p, hp, hpc⟩ := hx
      obtain ⟨pc, pt⟩ := p
      simp only at hpc
      subst hpc
      exact lookupA_eq_none_iff.1 hlook pt hp
    · rw [if_neg hs]
      exact hT.keys_nodup s
  · rw [hperm.nodup_iff, List.nodup_cons]
    refine ⟨?_, hT.targets_nodup⟩
    intro hmem
    rw [mem_allTargets] at hmem
    obtain ⟨s, c2, hmem⟩ := hmem
    have := (hT.edge_lt s _ hmem).2
    omega
  · intro t ht1 ht2
    rw [hlen2] at ht2
    rw [hperm.mem_iff]
    rcases Nat.lt_or_ge t states.length with hlt | hge
    · exact List.mem_cons_of_mem _ (hT.targets_complete t ht1 hlt)
    · have : t = states.length := by omega
      rw [this]
      exact List.mem_cons_self _ _

theorem trieExt_extendStates {states : List AMap} {state : Nat}
    (hst : state < states.length) (c : Char) :
    TrieExt states (modifyAt (fun m => m ++ [(c, states.length)]) state states ++ [[]]) := by
  have hlen2 := length_extendStates states state c states.length
  have hgetD := getD_extendStates states state c states.length hst
  refine ⟨by rw [hlen2]; omega, ?_, ?_⟩
  · intro s
    rw [hgetD s]
    by_cases hs : s = state
    · rw [if_pos hs, hs]
      exact List.prefix_append _ _
    · rw [if_neg hs]
  · intro s p hp hnot
    rw [hgetD s] at hp
    by_cases hs : s = state
    · rw [if_pos hs] at hp
      rcases List.mem_append.1 hp with hp | hp
      · rw [hs] at hnot
        exact absurd hp hnot
      · simp only [List.mem_singleton] at hp
        subst hp
        exact le_refl _
    · rw [if_neg hs] at hp
      exact absurd hp hnot

theorem addKeywordGo_spec :
    ∀ (cs : List Char) (states : List AMap) (outputs : List (List Nat)) (state : Nat)
      (res : List AMap × List (List Nat) × Nat),
      addKeywordGo states outputs state cs = res →
      TrieInv states → state < states.length → outputs.length = states.length →
      TrieInv res.1 ∧ res.2.2 < res.1.length ∧ res.2.1.length = res.1.length ∧
      TrieExt states res.1 ∧
      (∀ u, u < states.length → path res.1 u = path states u) ∧
      path res.1 res.2.2 = path states state ++ cs ∧
      (∀ u, states.length ≤ u → u < res.1.length →
        ∃ pre, pre ≠ [] ∧ pre <+: cs ∧ path res.1 u = path states state ++ pre) := by
  intro cs
  induction cs with
  | nil =>
    intro states outputs state res hres hT hst houts
    rw [addKeywordGo] at hres
    subst hres
    refine ⟨hT, hst, houts, trieExt_refl _, fun u _ => rfl, by simp, ?_⟩
    intro u hu1 hu2
    simp only at hu2
    omega
  | cons c cs ih =>
    intro states outputs state res hres hT hst houts
    rw [addKeywordGo] at hres
    cases hlook : lookupA (states.getD state []) c with
    | some t =>
      rw [hlook] at hres
      have hmem := lookupA_mem hlook
      have ht := hT.edge_lt state _ hmem
      obtain ⟨hTr, hlt, hout, hExt, hstab, hend, hnew⟩ :=
        ih states outputs t res hres hT ht.2 houts
      refine ⟨hTr, hlt, hout, hExt, hstab, ?_, ?_⟩
      · rw [hend, path_edge hT hmem]
        simp
      · intro u hu1 hu2
        obtain ⟨pre, hpre1, hpre2, hpre3⟩ := hnew u hu1 hu2
        refine ⟨c :: pre, by simp, List.cons_prefix_cons.2 ⟨rfl, hpre2⟩, ?_⟩
        rw [hpre3, path_edge hT hmem]
        simp
    | none =>
      rw [hlook] at hres
      have hlen2 := length_extendStates states state c states.length
      have hT2 := trieInv_extendStates hT hst hlook
      have hE2 := trieExt_extendStates hst c
      have hgetD := getD_extendStates states state c states.length hst
      have hstab2 := path_stable_ext hT hT2 hE2
      have hmemn : (c, states.length)
          ∈ (modifyAt (fun m => m ++ [(c, states.length)]) state states ++ [[]]).getD
            state [] := by
        rw [hgetD state, if_pos rfl]
        simp
      have hpathn :
          path (modifyAt (fun m => m ++ [(c, states.length)]) state states ++ [[]])
            states.length = path states state ++ [c] := by
        rw [path_edge hT2 hmemn, hstab2 state hst]
      obtain ⟨hTr, hlt, hout, hExt, hstab, hend, hnew⟩ :=
        ih (modifyAt (fun m => m ++ [(c, states.length)]) state states ++ [[]])
          (outputs ++ [[]]) states.length res hres hT2 (by omega)
          (by rw [List.length_append, houts, hlen2]; rfl)
      refine ⟨hTr, hlt, hout, trieExt_trans hE2 hExt, ?_, ?_, ?_⟩
      · intro u hu
        rw [hstab u (by omega), hstab2 u hu]
      · rw [hend, hpathn]
        simp
      · intro u hu1 hu2
        by_cases hun : u = states.length
        · subst hun
          refine ⟨[c], by simp, List.cons_prefix_cons.2 ⟨rfl, List.nil_prefix⟩, ?_⟩
          rw [hstab states.length (by omega), hpathn]
        · obtain ⟨pre, h1, h2, h3⟩ := hnew u (by omega) hu2
          refine ⟨c :: pre, by simp, List.cons_prefix_cons.2 ⟨rfl, h2⟩, ?_⟩
          rw [h3, hpathn]
          simp

/-! #### `add_keyword` at the automaton level -/

theorem getD_mem_of_lt {α : Type*} {l : List α} {k : Nat} (d : α) (h : k < l.length) :
    l.getD k d ∈ l := by
  rw [List.getD_eq_getElem _ _ h]
  exact List.getElem_mem h

theorem getD_replicate_nil (m i : Nat) :
    (List.replicate m ([] : List Nat)).getD i [] = [] := by
  by_cases h : i < m
  · rw [List.getD_eq_getElem _ _ (by simpa using h)]
    exact List.getElem_replicate _ _
  · exact List.getD_eq_default _ _ (by simpa using le_of_not_lt h)

theorem getD_append_replicate_nil (outputs : List (List Nat)) (m t : Nat) :
    (outputs ++ List.replicate m ([] : List Nat)).getD t [] = outputs.getD t [] := by
  by_cases ht : t < outputs.length
  · rw [List.getD_append _ _ _ _ ht]
  · rw [List.getD_eq_default _ _ (le_of_not_lt ht),
      List.getD_append_right _ _ _ _ (le_of_not_lt ht), getD_replicate_nil]

theorem addKeywordGo_outputs_shape :
    ∀ (cs : List Char) (states : List AMap) (outputs : List (List Nat)) (state : Nat),
      ∃ m, (addKeywordGo states outputs state cs).2.1
        = outputs ++ List.replicate m ([] : List Nat) := by
  intro cs
  induction cs with
  | nil =>
    intro states outputs state
    exact ⟨0, by simp [addKeywordGo]⟩
  | cons c cs ih =>
    intro states outputs state
    rw [addKeywordGo]
    cases hlook : lookupA (states.getD state []) c with
    | some t => exact ih states outputs t
    | none =>
      obtain ⟨m, hm⟩ := ih
        (modifyAt (fun mp => mp ++ [(c, states.length)]) state states ++ [[]])
        (outputs ++ [[]]) states.length
      exact ⟨m + 1, by rw [hm, List.append_assoc]; simp [List.replicate_succ]⟩

theorem addKeywordGo_append (l1 l2 : List Char) :
    ∀ (states : List AMap) (outputs : List (List Nat)) (state : Nat),
      addKeywordGo states outputs state (l1 ++ l2)
        = addKeywordGo (addKeywordGo states outputs state l1).1
            (addKeywordGo states outputs state l1).2.1
            (addKeywordGo states outputs state l1).2.2 l2 := by
  induction l1 with
  | nil => intro states outputs state; rfl
  | cons c cs ih =>
    intro states outputs state
    show addKeywordGo states outputs state (c :: (cs ++ l2)) = _
    rw [addKeywordGo, addKeywordGo]
    cases hlook : lookupA (states.getD state []) c with
    | some t => exact ih states outputs t
    | none =>
      exact ih (modifyAt (fun m => m ++ [(c, states.length)]) state states ++ [[]])
        (outputs ++ [[]]) states.length

theorem acInv_new : ACInv AhoCorasick.new := by
  refine ⟨trieInv_new, rfl, ?_, ?_, ?_, ?_⟩
  · intro t k
    constructor
    · intro h
      have : (AhoCorasick.new.outputs.getD t []) = [] := by cases t <;> rfl
      rw [this] at h
      cases h
    · rintro ⟨hk, _, _⟩
      simp [AhoCorasick.new] at hk
  · intro l hl
    simp only [AhoCorasick.new, List.mem_singleton] at hl
    simp [hl]
  · intro t ht
    simp only [AhoCorasick.new, List.length_singleton] at ht
    interval_cases t
    exact Or.inl (path_zero _)
  · intro kw hkw
    simp [AhoCorasick.new] at hkw

theorem acInv_add_keyword {ac : AhoCorasick} (h : ACInv ac) (s : List Char) :
    ACInv (ac.add_keyword s) := by
  have hroot : 0 < ac.states.length := List.length_pos.2 h.trie.root_exists
  obtain ⟨hTr, hlt, hout, hExt, hstab, hend, hnew⟩ :=
    addKeywordGo_spec s ac.states ac.outputs 0 _ rfl h.trie hroot h.outs_len
  obtain ⟨m, hshape⟩ := addKeywordGo_outputs_shape s ac.states ac.outputs 0
  have hgetDout : ∀ t, (addKeywordGo ac.states ac.outputs 0 s).2.1.getD t []
      = ac.outputs.getD t [] := by
    intro t
    rw [hshape, getD_append_replicate_nil]
  have hends : path (addKeywordGo ac.states ac.outputs 0 s).1
      (addKeywordGo ac.states ac.outputs 0 s).2.2 = s := by
    rw [hend, path_zero, List.nil_append]
  set r := addKeywordGo ac.states ac.outputs 0 s with hr
  have hkwsD : ∀ k, k < ac.keywords.length →
      (ac.keywords ++ [s]).getD k [] = ac.keywords.getD k [] := by
    intro k hk
    rw [List.getD_append _ _ _ _ hk]
  have hkwsDK : (ac.keywords ++ [s]).getD ac.keywords.length [] = s := by
    rw [List.getD_append_right _ _ _ _ (le_refl _), Nat.sub_self]
    rfl
  refine ⟨hTr, ?_, ?_, ?_, ?_, ?_⟩
  · show (modifyAt _ r.2.2 r.2.1).length = r.1.length
    rw [modifyAt_length, hout]
  · -- output characterization
    intro t k
    show k ∈ (modifyAt (fun l => insertSet l ac.keywords.length) r.2.2 r.2.1).getD t []
      ↔ k < (ac.keywords ++ [s]).length ∧ t < r.1.length
        ∧ path r.1 t = (ac.keywords ++ [s]).getD k []
    by_cases hte : t = r.2.2
    · subst hte
      rw [modifyAt_getD_eq _ _ _ (by rw [hout]; exact hlt), hgetDout, mem_insertSet]
      constructor
      · rintro (hk | rfl)
        · have hc := (h.outs_char r.2.2 k).1 hk
          refine ⟨by simp only [List.length_append, List.length_singleton]; omega,
            hlt, ?_⟩
          rw [hkwsD k hc.1, ← hc.2.2, hstab r.2.2 hc.2.1]
        · exact ⟨by simp, hlt, by rw [hkwsDK, hends]⟩
      · rintro ⟨hk1, hk2, hk3⟩
        simp only [List.length_append, List.length_singleton] at hk1
        by_cases hkK : k = ac.keywords.length
        · exact Or.inr hkK
        · left
          have hklt : k < ac.keywords.length := by omega
          rw [hkwsD k hklt] at hk3
          -- the old keyword k equals s, so its end state is an old state
          have hkmem : ac.keywords.getD k [] ∈ ac.keywords := getD_mem_of_lt [] hklt
          obtain ⟨t0, ht0, ht0p⟩ :=
            h.kw_paths _ hkmem (ac.keywords.getD k []) (List.prefix_refl _)
          have heq0 : r.2.2 = t0 := by
            refine path_inj hTr r.2.2 hk2 t0 (lt_of_lt_of_le ht0 hExt.len_le) ?_
            rw [hk3, hstab t0 ht0, ht0p]
          rw [heq0]
          exact (h.outs_char t0 k).2 ⟨hklt, ht0, ht0p⟩
    · rw [modifyAt_getD_ne _ _ _ (fun hx => hte hx.symm), hgetDout]
      rw [h.outs_char t k]
      constructor
      · rintro ⟨hk1, hk2, hk3⟩
        refine ⟨by simp only [List.length_append, List.length_singleton]; omega,
          lt_of_lt_of_le hk2 hExt.len_le, ?_⟩
        rw [hkwsD k hk1, hstab t hk2, hk3]
      · rintro ⟨hk1, hk2, hk3⟩
        simp only [List.length_append, List.length_singleton] at hk1
        by_cases hkK : k = ac.keywords.length
        · exfalso
          subst hkK
          rw [hkwsDK] at hk3
          exact hte (path_inj hTr t hk2 r.2.2 hlt (by rw [hk3, hends]))
        · have hklt : k < ac.keywords.length := by omega
          rw [hkwsD k hklt] at hk3
          have hkmem : ac.keywords.getD k [] ∈ ac.keywords := getD_mem_of_lt [] hklt
          obtain ⟨t0, ht0, ht0p⟩ :=
            h.kw_paths _ hkmem (ac.keywords.getD k []) (List.prefix_refl _)
          have htt0 : t = t0 := by
            refine path_inj hTr t hk2 t0 (lt_of_lt_of_le ht0 hExt.len_le) ?_
            rw [hk3, hstab t0 ht0, ht0p]
          subst htt0
          exact ⟨hklt, ht0, by rw [← hstab t ht0]; exact hk3⟩
  · -- nodup
    intro l hl
    show l.Nodup
    have hbase : ∀ x ∈ r.2.1, x.Nodup := by
      intro x hx
      rw [hshape] at hx
      rcases List.mem_append.1 hx with hx | hx
      · exact h.outs_nodup x hx
      · rw [List.eq_of_mem_replicate hx]
        exact List.nodup_nil
    exact modifyAt_forall _ _ _ hbase (fun x hx => insertSet_nodup hx) l hl
  · -- paths are keyword prefixes
    intro t ht
    show path r.1 t = [] ∨ ∃ kw ∈ ac.keywords ++ [s], path r.1 t <+: kw
    by_cases htl : t < ac.states.length
    · rcases h.paths_kw t htl with hp | ⟨kw, hkw, hpre⟩
      · exact Or.inl (by rw [hstab t htl, hp])
      · exact Or.inr ⟨kw, List.mem_append_left _ hkw, by rw [hstab t htl]; exact hpre⟩
    · obtain ⟨pre, hpre1, hpre2, hpre3⟩ := hnew t (le_of_not_lt htl) ht
      refine Or.inr ⟨s, List.mem_append_right _ (List.mem_singleton_self s), ?_⟩
      rw [hpre3, path_zero, List.nil_append]
      exact hpre2
  · -- every keyword prefix is a state path
    intro kw hkw w hw
    show ∃ t, t < r.1.length ∧ path r.1 t = w
    rcases List.mem_append.1 hkw with hkw | hkw
    · obtain ⟨t, ht, htp⟩ := h.kw_paths kw hkw w hw
      exact ⟨t, lt_of_lt_of_le ht hExt.len_le, by rw [hstab t ht]; exact htp⟩
    · simp only [List.mem_singleton] at hkw
      subst hkw
      obtain ⟨l2, rfl⟩ := hw
      obtain ⟨hTm, hltm, houtm, hExtm, hstabm, hendm, hnewm⟩ :=
        addKeywordGo_spec w ac.states ac.outputs 0 _ rfl h.trie hroot h.outs_len
      have hsplit := addKeywordGo_append w l2 ac.states ac.outputs 0
      obtain ⟨hTr2, _, _, hExt2, hstab2, _, _⟩ :=
        addKeywordGo_spec l2 (addKeywordGo ac.states ac.outputs 0 w).1
          (addKeywordGo ac.states ac.outputs 0 w).2.1
          (addKeywordGo ac.states ac.outputs 0 w).2.2 _ rfl hTm hltm houtm
      refine ⟨(addKeywordGo ac.states ac.outputs 0 w).2.2, ?_, ?_⟩
      · rw [hr, hsplit]
        exact lt_of_lt_of_le hltm hExt2.len_le
      · rw [hr, hsplit, hstab2 _ hltm, hendm, path_zero, List.nil_append]

theorem acInv_buildAC (kws : List (List Char)) : ACInv (buildAC kws) := by
  suffices hgen : ∀ ac : AhoCorasick, ACInv ac →
      ACInv (kws.foldl AhoCorasick.add_keyword ac) from hgen AhoCorasick.new acInv_new
  induction kws with
  | nil => exact fun ac h => h
  | cons k ks ih => exact fun ac h => ih _ (acInv_add_keyword h k)

/-! #### Auxiliary lemmas for the breadth-first failure computation -/

theorem getD_set_ne {l : List Nat} {i j : Nat} (x d : Nat) (h : i ≠ j) :
    (l.set i x).getD j d = l.getD j d := by
  by_cases hj : j < l.length
  · rw [List.getD_eq_getElem _ _ (by rwa [List.length_set]),
      List.getD_eq_getElem _ _ hj, List.getElem_set_ne h]
  · have hj2 : l.length ≤ j := le_of_not_lt hj
    rw [List.getD_eq_default _ _ (by rw [List.length_set]; exact hj2),
      List.getD_eq_default _ _ hj2]

theorem getD_set_eq {l : List Nat} {i : Nat} (x d : Nat) (h : i < l.length) :
    (l.set i x).getD i d = x := by
  rw [List.getD_eq_getElem _ _ (by rwa [List.length_set]), List.getElem_set_self]

theorem suffix_of_suffix_length_le {l1 l2 l3 : List Char} (h1 : l1 <:+ l3)
    (h2 : l2 <:+ l3) (h : l1.length ≤ l2.length) : l1 <:+ l2 := by
  have hl1 := h1.length_le
  have hl2 := h2.length_le
  rw [List.suffix_iff_eq_drop] at h1 h2
  rw [h1, h2]
  rw [show l3.length - l1.length = (l3.length - l2.length)
      + (l3.length - l1.length - (l3.length - l2.length)) by omega, ← List.drop_drop]
  exact List.drop_suffix _ _

theorem suffix_append_singleton {l1 l2 : List Char} (c : Char) (h : l1 <:+ l2) :
    l1 ++ [c] <:+ l2 ++ [c] := by
  obtain ⟨t, rfl⟩ := h
  exact ⟨t, by simp⟩

theorem suffix_snoc_decomp {l x : List Char} {c : Char} (h : l <:+ x ++ [c])
    (hne : l ≠ []) : ∃ z, z <:+ x ∧ l = z ++ [c] := by
  obtain ⟨t, ht⟩ := h
  have hlen : t.length + l.length = x.length + 1 := by
    have := congrArg List.length ht
    simpa using this
  have hl1 : 1 ≤ l.length := by
    cases l with
    | nil => exact absurd rfl hne
    | cons a l => simp
  have htx : t.length ≤ x.length := by omega
  have htake : t = x.take t.length := by
    have h1 : (t ++ l).take t.length = t := by simp
    have h2 : (x ++ [c]).take t.length = x.take t.length := by
      rw [List.take_append_of_le_length htx]
    have h3 : (t ++ l).take t.length = (x ++ [c]).take t.length := by rw [ht]
    rw [h1, h2] at h3
    exact h3
  refine ⟨x.drop t.length, ⟨x.take t.length, List.take_append_drop _ _⟩, ?_⟩
  have : t ++ l = t ++ (x.drop t.length ++ [c]) := by
    rw [ht]
    conv_lhs => rw [show x = x.take t.length ++ x.drop t.length from (List.take_append_drop _ _).symm]
    rw [← htake, List.append_assoc]
  exact List.append_cancel_left this

theorem targets_nodup_local {states : List AMap} (hT : TrieInv states) (s : Nat) :
    ((states.getD s []).map Prod.snd).Nodup := by
  by_cases hs : s < states.length
  · have hnd := hT.targets_nodup
    unfold allTargets at hnd
    rw [List.nodup_flatten] at hnd
    refine hnd.1 _ ?_
    rw [List.getD_eq_getElem _ _ hs]
    exact List.mem_map_of_mem _ (List.getElem_mem hs)
  · rw [List.getD_eq_default _ _ (le_of_not_lt hs)]
    simp

theorem depth_le_self {states : List AMap} (hT : TrieInv states) :
    ∀ t, t < states.length → depth states t ≤ t := by
  intro t
  induction t using Nat.strong_induction_on with
  | _ t ih =>
    intro ht
    rcases Nat.eq_zero_or_pos t with rfl | hpos
    · simp [depth, path_zero]
    · have hmem := hT.targets_complete t hpos ht
      rw [mem_allTargets] at hmem
      obtain ⟨s, c, hmem⟩ := hmem
      have hs := hT.edge_lt s _ hmem
      have : depth states t = depth states s + 1 := by
        unfold depth
        rw [path_edge hT hmem]
        simp
      rw [this]
      have := ih s hs.1 (by omega)
      omega

/-- The backtracking chase of `make_fails`, started anywhere on the failure
chain of `w` (with correct failure values below `w`), stops at the deepest
suffix-state of `w`'s path that has a goto edge on `c` (or at the root). -/
theorem chase_ideal {states : List AMap} (hT : TrieInv states) {f : List Nat} {c : Char}
    {w : Nat}
    (hfc : ∀ u, 1 ≤ u → u < states.length → path states u <:+ path states w →
      path states u ≠ path states w → f.getD (u - 1) 0 = idealFail states u) :
    ∀ fuel v, v < states.length → path states v <:+ path states w →
      path states v ≠ path states w → depth states v < fuel →
      ∃ res, chase states f c fuel v = some res ∧
        res < states.length ∧
        path states res <:+ path states w ∧ path states res ≠ path states w ∧
        (res = 0 ∨ lookupA (states.getD res []) c ≠ none) ∧
        (∀ u, u < states.length → path states u <:+ path states v →
          lookupA (states.getD u []) c ≠ none →
          (path states u).length ≤ (path states res).length) := by
  intro fuel
  induction fuel with
  | zero =>
    intro v _ _ _ hd
    omega
  | succ fl ih =>
    intro v hv hsuf hne hd
    rw [chase]
    by_cases hcond : v ≠ 0 ∧ lookupA (states.getD v []) c = none
    · rw [if_pos hcond]
      have hv1 : 1 ≤ v := by
        have := hcond.1
        omega
      have hfv := hfc v hv1 hv hsuf hne
      rw [hfv]
      have hspec := idealFail_spec hT hv1 hv
      have hdlt := idealFail_depth_lt hT hv1 hv
      have hsuf2 : path states (idealFail states v) <:+ path states w :=
        hspec.2.1.trans hsuf
      have hne2 : path states (idealFail states v) ≠ path states w := by
        intro heq
        have h2 := hsuf.length_le
        rw [heq] at hdlt
        omega
      have hd2 : depth states (idealFail states v) < fl := by
        have : depth states (idealFail states v) < depth states v := hdlt
        omega
      obtain ⟨res, hres, hr1, hr2, hr3, hr4, hr5⟩ :=
        ih (idealFail states v) hspec.1 hsuf2 hne2 hd2
      refine ⟨res, hres, hr1, hr2, hr3, hr4, ?_⟩
      intro u hu hus hedge
      by_cases hupv : path states u = path states v
      · exfalso
        have : u = v := path_inj hT u hu v hv hupv
        subst this
        exact hedge hcond.2
      · have hle := hspec.2.2.2 u hu hus hupv
        exact hr5 u hu (suffix_of_suffix_length_le hus hspec.2.1 hle) hedge
    · rw [if_neg hcond]
      refine ⟨v, rfl, hv, hsuf, hne, ?_, ?_⟩
      · by_cases hv0 : v = 0
        · exact Or.inl hv0
        · right
          intro hnone
          exact hcond ⟨hv0, hnone⟩
      · intro u hu hus hedge
        exact hus.length_le

/-- Processing the goto edge `(c, next)` of a dequeued state `w` with correct
failure values below computes exactly the intended failure link of `next`,
and it differs from `next` (the assertion cannot fire). -/
theorem step_fail_correct {states : List AMap} (hT : TrieInv states) {f : List Nat}
    {c : Char} {w next : Nat} (hw1 : 1 ≤ w) (hw2 : w < states.length)
    (hedge : (c, next) ∈ states.getD w [])
    (hfc : ∀ u, 1 ≤ u → u < states.length → path states u <:+ path states w →
      path states u ≠ path states w → f.getD (u - 1) 0 = idealFail states u)
    (hfw : f.getD (w - 1) 0 = idealFail states w) :
    ∃ fstate, chase states f c states.length (f.getD (w - 1) 0) = some fstate ∧
      (lookupA (states.getD fstate []) c).getD 0 = idealFail states next ∧
      idealFail states next ≠ next := by
  have hnext := hT.edge_lt w _ hedge
  have hnext1 : 1 ≤ next := by omega
  have hpnext : path states next = path states w ++ [c] := path_edge hT hedge
  have hifw := idealFail_spec hT hw1 hw2
  have hdw := idealFail_depth_lt hT hw1 hw2
  have hifn := idealFail_spec hT hnext1 hnext.2
  have hdn := idealFail_depth_lt hT hnext1 hnext.2
  have hneq : idealFail states next ≠ next := by
    intro heq
    rw [heq] at hdn
    omega
  rw [hfw]
  obtain ⟨res, hres, hr1, hr2, hr3, hr4, hr5⟩ :=
    chase_ideal hT hfc states.length (idealFail states w)
      hifw.1 hifw.2.1 hifw.2.2.1
      (lt_of_le_of_lt (depth_le_self hT (idealFail states w) hifw.1) hifw.1)
  refine ⟨res, hres, ?_, hneq⟩
  cases hlook : lookupA (states.getD res []) c with
  | some tgt =>
    simp only [Option.getD_some]
    have htedge := lookupA_mem hlook
    have htgt := hT.edge_lt res _ htedge
    have hptgt : path states tgt = path states res ++ [c] := path_edge hT htedge
    have hsuf_t : path states tgt <:+ path states next := by
      rw [hptgt, hpnext]
      exact suffix_append_singleton c hr2
    have hne_t : path states tgt ≠ path states next := by
      intro heq
      have hlt : (path states res).length < (path states w).length := by
        have hle := hr2.length_le
        rcases Nat.eq_or_lt_of_le hle with he | hl
        · exact absurd (List.IsSuffix.eq_of_length hr2 he) hr3
        · exact hl
      have hc2 := congrArg List.length heq
      rw [hptgt, hpnext] at hc2
      simp at hc2
      omega
    have hmax : ∀ u, u < states.length → path states u <:+ path states next →
        path states u ≠ path states next →
        (path states u).length ≤ (path states tgt).length := by
      intro u hu hus hune
      by_cases hupn : path states u = []
      · rw [hupn]
        simp
      · rw [hpnext] at hus
        obtain ⟨z, hz1, hz2⟩ := suffix_snoc_decomp hus hupn
        have hu1 : 1 ≤ u := by
          by_contra h0
          have hu0 : u = 0 := by omega
          exact hupn (by rw [hu0, path_zero])
        have hmemu := hT.targets_complete u hu1 hu
        rw [mem_allTargets] at hmemu
        obtain ⟨y, cy, hyedge⟩ := hmemu
        have hpu : path states u = path states y ++ [cy] := path_edge hT hyedge
        rw [hpu] at hz2
        rw [← List.concat_eq_append, ← List.concat_eq_append, List.concat_inj] at hz2
        obtain ⟨hy_eq, hcy⟩ := hz2
        rw [hcy] at hyedge hpu
        have hyc : lookupA (states.getD y []) c ≠ none := by
          rw [mem_lookupA (hT.keys_nodup y) hyedge]
          simp
        have hy_lt := mem_getD_lt hyedge
        have hzw : path states y <:+ path states w := by
          rw [hy_eq]
          exact hz1
        by_cases hyw : path states y = path states w
        · exfalso
          apply hune
          rw [hpu, hyw, hpnext]
        · have h1 := hifw.2.2.2 y hy_lt hzw hyw
          have h2 : path states y <:+ path states (idealFail states w) :=
            suffix_of_suffix_length_le hzw hifw.2.1 h1
          have h3 := hr5 y hy_lt h2 hyc
          rw [hpu, hptgt]
          simp
          omega
    have hle1 := hifn.2.2.2 tgt htgt.2 hsuf_t hne_t
    have hle2 := hmax (idealFail states next) hifn.1 hifn.2.1 hifn.2.2.1
    have hpatheq : path states (idealFail states next) = path states tgt :=
      List.IsSuffix.eq_of_length
        (suffix_of_suffix_length_le hifn.2.1 hsuf_t hle2) (by omega)
    exact (path_inj hT _ hifn.1 tgt htgt.2 hpatheq).symm
  | none =>
    simp only [Option.getD_none]
    have hres0 : res = 0 := by
      rcases hr4 with h0 | hlk
      · exact h0
      · exact absurd hlook hlk
    subst hres0
    by_contra hne0
    have hifn1 : 1 ≤ idealFail states next := by omega
    have hpne : path states (idealFail states next) ≠ [] :=
      path_ne_nil hT hifn1 hifn.1
    have hsufn : path states (idealFail states next) <:+ path states w ++ [c] := by
      rw [← hpnext]
      exact hifn.2.1
    obtain ⟨z, hz1, hz2⟩ := suffix_snoc_decomp hsufn hpne
    have hmemu := hT.targets_complete (idealFail states next) hifn1 hifn.1
    rw [mem_allTargets] at hmemu
    obtain ⟨y, cy, hyedge⟩ := hmemu
    have hpu : path states (idealFail states next) = path states y ++ [cy] :=
      path_edge hT hyedge
    rw [hpu] at hz2
    rw [← List.concat_eq_append, ← List.concat_eq_append, List.concat_inj] at hz2
    obtain ⟨hy_eq, hcy⟩ := hz2
    rw [hcy] at hyedge hpu
    have hyc : lookupA (states.getD y []) c ≠ none := by
      rw [mem_lookupA (hT.keys_nodup y) hyedge]
      simp
    have hy_lt := mem_getD_lt hyedge
    have hzw : path states y <:+ path states w := by
      rw [hy_eq]
      exact hz1
    by_cases hyw : path states y = path states w
    · exact hifn.2.2.1 (by rw [hpu, hyw, hpnext])
    · have h1 := hifw.2.2.2 y hy_lt hzw hyw
      have h2 : path states y <:+ path states (idealFail states w) :=
        suffix_of_suffix_length_le hzw hifw.2.1 h1
      have h3 := hr5 y hy_lt h2 hyc
      rw [path_zero] at h3
      simp at h3
      have hy0 : y = 0 := path_eq_nil hT hy_lt h3
      subst hy0
      rw [mem_lookupA (hT.keys_nodup 0) hyedge] at hlook
      cases hlook

theorem procEdges_spec {states : List AMap} {O : List (List Nat)} (hT : TrieInv states)
    (hO0 : O.getD 0 [] = []) (hOlen : O.length = states.length) {pr : List Nat} {w : Nat} :
    ∀ es done qacc f out,
      states.getD w [] = done ++ es →
      BFSMid states O pr w done qacc f out →
      ∃ f2 out2,
        procEdges states w es f out qacc = some (f2, out2, qacc ++ es.map Prod.snd) ∧
        BFSMid states O pr w (states.getD w []) (qacc ++ es.map Prod.snd) f2 out2 := by
  intro es
  induction es with
  | nil =>
    intro done qacc f out hsplit hmid
    refine ⟨f, out, by simp [procEdges], ?_⟩
    rw [hsplit, List.append_nil]
    simpa using hmid
  | cons e es ih =>
    obtain ⟨c, next⟩ := e
    intro done qacc f out hsplit hmid
    have hw1 : 1 ≤ w := hmid.wbound.1
    have hw2 : w < states.length := hmid.wbound.2
    have hmem_edge : (c, next) ∈ states.getD w [] := by rw [hsplit]; simp
    have hnb := hT.edge_lt w _ hmem_edge
    have hnext1 : 1 ≤ next := by omega
    have hpnext : path states next = path states w ++ [c] := path_edge hT hmem_edge
    have hdepthnext : depth states next = depth states w + 1 := by
      unfold depth; rw [hpnext]; simp
    have hwseen : w ∈ pr ++ [w] ++ qacc := by simp
    have hseen_le : ∀ u, 1 ≤ u → u < states.length → depth states u ≤ depth states w →
        u ∈ pr ++ [w] ++ qacc := by
      intro u hu1 hu2 hdu
      rcases Nat.lt_or_ge (depth states u) (depth states w) with hlt | hge
      · exact hmid.seen_closed w hwseen u hu1 hu2 hlt
      · have hmemu := hT.targets_complete u hu1 hu2
        rw [mem_allTargets] at hmemu
        obtain ⟨s, cs, hse⟩ := hmemu
        rcases Nat.eq_zero_or_pos s with rfl | hs1
        · exact (hmid.seen_iff u hu1 hu2).2 ⟨0, cs, hse, Or.inl rfl⟩
        · have hs2 : s < states.length := mem_getD_lt hse
          have hpu : path states u = path states s ++ [cs] := path_edge hT hse
          have hds : depth states s + 1 = depth states u := by
            unfold depth; rw [hpu]; simp
          have hdslt : depth states s < depth states w := by omega
          have hsseen : s ∈ pr ++ [w] ++ qacc := hmid.seen_closed w hwseen s hs1 hs2 hdslt
          have hspr : s ∈ pr := by
            rcases (by simpa using hsseen : s ∈ pr ∨ s = w ∨ s ∈ qacc) with h | h | h
            · exact h
            · exfalso; rw [h] at hdslt; omega
            · exfalso; have := (hmid.qwindow s h).1; omega
          exact (hmid.seen_iff u hu1 hu2).2 ⟨s, cs, hse, Or.inr (Or.inl hspr)⟩
    have hfc : ∀ u, 1 ≤ u → u < states.length → path states u <:+ path states w →
        path states u ≠ path states w → f.getD (u - 1) 0 = idealFail states u := by
      intro u hu1 hu2 hsuf _
      exact hmid.fails_correct u (hseen_le u hu1 hu2 hsuf.length_le)
    obtain ⟨fstate, hch, hgoto, hneqn⟩ :=
      step_fail_correct hT hw1 hw2 hmem_edge hfc (hmid.fails_correct w hwseen)
    have hnotseen : next ∉ pr ++ [w] ++ qacc := by
      intro hns
      obtain ⟨s, cs, hse, hcase⟩ := (hmid.seen_iff next hnext1 hnb.2).1 hns
      obtain ⟨hsw, hcc⟩ := edge_unique hT hse hmem_edge
      rcases hcase with h0 | hpr | ⟨_, hdone⟩
      · omega
      · rw [hsw] at hpr
        have hnd := hmid.nodup
        rw [List.nodup_append] at hnd
        have hnd2 := hnd.1
        rw [List.nodup_append] at hnd2
        exact hnd2.2.2 hpr (by simp)
      · have hnd := targets_nodup_local hT w
        rw [hsplit, List.map_append, List.nodup_append] at hnd
        exact hnd.2.2 (List.mem_map_of_mem _ hdone) (by simp)
    have hifcond : ¬ (next = (lookupA (states.getD fstate []) c).getD 0) := by
      rw [hgoto]
      exact fun h => hneqn h.symm
    have hstep : procEdges states w ((c, next) :: es) f out qacc =
        procEdges states w es (f.set (next - 1) (idealFail states next))
          (modifyAt (fun l => (out.getD (idealFail states next) []).foldl insertSet l)
            next out)
          (qacc ++ [next]) := by
      simp only [procEdges, hch]
      rw [if_neg hifcond, hgoto]
    have hifn := idealFail_spec hT hnext1 hnb.2
    have hdfn : depth states (idealFail states next) < depth states next :=
      idealFail_depth_lt hT hnext1 hnb.2
    have hperm_eq : pr ++ [w] ++ (qacc ++ [next]) = (pr ++ [w] ++ qacc) ++ [next] :=
      (List.append_assoc _ _ _).symm
    have hmem' : ∀ t, t ∈ pr ++ [w] ++ (qacc ++ [next]) ↔
        t ∈ pr ++ [w] ++ qacc ∨ t = next := by
      intro t
      rw [hperm_eq]
      simp only [List.mem_append, List.mem_singleton]
    have hmid' : BFSMid states O pr w (done ++ [(c, next)]) (qacc ++ [next])
        (f.set (next - 1) (idealFail states next))
        (modifyAt (fun l => (out.getD (idealFail states next) []).foldl insertSet l)
          next out) := by
      refine ⟨hmid.wbound, ?_, ?_, ?_, ?_, ?_, ?_, ?_, ?_, ?_, ?_, ?_⟩
      · intro t ht
        rcases (hmem' t).1 ht with h | rfl
        · exact hmid.bounds t h
        · exact ⟨hnext1, hnb.2⟩
      · rw [hperm_eq, List.nodup_append]
        refine ⟨hmid.nodup, by simp, ?_⟩
        intro a ha hb
        simp at hb
        rw [hb] at ha
        exact hnotseen ha
      · intro t ht1 ht2
        rw [hmem' t]
        constructor
        · rintro (h | rfl)
          · obtain ⟨s, cs, hse, hc⟩ := (hmid.seen_iff t ht1 ht2).1 h
            refine ⟨s, cs, hse, ?_⟩
            rcases hc with h0 | hpr | ⟨hsw, hd⟩
            · exact Or.inl h0
            · exact Or.inr (Or.inl hpr)
            · exact Or.inr (Or.inr ⟨hsw, List.mem_append_left _ hd⟩)
          · exact ⟨w, c, hmem_edge, Or.inr (Or.inr ⟨rfl, by simp⟩)⟩
        · rintro ⟨s, cs, hse, (h0 | hpr | ⟨hsw, hd⟩)⟩
          · exact Or.inl ((hmid.seen_iff t ht1 ht2).2 ⟨s, cs, hse, Or.inl h0⟩)
          · exact Or.inl ((hmid.seen_iff t ht1 ht2).2 ⟨s, cs, hse, Or.inr (Or.inl hpr)⟩)
          · rcases List.mem_append.1 hd with hdon | hnew
            · exact Or.inl ((hmid.seen_iff t ht1 ht2).2
                ⟨s, cs, hse, Or.inr (Or.inr ⟨hsw, hdon⟩)⟩)
            · simp at hnew
              exact Or.inr hnew.2
      · rw [hperm_eq, List.pairwise_append]
        refine ⟨hmid.sorted, by simp, ?_⟩
        intro a ha b hb
        simp at hb
        rw [hb]
        show depth states a ≤ depth states next
        rw [hdepthnext]
        rcases (by simpa using ha : a ∈ pr ∨ a = w ∨ a ∈ qacc) with h | h | h
        · have hp := hmid.sorted
          rw [List.pairwise_append] at hp
          have hp2 := hp.1
          rw [List.pairwise_append] at hp2
          have hle : depth states a ≤ depth states w := hp2.2.2 a h w (by simp)
          omega
        · rw [h]
          omega
        · have := (hmid.qwindow a h).2
          omega
      · intro u hu
        rcases List.mem_append.1 hu with h | h
        · exact hmid.qwindow u h
        · simp at h
          rw [h, hdepthnext]
          omega
      · intro u hu t ht1 ht2 hdt
        rcases (hmem' u).1 hu with h | rfl
        · exact (hmem' t).2 (Or.inl (hmid.seen_closed u h t ht1 ht2 hdt))
        · refine (hmem' t).2 (Or.inl (hseen_le t ht1 ht2 ?_))
          rw [hdepthnext] at hdt
          omega
      · rw [List.length_set]
        exact hmid.fails_len
      · intro t ht
        rcases (hmem' t).1 ht with h | rfl
        · have htn : t ≠ next := fun he => hnotseen (he ▸ h)
          have ht1 := (hmid.bounds t h).1
          rw [getD_set_ne _ _ (show next - 1 ≠ t - 1 by omega)]
          exact hmid.fails_correct t h
        · rw [getD_set_eq]
          rw [hmid.fails_len]
          omega
      · rw [modifyAt_length]
        exact hmid.out_len
      · intro t ht k
        rcases (hmem' t).1 ht with h | hteq
        · have htn : next ≠ t := fun he => hnotseen (he ▸ h)
          rw [modifyAt_getD_ne _ _ _ htn]
          exact hmid.out_merged t h k
        · rw [hteq]
          rw [modifyAt_getD_eq _ _ _ (by rw [hmid.out_len, hOlen]; exact hnb.2),
            mem_foldl_insertSet, hmid.out_frozen next hnotseen]
          rcases Nat.eq_zero_or_pos (idealFail states next) with hf0 | hf1
          · rw [hf0]
            have h0ns : (0:Nat) ∉ pr ++ [w] ++ qacc := fun h' => by
              have := (hmid.bounds 0 h').1
              omega
            rw [hmid.out_frozen 0 h0ns, hO0]
            simp only [List.not_mem_nil, or_false]
            constructor
            · exact Or.inl
            · rintro (h | ⟨u, hu1, hu2, hsufu, hneu, hk⟩)
              · exact h
              · exfalso
                have hle := hifn.2.2.2 u hu2 hsufu hneu
                rw [hf0, path_zero] at hle
                have hnil : path states u = [] := by simpa using hle
                have := path_eq_nil hT hu2 hnil
                omega
          · have hfseen : idealFail states next ∈ pr ++ [w] ++ qacc := by
              apply hseen_le _ hf1 hifn.1
              omega
            have hmem_fv := hmid.out_merged _ hfseen k
            constructor
            · rintro (h | h)
              · exact Or.inl h
              · rcases hmem_fv.1 h with h2 | ⟨u, hu1, hu2, hsufu, hneu, hk⟩
                · exact Or.inr ⟨idealFail states next, hf1, hifn.1, hifn.2.1,
                    hifn.2.2.1, h2⟩
                · refine Or.inr ⟨u, hu1, hu2, hsufu.trans hifn.2.1, ?_, hk⟩
                  intro heq
                  have hl1 := hsufu.length_le
                  have hl2 : (path states (idealFail states next)).length <
                      (path states next).length := hdfn
                  rw [heq] at hl1
                  omega
            · rintro (h | ⟨u, hu1, hu2, hsufu, hneu, hk⟩)
              · exact Or.inl h
              · have hle := hifn.2.2.2 u hu2 hsufu hneu
                have hsu2 : path states u <:+ path states (idealFail states next) :=
                  suffix_of_suffix_length_le hsufu hifn.2.1 hle
                by_cases heq : path states u = path states (idealFail states next)
                · have hufv : u = idealFail states next :=
                    path_inj hT u hu2 _ hifn.1 heq
                  rw [hufv] at hk
                  exact Or.inr (hmem_fv.2 (Or.inl hk))
                · exact Or.inr (hmem_fv.2 (Or.inr ⟨u, hu1, hu2, hsu2, heq, hk⟩))
      · intro t hts
        have h1 : t ∉ pr ++ [w] ++ qacc := fun h => hts ((hmem' t).2 (Or.inl h))
        have h2 : next ≠ t := fun h => hts ((hmem' t).2 (Or.inr h.symm))
        rw [modifyAt_getD_ne _ _ _ h2]
        exact hmid.out_frozen t h1
    obtain ⟨f2, out2, hrec, hmid2⟩ := ih (done ++ [(c, next)]) (qacc ++ [next])
      (f.set (next - 1) (idealFail states next))
      (modifyAt (fun l => (out.getD (idealFail states next) []).foldl insertSet l) next out)
      (by rw [hsplit, List.append_assoc, List.singleton_append]) hmid'
    have hq : (qacc ++ [next]) ++ List.map Prod.snd es =
        qacc ++ List.map Prod.snd ((c, next) :: es) := by
      simp
    rw [hq] at hrec hmid2
    exact ⟨f2, out2, by rw [hstep]; exact hrec, hmid2⟩

theorem makeFailsGo_spec {states : List AMap} {O : List (List Nat)} (hT : TrieInv states)
    (hO0 : O.getD 0 [] = []) (hOlen : O.length = states.length) :
    ∀ fuel pr q f out,
      BFSRun states O pr q f out →
      states.length - 1 - pr.length ≤ fuel →
      ∃ f2 out2 pr2, makeFailsGo states fuel q f out = some (f2, out2) ∧
        BFSRun states O pr2 [] f2 out2 := by
  intro fuel
  induction fuel with
  | zero =>
    intro pr q f out hrun hfuel
    cases q with
    | nil => exact ⟨f, out, pr, rfl, hrun⟩
    | cons w q' =>
      exfalso
      have hn1 : 1 ≤ states.length := List.length_pos.2 hT.root_exists
      have h0nm : 0 ∉ pr ++ w :: q' := fun h => by
        have := (hrun.bounds 0 h).1
        omega
      have hnd : (0 :: (pr ++ w :: q')).Nodup := List.nodup_cons.2 ⟨h0nm, hrun.nodup⟩
      have hb : ∀ x ∈ 0 :: (pr ++ w :: q'), x < states.length := by
        intro x hx
        rcases List.mem_cons.1 hx with rfl | hx'
        · omega
        · exact (hrun.bounds x hx').2
      have hlen := nodup_bounded_length_le hnd hb
      simp only [List.length_cons, List.length_append] at hlen
      omega
  | succ fuel ih =>
    intro pr q f out hrun hfuel
    cases q with
    | nil => exact ⟨f, out, pr, rfl, hrun⟩
    | cons w q' =>
      have hwseen : w ∈ pr ++ w :: q' :=
        List.mem_append_right _ (List.mem_cons_self _ _)
      have hwb := hrun.bounds w hwseen
      have hlist : pr ++ [w] ++ q' = pr ++ w :: q' := by
        rw [List.append_assoc, List.singleton_append]
      have hmid : BFSMid states O pr w [] q' f out := by
        refine ⟨hwb, ?_, ?_, ?_, ?_, ?_, ?_, hrun.fails_len, ?_, hrun.out_len, ?_, ?_⟩
        · rw [hlist]; exact hrun.bounds
        · rw [hlist]; exact hrun.nodup
        · intro t ht1 ht2
          rw [hlist, hrun.seen_iff t ht1 ht2]
          constructor
          · rintro ⟨s, cs, hse, hc⟩
            refine ⟨s, cs, hse, ?_⟩
            rcases hc with h | h
            · exact Or.inl h
            · exact Or.inr (Or.inl h)
          · rintro ⟨s, cs, hse, (h | h | ⟨_, h⟩)⟩
            · exact ⟨s, cs, hse, Or.inl h⟩
            · exact ⟨s, cs, hse, Or.inr h⟩
            · cases h
        · rw [hlist]; exact hrun.sorted
        · intro u hu
          constructor
          · have hs := hrun.sorted
            rw [List.pairwise_append] at hs
            have hs2 := hs.2.1
            rw [List.pairwise_cons] at hs2
            exact hs2.1 u hu
          · exact hrun.qclose u (List.mem_cons_of_mem _ hu) w (List.mem_cons_self _ _)
        · rw [hlist]; exact hrun.seen_closed
        · rw [hlist]; exact hrun.fails_correct
        · rw [hlist]; exact hrun.out_merged
        · rw [hlist]; exact hrun.out_frozen
      obtain ⟨f2, out2, hproc, hmid2⟩ := procEdges_spec hT hO0 hOlen
        (states.getD w []) [] q' f out (by simp) hmid
      have hw0 : ¬ (w = 0) := by
        have := hwb.1
        omega
      have hstep : makeFailsGo states (fuel+1) (w :: q') f out =
          makeFailsGo states fuel (q' ++ (states.getD w []).map Prod.snd) f2 out2 := by
        simp only [makeFailsGo]
        rw [if_neg hw0]
        simp only [hproc]
      have hrun2 : BFSRun states O (pr ++ [w])
          (q' ++ (states.getD w []).map Prod.snd) f2 out2 := by
        refine ⟨hmid2.bounds, hmid2.nodup, ?_, hmid2.sorted, ?_, hmid2.seen_closed,
          hmid2.fails_len, hmid2.fails_correct, hmid2.out_len, hmid2.out_merged,
          hmid2.out_frozen⟩
        · intro t ht1 ht2
          rw [hmid2.seen_iff t ht1 ht2]
          constructor
          · rintro ⟨s, cs, hse, (h | h | ⟨hsw, _⟩)⟩
            · exact ⟨s, cs, hse, Or.inl h⟩
            · exact ⟨s, cs, hse, Or.inr (List.mem_append_left _ h)⟩
            · exact ⟨s, cs, hse, Or.inr (by rw [hsw]; simp)⟩
          · rintro ⟨s, cs, hse, (h | h)⟩
            · exact ⟨s, cs, hse, Or.inl h⟩
            · rcases List.mem_append.1 h with h' | h'
              · exact ⟨s, cs, hse, Or.inr (Or.inl h')⟩
              · have h'' : s = w := by simpa using h'
                exact ⟨s, cs, hse, Or.inr (Or.inr ⟨h'', h'' ▸ hse⟩)⟩
        · intro u hu v hv
          have h1 := (hmid2.qwindow u hu).2
          have h2 := (hmid2.qwindow v hv).1
          omega
      have hfuel2 : states.length - 1 - (pr ++ [w]).length ≤ fuel := by
        simp only [List.length_append, List.length_cons, List.length_nil]
        omega
      obtain ⟨f3, out3, pr3, hmk, hrun3⟩ := ih (pr ++ [w]) _ f2 out2 hrun2 hfuel2
      exact ⟨f3, out3, pr3, by rw [hstep]; exact hmk, hrun3⟩

theorem seedRoot_spec : ∀ (es : List (Char × Nat)) (q f : List Nat),
    (∀ p ∈ es, 1 ≤ p.2) → (∀ i, f.getD i 0 = 0) →
    ∃ f', seedRoot es q f = some (q ++ es.map Prod.snd, f') ∧
      f'.length = f.length ∧ ∀ i, f'.getD i 0 = 0 := by
  intro es
  induction es with
  | nil =>
    intro q f _ hz
    exact ⟨f, by simp [seedRoot], rfl, hz⟩
  | cons p es ih =>
    obtain ⟨c, next⟩ := p
    intro q f hpos hz
    have hn1 : 1 ≤ next := hpos (c, next) (by simp)
    have hne : ¬ (next = 0) := by omega
    have hzs : ∀ i, (f.set (next - 1) 0).getD i 0 = 0 := by
      intro i
      by_cases h : next - 1 = i
      · subst h
        by_cases hlt : next - 1 < f.length
        · rw [getD_set_eq _ _ hlt]
        · rw [List.getD_eq_default _ _ (by rw [List.length_set]; omega)]
      · rw [getD_set_ne _ _ h]
        exact hz i
    obtain ⟨f', hrun, hlen, hz'⟩ := ih (q ++ [next]) (f.set (next - 1) 0)
      (fun p hp => hpos p (List.mem_cons_of_mem _ hp)) hzs
    refine ⟨f', ?_, by rw [hlen, List.length_set], hz'⟩
    show seedRoot ((c, next) :: es) q f = _
    simp only [seedRoot]
    rw [if_neg hne, hrun]
    simp [List.append_assoc]

/-- Once the queue is empty every non-root state has been processed. -/
theorem bfs_seen_all {states : List AMap} {O : List (List Nat)} {pr2 f : List Nat}
    {out : List (List Nat)} (hT : TrieInv states)
    (hrun : BFSRun states O pr2 [] f out) :
    ∀ t, 1 ≤ t → t < states.length → t ∈ pr2 := by
  intro t
  induction t using Nat.strong_induction_on with
  | _ t ih =>
    intro ht1 ht2
    have hmem := hT.targets_complete t ht1 ht2
    rw [mem_allTargets] at hmem
    obtain ⟨s, c, hse⟩ := hmem
    have hiff := hrun.seen_iff t ht1 ht2
    rcases Nat.eq_zero_or_pos s with rfl | hs1
    · have h := hiff.2 ⟨0, c, hse, Or.inl rfl⟩
      simpa using h
    · have hs2 : s < states.length := mem_getD_lt hse
      have hslt : s < t := (hT.edge_lt s _ hse).1
      have hsin := ih s hslt hs1 hs2
      have h := hiff.2 ⟨s, c, hse, Or.inr hsin⟩
      simpa using h

/-- Master correctness theorem of `make_fails`: on an automaton satisfying the
construction invariants whose keywords are all non-empty and whose failure
table is stale, `make_fails` succeeds (no assertion fires, the fuel suffices),
computes exactly the ideal failure links (longest proper suffix of each
state's path that is again a state path), and merges output sets along
failure chains: the new output set of `t` holds `k` iff `k` was a direct
output of `t` or of some non-root proper-suffix state of `t`. -/
theorem foldl_add_keyword_fails : ∀ (kws : List (List Char)) (ac : AhoCorasick),
    ac.fails = none → (kws.foldl AhoCorasick.add_keyword ac).fails = none := by
  intro kws
  induction kws with
  | nil => exact fun ac h => h
  | cons kw kws ih => exact fun ac _ => ih _ rfl

theorem buildAC_fails (kws : List (List Char)) : (buildAC kws).fails = none :=
  foldl_add_keyword_fails kws AhoCorasick.new rfl

/-- When no keyword is empty, the root's direct output set is empty. -/
theorem outputs_root_nil {ac : AhoCorasick} (hA : ACInv ac)
    (hkw : ∀ kw ∈ ac.keywords, kw ≠ []) : ac.outputs.getD 0 [] = [] := by
  rw [List.eq_nil_iff_forall_not_mem]
  intro k hk
  obtain ⟨hk1, _, hpath⟩ := (hA.outs_char 0 k).1 hk
  rw [path_zero] at hpath
  have hmem : ac.keywords.getD k [] ∈ ac.keywords := by
    rw [List.getD_eq_getElem _ _ hk1]
    exact List.getElem_mem hk1
  exact hkw _ hmem hpath.symm

theorem make_fails_correct {ac : AhoCorasick} (hT : TrieInv ac.states)
    (hf : ac.fails = none) (hO0 : ac.outputs.getD 0 [] = [])
    (hOlen : ac.outputs.length = ac.states.length) :
    ∃ fails outputs,
      ac.make_fails = some { ac with fails := some fails, outputs := outputs } ∧
      fails.length = ac.states.length - 1 ∧
      (∀ t, 1 ≤ t → t < ac.states.length →
        fails.getD (t - 1) 0 = idealFail ac.states t) ∧
      outputs.length = ac.outputs.length ∧
      (∀ t, 1 ≤ t → t < ac.states.length → ∀ k,
        k ∈ outputs.getD t [] ↔ k ∈ ac.outputs.getD t [] ∨
          ∃ u, 1 ≤ u ∧ u < ac.states.length ∧
            path ac.states u <:+ path ac.states t ∧
            path ac.states u ≠ path ac.states t ∧ k ∈ ac.outputs.getD u []) ∧
      (∀ t, t = 0 ∨ ac.states.length ≤ t →
        outputs.getD t [] = ac.outputs.getD t []) := by
  have hpos : ∀ p ∈ ac.states.getD 0 [], 1 ≤ p.2 := by
    intro p hp
    have := (hT.edge_lt 0 p hp).1
    omega
  have hz : ∀ i, (List.replicate (ac.states.length - 1) (0:Nat)).getD i 0 = 0 := by
    intro i
    by_cases h : i < ac.states.length - 1
    · rw [List.getD_eq_getElem _ _ (by simpa using h)]
      simp
    · rw [List.getD_eq_default _ _ (by simpa using h)]
  obtain ⟨f0, hseed, hlen0, hz0⟩ :=
    seedRoot_spec (ac.states.getD 0 []) [] (List.replicate (ac.states.length - 1) 0)
      hpos hz
  rw [List.nil_append] at hseed
  have hedge1 : ∀ t ∈ (ac.states.getD 0 []).map Prod.snd,
      ∃ c, (c, t) ∈ ac.states.getD 0 [] := by
    intro t ht
    obtain ⟨⟨cc, tt⟩, hp, htt⟩ := List.mem_map.1 ht
    simp only at htt
    subst htt
    exact ⟨cc, hp⟩
  have hq0b : ∀ t ∈ (ac.states.getD 0 []).map Prod.snd,
      1 ≤ t ∧ t < ac.states.length := by
    intro t ht
    obtain ⟨c, hc⟩ := hedge1 t ht
    have := hT.edge_lt 0 _ hc
    exact ⟨by omega, this.2⟩
  have hpath1 : ∀ t ∈ (ac.states.getD 0 []).map Prod.snd,
      ∃ c, path ac.states t = [c] := by
    intro t ht
    obtain ⟨c, hc⟩ := hedge1 t ht
    refine ⟨c, ?_⟩
    rw [path_edge hT hc, path_zero]
    rfl
  have hdepth1 : ∀ t ∈ (ac.states.getD 0 []).map Prod.snd,
      depth ac.states t = 1 := by
    intro t ht
    obtain ⟨c, hc⟩ := hpath1 t ht
    unfold depth
    rw [hc]
    rfl
  have hrun0 : BFSRun ac.states ac.outputs [] ((ac.states.getD 0 []).map Prod.snd)
      f0 ac.outputs := by
    refine ⟨?_, ?_, ?_, ?_, ?_, ?_, ?_, ?_, rfl, ?_, fun _ _ => rfl⟩
    · intro t ht
      exact hq0b t (by simpa using ht)
    · exact targets_nodup_local hT 0
    · intro t ht1 ht2
      constructor
      · intro ht
        obtain ⟨c, hc⟩ := hedge1 t (by simpa using ht)
        exact ⟨0, c, hc, Or.inl rfl⟩
      · rintro ⟨s, c, hse, (rfl | h)⟩
        · exact List.mem_map_of_mem _ hse
        · cases h
    · refine List.pairwise_of_forall_mem_list ?_
      intro a ha b hb
      show depth ac.states a ≤ depth ac.states b
      rw [hdepth1 a (by simpa using ha), hdepth1 b (by simpa using hb)]
    · intro u hu v hv
      rw [hdepth1 u hu, hdepth1 v hv]
      omega
    · intro u hu t ht1 ht2 hdt
      exfalso
      rw [hdepth1 u (by simpa using hu)] at hdt
      have hd0 : depth ac.states t = 0 := by omega
      have hnil : path ac.states t = [] := by
        have := hd0
        unfold depth at this
        exact List.length_eq_zero.1 this
      have := path_eq_nil hT ht2 hnil
      omega
    · rw [hlen0, List.length_replicate]
    · intro t ht
      have hif0 : idealFail ac.states t = 0 := by
        obtain ⟨c, hc⟩ := hpath1 t (by simpa using ht)
        show bestSuf ac.states (path ac.states t).tail = 0
        rw [hc]
        rfl
      rw [hif0]
      exact hz0 _
    · intro t ht k
      constructor
      · exact Or.inl
      · rintro (h | ⟨u, hu1, hu2, hsufu, hneu, hk⟩)
        · exact h
        · exfalso
          obtain ⟨c, hc⟩ := hpath1 t (by simpa using ht)
          rw [hc] at hsufu hneu
          have hlen2 : (path ac.states u).length ≤ 1 := by
            have := hsufu.length_le
            simpa using this
          rcases Nat.lt_or_ge (path ac.states u).length 1 with h1 | h1
          · have hnil : path ac.states u = [] :=
              List.length_eq_zero.1 (by omega)
            have := path_eq_nil hT hu2 hnil
            omega
          · have hlen3 : (path ac.states u).length = ([c] : List Char).length := by
              simp
              omega
            exact hneu (hsufu.eq_of_length hlen3)
  obtain ⟨f2, out2, pr2, hmk, hrun2⟩ := makeFailsGo_spec hT hO0 hOlen
    ac.states.length [] ((ac.states.getD 0 []).map Prod.snd) f0 ac.outputs hrun0
    (by simp only [List.length_nil]; omega)
  have hall := bfs_seen_all hT hrun2
  refine ⟨f2, out2, ?_, hrun2.fails_len, ?_, hrun2.out_len, ?_, ?_⟩
  · show AhoCorasick.make_fails ac = _
    simp only [AhoCorasick.make_fails, hf, hseed, hmk]
  · intro t ht1 ht2
    exact hrun2.fails_correct t (List.mem_append_left _ (hall t ht1 ht2))
  · intro t ht1 ht2 k
    exact hrun2.out_merged t (List.mem_append_left _ (hall t ht1 ht2)) k
  · intro t ht
    refine hrun2.out_frozen t ?_
    intro hmem
    have hb := hrun2.bounds t hmem
    omega

/-- C7: after `make_fails` completes on an automaton built from non-empty
keywords, every non-root state's failure link is an in-range state of strictly
smaller trie depth — so the failure links form an acyclic forest rooted at
state 0 — and in particular no state's failure target equals the state itself:
the internal assertion `*next != fails[*next-1]` never fires and `make_fails`
returns successfully. -/
theorem c7_fail_links_strictly_decrease_depth {kws : List (List Char)}
    (hne : ∀ kw ∈ kws, kw ≠ []) :
    ∃ ac2 fails, (buildAC kws).make_fails = some ac2 ∧ ac2.fails = some fails ∧
      ∀ t, 1 ≤ t → t < (buildAC kws).states.length →
        fails.getD (t - 1) 0 < (buildAC kws).states.length ∧
        depth (buildAC kws).states (fails.getD (t - 1) 0) <
          depth (buildAC kws).states t ∧
        fails.getD (t - 1) 0 ≠ t := by
  have hA := acInv_buildAC kws
  have hkw : ∀ kw ∈ (buildAC kws).keywords, kw ≠ [] := by
    intro kw h
    exact hne kw (by rwa [buildAC_keywords] at h)
  obtain ⟨fails, outputs, heq, hlen, hcor, _, _, _⟩ :=
    make_fails_correct hA.trie (buildAC_fails kws) (outputs_root_nil hA hkw) hA.outs_len
  refine ⟨_, fails, heq, rfl, ?_⟩
  intro t ht1 ht2
  rw [hcor t ht1 ht2]
  refine ⟨(idealFail_spec hA.trie ht1 ht2).1,
    idealFail_depth_lt hA.trie ht1 ht2, ?_⟩
  intro hcontra
  have hd := idealFail_depth_lt hA.trie ht1 ht2
  rw [hcontra] at hd
  omega

theorem c7_fail_links_strictly_decrease_depth_witness :
    (∀ kw ∈ [['a']], kw ≠ ([] : List Char)) ∧
    (∃ ac2 fails, (buildAC [['a']]).make_fails = some ac2 ∧ ac2.fails = some fails ∧
      ∀ t, 1 ≤ t → t < (buildAC [['a']]).states.length →
        fails.getD (t - 1) 0 < (buildAC [['a']]).states.length ∧
        depth (buildAC [['a']]).states (fails.getD (t - 1) 0) <
          depth (buildAC [['a']]).states t ∧
        fails.getD (t - 1) 0 ≠ t) :=
  ⟨by decide, c7_fail_links_strictly_decrease_depth (by decide)⟩

/-- C5: after `make_fails` completes on an automaton built from non-empty
keywords, the computed failure link of every non-root state `t` is a state
whose root path is a proper suffix of `t`'s path, is itself a prefix of some
inserted keyword (or the link is the root), and is the longest such suffix:
every proper suffix of `t`'s path that is a prefix of some keyword is no
longer than the failure state's path. -/
theorem c5_fail_is_longest_keyword_prefix_suffix {kws : List (List Char)}
    (hne : ∀ kw ∈ kws, kw ≠ []) :
    ∃ ac2 fails, (buildAC kws).make_fails = some ac2 ∧ ac2.fails = some fails ∧
      ∀ t, 1 ≤ t → t < (buildAC kws).states.length →
        path (buildAC kws).states (fails.getD (t - 1) 0) <:+
          path (buildAC kws).states t ∧
        path (buildAC kws).states (fails.getD (t - 1) 0) ≠
          path (buildAC kws).states t ∧
        (fails.getD (t - 1) 0 = 0 ∨
          KeywordPrefix kws (path (buildAC kws).states (fails.getD (t - 1) 0))) ∧
        (∀ w, w <:+ path (buildAC kws).states t →
          w ≠ path (buildAC kws).states t → KeywordPrefix kws w →
          w.length ≤ (path (buildAC kws).states (fails.getD (t - 1) 0)).length) := by
  have hA := acInv_buildAC kws
  have hkw : ∀ kw ∈ (buildAC kws).keywords, kw ≠ [] := by
    intro kw h
    exact hne kw (by rwa [buildAC_keywords] at h)
  obtain ⟨fails, outputs, heq, hlen, hcor, _, _, _⟩ :=
    make_fails_correct hA.trie (buildAC_fails kws) (outputs_root_nil hA hkw) hA.outs_len
  refine ⟨_, fails, heq, rfl, ?_⟩
  intro t ht1 ht2
  rw [hcor t ht1 ht2]
  obtain ⟨hlt, hsuf, hneq, hmax⟩ := idealFail_spec hA.trie ht1 ht2
  refine ⟨hsuf, hneq, ?_, ?_⟩
  · by_cases h0 : idealFail (buildAC kws).states t = 0
    · exact Or.inl h0
    · right
      rcases hA.paths_kw _ hlt with hnil | ⟨kw, hkwmem, hpre⟩
      · exact absurd (path_eq_nil hA.trie hlt hnil) h0
      · exact ⟨kw, by rwa [buildAC_keywords] at hkwmem, hpre⟩
  · intro w hw hwne hkp
    obtain ⟨kw, hkwmem, hpre⟩ := hkp
    obtain ⟨u, hu2, hupath⟩ := hA.kw_paths kw (by rwa [buildAC_keywords]) w hpre
    have hres := hmax u hu2 (by rwa [hupath]) (by rwa [hupath])
    rwa [hupath] at hres

theorem c5_fail_is_longest_keyword_prefix_suffix_witness :
    (∀ kw ∈ [['a']], kw ≠ ([] : List Char)) ∧
    (∃ ac2 fails, (buildAC [['a']]).make_fails = some ac2 ∧ ac2.fails = some fails ∧
      ∀ t, 1 ≤ t → t < (buildAC [['a']]).states.length →
        path (buildAC [['a']]).states (fails.getD (t - 1) 0) <:+
          path (buildAC [['a']]).states t ∧
        path (buildAC [['a']]).states (fails.getD (t - 1) 0) ≠
          path (buildAC [['a']]).states t ∧
        (fails.getD (t - 1) 0 = 0 ∨
          KeywordPrefix [['a']] (path (buildAC [['a']]).states (fails.getD (t - 1) 0))) ∧
        (∀ w, w <:+ path (buildAC [['a']]).states t →
          w ≠ path (buildAC [['a']]).states t → KeywordPrefix [['a']] w →
          w.length ≤
            (path (buildAC [['a']]).states (fails.getD (t - 1) 0)).length)) :=
  ⟨by decide, c5_fail_is_longest_keyword_prefix_suffix (by decide)⟩

/-- C6: after `make_fails` completes on an automaton built from non-empty
keywords, every non-root state's merged output set contains the whole merged
output set of its failure state and all of its own direct terminal keyword
indices. -/
theorem c6_output_contains_fail_output_and_terminals {kws : List (List Char)}
    (hne : ∀ kw ∈ kws, kw ≠ []) :
    ∃ ac2 fails, (buildAC kws).make_fails = some ac2 ∧ ac2.fails = some fails ∧
      ∀ t, 1 ≤ t → t < (buildAC kws).states.length →
        (∀ k ∈ ac2.outputs.getD (fails.getD (t - 1) 0) [],
          k ∈ ac2.outputs.getD t []) ∧
        (∀ k ∈ (buildAC kws).outputs.getD t [], k ∈ ac2.outputs.getD t []) := by
  have hA := acInv_buildAC kws
  have hkw : ∀ kw ∈ (buildAC kws).keywords, kw ≠ [] := by
    intro kw h
    exact hne kw (by rwa [buildAC_keywords] at h)
  obtain ⟨fails, outputs, heq, hlen, hcor, houtlen, hmerge, hfrozen⟩ :=
    make_fails_correct hA.trie (buildAC_fails kws) (outputs_root_nil hA hkw) hA.outs_len
  refine ⟨_, fails, heq, rfl, ?_⟩
  intro t ht1 ht2
  obtain ⟨hlt, hsuf, hneq, hmax⟩ := idealFail_spec hA.trie ht1 ht2
  constructor
  · intro k hk
    show k ∈ outputs.getD t []
    have hk2 : k ∈ outputs.getD (fails.getD (t - 1) 0) [] := hk
    rw [hcor t ht1 ht2] at hk2
    rcases Nat.eq_zero_or_pos (idealFail (buildAC kws).states t) with h0 | h1
    · rw [h0, hfrozen 0 (Or.inl rfl), outputs_root_nil hA hkw] at hk2
      cases hk2
    · have hmem := (hmerge _ h1 hlt k).1 hk2
      refine (hmerge t ht1 ht2 k).2 ?_
      rcases hmem with h | ⟨u, hu1, hu2, husuf, hune, hku⟩
      · exact Or.inr ⟨_, h1, hlt, hsuf, hneq, h⟩
      · refine Or.inr ⟨u, hu1, hu2, husuf.trans hsuf, ?_, hku⟩
        intro heqq
        have hl1 := husuf.length_le
        have hl2 := idealFail_depth_lt hA.trie ht1 ht2
        rw [heqq] at hl1
        exact absurd hl1 (by omega)
  · intro k hk
    show k ∈ outputs.getD t []
    exact (hmerge t ht1 ht2 k).2 (Or.inl hk)

theorem c6_output_contains_fail_output_and_terminals_witness :
    (∀ kw ∈ [['a']], kw ≠ ([] : List Char)) ∧
    (∃ ac2 fails, (buildAC [['a']]).make_fails = some ac2 ∧ ac2.fails = some fails ∧
      ∀ t, 1 ≤ t → t < (buildAC [['a']]).states.length →
        (∀ k ∈ ac2.outputs.getD (fails.getD (t - 1) 0) [],
          k ∈ ac2.outputs.getD t []) ∧
        (∀ k ∈ (buildAC [['a']]).outputs.getD t [], k ∈ ac2.outputs.getD t [])) :=
  ⟨by decide, c6_output_contains_fail_output_and_terminals (by decide)⟩

/-! #### Rebuild-after-insertion: relating the two insertion orders (C4) -/

theorem addKeywordGo_states_indep :
    ∀ (cs : List Char) (states : List AMap) (o1 o2 : List (List Nat)) (state : Nat),
      (addKeywordGo states o1 state cs).1 = (addKeywordGo states o2 state cs).1 ∧
      (addKeywordGo states o1 state cs).2.2 = (addKeywordGo states o2 state cs).2.2 := by
  intro cs
  induction cs with
  | nil => intro states o1 o2 state; exact ⟨rfl, rfl⟩
  | cons c cs ih =>
    intro states o1 o2 state
    show ((addKeywordGo states o1 state (c :: cs)).1 = _) ∧ _
    rw [addKeywordGo, addKeywordGo]
    cases hlook : lookupA (states.getD state []) c with
    | some t => exact ih states o1 o2 t
    | none =>
      exact ih (modifyAt (fun m => m ++ [(c, states.length)]) state states ++ [[]])
        (o1 ++ [[]]) (o2 ++ [[]]) states.length

theorem add_keyword_outputs_mono {ac : AhoCorasick} (kw : List Char) {t k : Nat}
    (h : k ∈ ac.outputs.getD t []) : k ∈ (ac.add_keyword kw).outputs.getD t [] := by
  obtain ⟨m, hm⟩ := addKeywordGo_outputs_shape kw ac.states ac.outputs 0
  show k ∈ (modifyAt (fun l => insertSet l ac.keywords.length)
      (addKeywordGo ac.states ac.outputs 0 kw).2.2
      (addKeywordGo ac.states ac.outputs 0 kw).2.1).getD t []
  by_cases he : (addKeywordGo ac.states ac.outputs 0 kw).2.2 = t
  · by_cases hlt : t < (addKeywordGo ac.states ac.outputs 0 kw).2.1.length
    · rw [he, modifyAt_getD_eq _ _ _ hlt, mem_insertSet]
      left
      rwa [hm, getD_append_replicate_nil]
    · exfalso
      rw [hm, List.length_append, List.length_replicate] at hlt
      have hge : ac.outputs.length ≤ t := by omega
      rw [List.getD_eq_default _ _ hge] at h
      cases h
  · rw [modifyAt_getD_ne _ _ _ he, hm, getD_append_replicate_nil]
    exact h

theorem foldl_add_keyword_outputs_mono :
    ∀ (kws : List (List Char)) (ac : AhoCorasick) (t k : Nat),
      k ∈ ac.outputs.getD t [] →
      k ∈ (kws.foldl AhoCorasick.add_keyword ac).outputs.getD t [] := by
  intro kws
  induction kws with
  | nil => exact fun ac t k h => h
  | cons kw kws ih =>
    intro ac t k h
    exact ih _ t k (add_keyword_outputs_mono kw h)

theorem trieExt_add_keyword {ac : AhoCorasick} (hA : ACInv ac) (kw : List Char) :
    TrieExt ac.states (ac.add_keyword kw).states := by
  have hroot : (0:Nat) < ac.states.length := List.length_pos.2 hA.trie.root_exists
  exact (addKeywordGo_spec kw ac.states ac.outputs 0 _ rfl hA.trie hroot
    hA.outs_len).2.2.2.1

theorem trieExt_foldl_add_keyword :
    ∀ (kws : List (List Char)) (ac : AhoCorasick), ACInv ac →
      TrieExt ac.states (kws.foldl AhoCorasick.add_keyword ac).states := by
  intro kws
  induction kws with
  | nil => exact fun ac _ => trieExt_refl _
  | cons kw kws ih =>
    intro ac hA
    exact trieExt_trans (trieExt_add_keyword hA kw) (ih _ (acInv_add_keyword hA kw))

theorem foldl_add_keyword_fails_cons (kw : List Char) (kws : List (List Char))
    (ac : AhoCorasick) :
    ((kw :: kws).foldl AhoCorasick.add_keyword ac).fails = none :=
  foldl_add_keyword_fails kws _ rfl

theorem list_eq_of_getD {l1 l2 : List Nat} (hlen : l1.length = l2.length)
    (h : ∀ i, i < l1.length → l1.getD i 0 = l2.getD i 0) : l1 = l2 := by
  apply List.ext_getElem hlen
  intro i h1 h2
  have hi := h i h1
  rwa [List.getD_eq_getElem _ _ h1, List.getD_eq_getElem _ _ h2] at hi

theorem length_lt_of_proper_suffix {l1 l2 : List Char} (h : l1 <:+ l2)
    (hne : l1 ≠ l2) : l1.length < l2.length := by
  rcases Nat.lt_or_ge l1.length l2.length with hlt | hge
  · exact hlt
  · exact absurd (h.eq_of_length (le_antisymm h.length_le hge)) hne

/-- One `add_keyword` step performed in lockstep on two automata whose
outputs differ by a fixed set `E` of extra (state, keyword-index) entries. -/
theorem add_keyword_pair (E : Nat → Nat → Prop) {acB acA : AhoCorasick}
    (hs : acB.states = acA.states) (hk : acB.keywords = acA.keywords)
    (hA : ACInv acA) (hBlen : acB.outputs.length = acB.states.length)
    (hR : ∀ t k, k ∈ acB.outputs.getD t [] ↔ k ∈ acA.outputs.getD t [] ∨ E t k)
    (kw : List Char) :
    (acB.add_keyword kw).states = (acA.add_keyword kw).states ∧
    (acB.add_keyword kw).keywords = (acA.add_keyword kw).keywords ∧
    (acB.add_keyword kw).outputs.length = (acB.add_keyword kw).states.length ∧
    ∀ t k, k ∈ (acB.add_keyword kw).outputs.getD t [] ↔
      k ∈ (acA.add_keyword kw).outputs.getD t [] ∨ E t k := by
  have hroot : (0:Nat) < acA.states.length := List.length_pos.2 hA.trie.root_exists
  have hTB : TrieInv acB.states := hs ▸ hA.trie
  have hspecB := addKeywordGo_spec kw acB.states acB.outputs 0 _ rfl hTB
    (by rw [hs]; exact hroot) hBlen
  have hspecA := addKeywordGo_spec kw acA.states acA.outputs 0 _ rfl hA.trie hroot
    hA.outs_len
  have hindep := addKeywordGo_states_indep kw acB.states acB.outputs acA.outputs 0
  obtain ⟨mB, hmB⟩ := addKeywordGo_outputs_shape kw acB.states acB.outputs 0
  obtain ⟨mA, hmA⟩ := addKeywordGo_outputs_shape kw acA.states acA.outputs 0
  have hsteq : (addKeywordGo acB.states acB.outputs 0 kw).1 =
      (addKeywordGo acA.states acA.outputs 0 kw).1 := by
    conv_lhs => rw [hs]
    exact (addKeywordGo_states_indep kw acA.states acB.outputs acA.outputs 0).1
  have heeq : (addKeywordGo acB.states acB.outputs 0 kw).2.2 =
      (addKeywordGo acA.states acA.outputs 0 kw).2.2 := by
    conv_lhs => rw [hs]
    exact (addKeywordGo_states_indep kw acA.states acB.outputs acA.outputs 0).2
  have hlenB21 : (addKeywordGo acB.states acB.outputs 0 kw).2.1.length =
      (addKeywordGo acB.states acB.outputs 0 kw).1.length := hspecB.2.2.1
  have hlenA21 : (addKeywordGo acA.states acA.outputs 0 kw).2.1.length =
      (addKeywordGo acA.states acA.outputs 0 kw).1.length := hspecA.2.2.1
  have heltB : (addKeywordGo acB.states acB.outputs 0 kw).2.2 <
      (addKeywordGo acB.states acB.outputs 0 kw).1.length := hspecB.2.1
  refine ⟨hsteq, ?_, ?_, ?_⟩
  · show acB.keywords ++ [kw] = acA.keywords ++ [kw]
    rw [hk]
  · show (modifyAt (fun l => insertSet l acB.keywords.length)
        (addKeywordGo acB.states acB.outputs 0 kw).2.2
        (addKeywordGo acB.states acB.outputs 0 kw).2.1).length =
      (addKeywordGo acB.states acB.outputs 0 kw).1.length
    rw [modifyAt_length]
    exact hlenB21
  · intro t k
    show k ∈ (modifyAt (fun l => insertSet l acB.keywords.length)
        (addKeywordGo acB.states acB.outputs 0 kw).2.2
        (addKeywordGo acB.states acB.outputs 0 kw).2.1).getD t [] ↔
      k ∈ (modifyAt (fun l => insertSet l acA.keywords.length)
        (addKeywordGo acA.states acA.outputs 0 kw).2.2
        (addKeywordGo acA.states acA.outputs 0 kw).2.1).getD t [] ∨ E t k
    by_cases he : (addKeywordGo acB.states acB.outputs 0 kw).2.2 = t
    · have heA : (addKeywordGo acA.states acA.outputs 0 kw).2.2 = t := by
        rw [← heeq]
        exact he
      have hBlt : t < (addKeywordGo acB.states acB.outputs 0 kw).2.1.length := by
        rw [hlenB21]
        rw [he] at heltB
        exact heltB
      have hAlt : t < (addKeywordGo acA.states acA.outputs 0 kw).2.1.length := by
        rw [hlenA21, ← hsteq, ← hlenB21]
        exact hBlt
      rw [he, heA, modifyAt_getD_eq _ _ _ hBlt, modifyAt_getD_eq _ _ _ hAlt,
        mem_insertSet, mem_insertSet, hmB, hmA, getD_append_replicate_nil,
        getD_append_replicate_nil, hk, hR t k]
      tauto
    · have heA : ¬ ((addKeywordGo acA.states acA.outputs 0 kw).2.2 = t) := by
        rw [← heeq]
        exact he
      rw [modifyAt_getD_ne _ _ _ he, modifyAt_getD_ne _ _ _ heA, hmB, hmA,
        getD_append_replicate_nil, getD_append_replicate_nil]
      exact hR t k

theorem foldl_add_keyword_pair (E : Nat → Nat → Prop) :
    ∀ (kws : List (List Char)) (acB acA : AhoCorasick),
      acB.states = acA.states → acB.keywords = acA.keywords → ACInv acA →
      acB.outputs.length = acB.states.length →
      (∀ t k, k ∈ acB.outputs.getD t [] ↔ k ∈ acA.outputs.getD t [] ∨ E t k) →
      (kws.foldl AhoCorasick.add_keyword acB).states =
        (kws.foldl AhoCorasick.add_keyword acA).states ∧
      (kws.foldl AhoCorasick.add_keyword acB).keywords =
        (kws.foldl AhoCorasick.add_keyword acA).keywords ∧
      (kws.foldl AhoCorasick.add_keyword acB).outputs.length =
        (kws.foldl AhoCorasick.add_keyword acB).states.length ∧
      ∀ t k, k ∈ (kws.foldl AhoCorasick.add_keyword acB).outputs.getD t [] ↔
        k ∈ (kws.foldl AhoCorasick.add_keyword acA).outputs.getD t [] ∨ E t k := by
  intro kws
  induction kws with
  | nil =>
    intro acB acA hs hk _ hBlen hR
    exact ⟨hs, hk, hBlen, hR⟩
  | cons kw kws ih =>
    intro acB acA hs hk hA hBlen hR
    obtain ⟨hs2, hk2, hBlen2, hR2⟩ := add_keyword_pair E hs hk hA hBlen hR kw
    exact ih (acB.add_keyword kw) (acA.add_keyword kw) hs2 hk2
      (acInv_add_keyword hA kw) hBlen2 hR2

theorem reports_none_iff {kws : List (List Char)} {i : Nat} :
    ∀ {l : List Nat}, reports kws i l = none ↔
      ∃ k ∈ l, reportOff i (kws.getD k []) = none := by
  intro l
  induction l with
  | nil => simp [reports]
  | cons k rest ih =>
    have hunf : reports kws i (k :: rest) =
        (do
          let off ← reportOff i (kws.getD k [])
          let rs ← reports kws i rest
          pure ((off, kws.getD k []) :: rs)) := rfl
    rw [hunf]
    cases hoff : reportOff i (kws.getD k []) with
    | none =>
      constructor
      · intro _
        exact ⟨k, List.mem_cons_self _ _, hoff⟩
      · intro _
        rfl
    | some off =>
      cases hrs : reports kws i rest with
      | none =>
        constructor
        · intro _
          obtain ⟨k2, hk2, hoff2⟩ := ih.1 hrs
          exact ⟨k2, List.mem_cons_of_mem _ hk2, hoff2⟩
        · intro _
          rfl
      | some rs =>
        constructor
        · intro h
          have h2 : some ((off, kws.getD k []) :: rs) = (none : Option (List (Nat × List Char))) := h
          cases h2
        · rintro ⟨k2, hk2, hoff2⟩
          rcases List.mem_cons.1 hk2 with rfl | hk3
          · rw [hoff2] at hoff
            cases hoff
          · have h2 := ih.2 ⟨k2, hk3, hoff2⟩
            rw [hrs] at h2
            cases h2

theorem reports_mem_some {kws : List (List Char)} {i : Nat} :
    ∀ {l : List Nat} {rs : List (Nat × List Char)}, reports kws i l = some rs →
      ∀ p : Nat × List Char, p ∈ rs ↔
        ∃ k ∈ l, kws.getD k [] = p.2 ∧ reportOff i p.2 = some p.1 := by
  intro l
  induction l with
  | nil =>
    intro rs h p
    have h2 : some ([] : List (Nat × List Char)) = some rs := h
    cases h2
    simp
  | cons k rest ih =>
    intro rs h p
    have hunf : reports kws i (k :: rest) =
        (do
          let off ← reportOff i (kws.getD k [])
          let rs2 ← reports kws i rest
          pure ((off, kws.getD k []) :: rs2)) := rfl
    rw [hunf] at h
    cases hoff : reportOff i (kws.getD k []) with
    | none =>
      rw [hoff] at h
      cases h
    | some off =>
      rw [hoff] at h
      cases hrs : reports kws i rest with
      | none =>
        rw [hrs] at h
        cases h
      | some rs2 =>
        rw [hrs] at h
        have h2 : some ((off, kws.getD k []) :: rs2) = some rs := h
        cases h2
        rw [List.mem_cons]
        constructor
        · rintro (rfl | hp)
          · exact ⟨k, List.mem_cons_self _ _, rfl, hoff⟩
          · obtain ⟨k2, hk2, hw, ho⟩ := (ih hrs p).1 hp
            exact ⟨k2, List.mem_cons_of_mem _ hk2, hw, ho⟩
        · rintro ⟨k2, hk2, hw, ho⟩
          rcases List.mem_cons.1 hk2 with rfl | hk3
          · left
            rw [hw] at hoff
            rw [ho] at hoff
            have hp1 : p.1 = off := Option.some.inj hoff
            rw [Prod.ext_iff]
            exact ⟨hp1, hw.symm⟩
          · right
            exact (ih hrs p).2 ⟨k2, hk3, hw, ho⟩

/-- Scanning two output tables that agree as sets per state: the scans panic
together and produce the same matches as sets. -/
theorem scanGo_congr_outputs {kws : List (List Char)} {states : List AMap}
    {o1 o2 : List (List Nat)} {fails : List Nat}
    (ho : ∀ s k, k ∈ o1.getD s [] ↔ k ∈ o2.getD s []) :
    ∀ (text : List Char) (state i : Nat),
      (scanGo kws states o1 fails state i text = none ↔
        scanGo kws states o2 fails state i text = none) ∧
      (∀ l1 l2, scanGo kws states o1 fails state i text = some l1 →
        scanGo kws states o2 fails state i text = some l2 →
        ∀ p, p ∈ l1 ↔ p ∈ l2) := by
  intro text
  induction text with
  | nil =>
    intro state i
    refine ⟨Iff.rfl, ?_⟩
    intro l1 l2 h1 h2 p
    have h1' : some ([] : List (Nat × List Char)) = some l1 := h1
    have h2' : some ([] : List (Nat × List Char)) = some l2 := h2
    cases h1'
    cases h2'
    exact Iff.rfl
  | cons c cs ih =>
    intro state i
    cases hch : chase states fails c states.length state with
    | none =>
      have e1 : scanGo kws states o1 fails state i (c :: cs) = none := by
        simp only [scanGo]
        rw [hch]
        rfl
      have e2 : scanGo kws states o2 fails state i (c :: cs) = none := by
        simp only [scanGo]
        rw [hch]
        rfl
      refine ⟨by rw [e1, e2], ?_⟩
      intro l1 l2 h1 _ _
      rw [e1] at h1
      cases h1
    | some s1 =>
      have hunf1 : scanGo kws states o1 fails state i (c :: cs) =
          (do
            let rs ← reports kws i (o1.getD ((lookupA (states.getD s1 []) c).getD 0) [])
            let rest ← scanGo kws states o1 fails
              ((lookupA (states.getD s1 []) c).getD 0) (i+1) cs
            pure (rs ++ rest)) := by
        simp only [scanGo]
        rw [hch]
        rfl
      have hunf2 : scanGo kws states o2 fails state i (c :: cs) =
          (do
            let rs ← reports kws i (o2.getD ((lookupA (states.getD s1 []) c).getD 0) [])
            let rest ← scanGo kws states o2 fails
              ((lookupA (states.getD s1 []) c).getD 0) (i+1) cs
            pure (rs ++ rest)) := by
        simp only [scanGo]
        rw [hch]
        rfl
      have hrs_iff :
          reports kws i (o1.getD ((lookupA (states.getD s1 []) c).getD 0) []) = none ↔
          reports kws i (o2.getD ((lookupA (states.getD s1 []) c).getD 0) []) = none := by
        rw [reports_none_iff, reports_none_iff]
        constructor
        · rintro ⟨k, hk, hoff⟩
          exact ⟨k, (ho _ k).1 hk, hoff⟩
        · rintro ⟨k, hk, hoff⟩
          exact ⟨k, (ho _ k).2 hk, hoff⟩
      cases hr1 : reports kws i (o1.getD ((lookupA (states.getD s1 []) c).getD 0) []) with
      | none =>
        have hr2 := hrs_iff.1 hr1
        have e1 : scanGo kws states o1 fails state i (c :: cs) = none := by
          rw [hunf1, hr1]
          rfl
        have e2 : scanGo kws states o2 fails state i (c :: cs) = none := by
          rw [hunf2, hr2]
          rfl
        refine ⟨by rw [e1, e2], ?_⟩
        intro l1 l2 h1 _ _
        rw [e1] at h1
        cases h1
      | some rs1 =>
        cases hr2 : reports kws i (o2.getD ((lookupA (states.getD s1 []) c).getD 0) []) with
        | none =>
          exfalso
          have := hrs_iff.2 hr2
          rw [hr1] at this
          cases this
        | some rs2 =>
          obtain ⟨ihn, ihs⟩ := ih ((lookupA (states.getD s1 []) c).getD 0) (i+1)
          cases hsc1 : scanGo kws states o1 fails
              ((lookupA (states.getD s1 []) c).getD 0) (i+1) cs with
          | none =>
            have hsc2 := ihn.1 hsc1
            have e1 : scanGo kws states o1 fails state i (c :: cs) = none := by
              rw [hunf1, hr1]
              show (scanGo kws states o1 fails
                  ((lookupA (states.getD s1 []) c).getD 0) (i+1) cs).bind _ = none
              rw [hsc1]
              rfl
            have e2 : scanGo kws states o2 fails state i (c :: cs) = none := by
              rw [hunf2, hr2]
              show (scanGo kws states o2 fails
                  ((lookupA (states.getD s1 []) c).getD 0) (i+1) cs).bind _ = none
              rw [hsc2]
              rfl
            refine ⟨by rw [e1, e2], ?_⟩
            intro l1 l2 h1 _ _
            rw [e1] at h1
            cases h1
          | some l1' =>
            cases hsc2 : scanGo kws states o2 fails
                ((lookupA (states.getD s1 []) c).getD 0) (i+1) cs with
            | none =>
              exfalso
              have := ihn.2 hsc2
              rw [hsc1] at this
              cases this
            | some l2' =>
              have e1 : scanGo kws states o1 fails state i (c :: cs) =
                  some (rs1 ++ l1') := by
                rw [hunf1, hr1]
                show (scanGo kws states o1 fails
                    ((lookupA (states.getD s1 []) c).getD 0) (i+1) cs).bind _ = _
                rw [hsc1]
                rfl
              have e2 : scanGo kws states o2 fails state i (c :: cs) =
                  some (rs2 ++ l2') := by
                rw [hunf2, hr2]
                show (scanGo kws states o2 fails
                    ((lookupA (states.getD s1 []) c).getD 0) (i+1) cs).bind _ = _
                rw [hsc2]
                rfl
              refine ⟨by rw [e1, e2]; simp, ?_⟩
              intro l1 l2 h1 h2 p
              rw [e1] at h1
              rw [e2] at h2
              have h1' : some (rs1 ++ l1') = some l1 := h1
              have h2' : some (rs2 ++ l2') = some l2 := h2
              cases h1'
              cases h2'
              rw [List.mem_append, List.mem_append]
              constructor
              · rintro (h | h)
                · left
                  rw [reports_mem_some hr2 p]
                  obtain ⟨k, hk, hw, hof⟩ := (reports_mem_some hr1 p).1 h
                  exact ⟨k, (ho _ k).1 hk, hw, hof⟩
                · right
                  exact (ihs l1' l2' hsc1 hsc2 p).1 h
              · rintro (h | h)
                · left
                  rw [reports_mem_some hr1 p]
                  obtain ⟨k, hk, hw, hof⟩ := (reports_mem_some hr2 p).1 h
                  exact ⟨k, (ho _ k).2 hk, hw, hof⟩
                · right
                  exact (ihs l1' l2' hsc1 hsc2 p).2 h

theorem option_toFinset_congr {r1 r2 : Option (List (Nat × List Char))}
    (hn : r1 = none ↔ r2 = none)
    (hs : ∀ l1 l2, r1 = some l1 → r2 = some l2 → ∀ p, p ∈ l1 ↔ p ∈ l2) :
    Option.map List.toFinset r1 = Option.map List.toFinset r2 := by
  cases r1 with
  | none =>
    cases r2 with
    | none => rfl
    | some l2 =>
      have h := hn.1 rfl
      cases h
  | some l1 =>
    cases r2 with
    | none =>
      have h := hn.2 rfl
      cases h
    | some l2 =>
      show some l1.toFinset = some l2.toFinset
      congr 1
      apply Finset.ext
      intro p
      rw [List.mem_toFinset, List.mem_toFinset]
      exact hs l1 l2 rfl rfl p

/-- If an automaton `acB` differs from `acA` (same trie, same keywords, both
with stale failure links) only by extra output entries `E` that are already
derivable by output-merging in `acA`, then rebuilding and matching gives the
same match set on every text: no stale artifact survives the rebuild. -/
theorem rebuilt_match_toFinset_eq (E : Nat → Nat → Prop) {acB acA : AhoCorasick}
    (hA : ACInv acA)
    (hs : acB.states = acA.states) (hk : acB.keywords = acA.keywords)
    (hfB : acB.fails = none) (hfA : acA.fails = none)
    (hkwA : ∀ kw ∈ acA.keywords, kw ≠ [])
    (hBlen : acB.outputs.length = acB.states.length)
    (hR : ∀ t k, k ∈ acB.outputs.getD t [] ↔ k ∈ acA.outputs.getD t [] ∨ E t k)
    (hE0 : ∀ t k, E t k → 1 ≤ t)
    (hEbound : ∀ t k, E t k → t < acA.states.length)
    (hEsub : ∀ t k, E t k → ∃ u, 1 ≤ u ∧ u < acA.states.length ∧
      path acA.states u <:+ path acA.states t ∧
      path acA.states u ≠ path acA.states t ∧ k ∈ acA.outputs.getD u [])
    (text : List Char) :
    Option.map List.toFinset (acB.match_ text).2 =
      Option.map List.toFinset (acA.match_ text).2 := by
  have hO0A : acA.outputs.getD 0 [] = [] := outputs_root_nil hA hkwA
  have hTB : TrieInv acB.states := hs ▸ hA.trie
  have hO0B : acB.outputs.getD 0 [] = [] := by
    rw [List.eq_nil_iff_forall_not_mem]
    intro k hkk
    rcases (hR 0 k).1 hkk with h | hE
    · rw [hO0A] at h
      cases h
    · exact absurd (hE0 0 k hE) (by omega)
  obtain ⟨f2b, o2b, hmkB, hlenB, hcorB, holenB, hmergeB, hfrozenB⟩ :=
    make_fails_correct hTB hfB hO0B hBlen
  obtain ⟨f2a, o2a, hmkA, hlenA, hcorA, holenA, hmergeA, hfrozenA⟩ :=
    make_fails_correct hA.trie hfA hO0A hA.outs_len
  have hn : acB.states.length = acA.states.length := by rw [hs]
  have hcorB' : ∀ t, 1 ≤ t → t < acA.states.length →
      f2b.getD (t - 1) 0 = idealFail acA.states t := by
    intro t ht1 ht2
    rw [← hs]
    exact hcorB t ht1 (by rw [hn]; exact ht2)
  have hmergeB' : ∀ t, 1 ≤ t → t < acA.states.length → ∀ k,
      k ∈ o2b.getD t [] ↔ k ∈ acB.outputs.getD t [] ∨
        ∃ u, 1 ≤ u ∧ u < acA.states.length ∧
          path acA.states u <:+ path acA.states t ∧
          path acA.states u ≠ path acA.states t ∧ k ∈ acB.outputs.getD u [] := by
    intro t ht1 ht2 k
    rw [← hs]
    exact hmergeB t ht1 (by rw [hn]; exact ht2) k
  have hfeq : f2b = f2a := by
    apply list_eq_of_getD
    · rw [hlenB, hlenA, hn]
    · intro i hi
      rw [hlenB, hn] at hi
      have ht1 : 1 ≤ i + 1 := by omega
      have ht2 : i + 1 < acA.states.length := by omega
      have hB := hcorB' (i+1) ht1 ht2
      have hA2 := hcorA (i+1) ht1 ht2
      simp only [Nat.add_sub_cancel] at hB hA2
      rw [hB, hA2]
  have houteq : ∀ s k, k ∈ o2b.getD s [] ↔ k ∈ o2a.getD s [] := by
    intro s k
    by_cases hs1 : 1 ≤ s ∧ s < acA.states.length
    · rw [hmergeB' s hs1.1 hs1.2 k, hmergeA s hs1.1 hs1.2 k]
      constructor
      · rintro (hB | ⟨u, hu1, hu2, husuf, hune, hkB⟩)
        · rcases (hR s k).1 hB with h | hE
          · exact Or.inl h
          · exact Or.inr (hEsub s k hE)
        · rcases (hR u k).1 hkB with h | hE
          · exact Or.inr ⟨u, hu1, hu2, husuf, hune, h⟩
          · obtain ⟨v, hv1, hv2, hvsuf, hvne, hkv⟩ := hEsub u k hE
            refine Or.inr ⟨v, hv1, hv2, hvsuf.trans husuf, ?_, hkv⟩
            intro heq
            have h1 := length_lt_of_proper_suffix hvsuf hvne
            have h2 := husuf.length_le
            rw [heq] at h1
            omega
      · rintro (hA2 | ⟨u, hu1, hu2, husuf, hune, hkA⟩)
        · exact Or.inl ((hR s k).2 (Or.inl hA2))
        · exact Or.inr ⟨u, hu1, hu2, husuf, hune, (hR u k).2 (Or.inl hkA)⟩
    · have hcase : s = 0 ∨ acA.states.length ≤ s := by omega
      have hcaseB : s = 0 ∨ acB.states.length ≤ s := by
        rcases hcase with h | h
        · exact Or.inl h
        · exact Or.inr (by rw [hn]; exact h)
      rw [hfrozenB s hcaseB, hfrozenA s hcase, hR s k]
      rcases hcase with rfl | hge
      · rw [hO0A]
        constructor
        · rintro (h | hE)
          · exact h
          · exact absurd (hE0 0 k hE) (by omega)
        · exact Or.inl
      · constructor
        · rintro (h | hE)
          · exact h
          · exact absurd (hEbound s k hE) (by omega)
        · exact Or.inl
  have hBm : (acB.match_ text).2 = scanGo acB.keywords acB.states o2b f2b 0 0 text := by
    show (match acB.make_fails with
      | none => ((none : Option AhoCorasick), (none : Option (List (Nat × List Char))))
      | some ac2 =>
        (some ac2,
          scanGo ac2.keywords ac2.states ac2.outputs (ac2.fails.getD []) 0 0 text)).2 = _
    rw [hmkB]
    rfl
  have hAm : (acA.match_ text).2 = scanGo acA.keywords acA.states o2a f2a 0 0 text := by
    show (match acA.make_fails with
      | none => ((none : Option AhoCorasick), (none : Option (List (Nat × List Char))))
      | some ac2 =>
        (some ac2,
          scanGo ac2.keywords ac2.states ac2.outputs (ac2.fails.getD []) 0 0 text)).2 = _
    rw [hmkA]
    rfl
  rw [hBm, hAm, hs, hk, hfeq]
  exact option_toFinset_congr (scanGo_congr_outputs houteq text 0 0).1
    (scanGo_congr_outputs houteq text 0 0).2

/-- C4: with non-empty keywords, inserting `kws1`, matching once (which
builds failure links and merges output sets in place), then inserting `kws2`
and matching a text produces exactly the same match set (and panics iff) as
inserting all of `kws1 ++ kws2` before any build and matching that text: no
stale failure links or merged output sets survive the rebuild. -/
theorem c4_no_stale_state_after_rebuild {kws1 kws2 : List (List Char)}
    (t1 text : List Char) (hne : ∀ kw ∈ kws1 ++ kws2, kw ≠ []) :
    ∃ acMid res1,
      (buildAC kws1).match_ t1 = (some acMid, res1) ∧
      Option.map List.toFinset
          ((kws2.foldl AhoCorasick.add_keyword acMid).match_ text).2 =
        Option.map List.toFinset ((buildAC (kws1 ++ kws2)).match_ text).2 := by
  have hne1 : ∀ kw ∈ kws1, kw ≠ [] := fun kw h => hne kw (List.mem_append_left _ h)
  have hA0 : ACInv (buildAC kws1) := acInv_buildAC kws1
  have hkw1 : ∀ kw ∈ (buildAC kws1).keywords, kw ≠ [] := by
    intro kw h
    exact hne1 kw (by rwa [buildAC_keywords] at h)
  obtain ⟨f1, o1, hmk1, hf1len, hf1cor, ho1len, ho1merge, ho1frozen⟩ :=
    make_fails_correct hA0.trie (buildAC_fails kws1) (outputs_root_nil hA0 hkw1)
      hA0.outs_len
  have hmatch1 : (buildAC kws1).match_ t1 =
      (some { buildAC kws1 with fails := some f1, outputs := o1 },
       scanGo (buildAC kws1).keywords (buildAC kws1).states o1 f1 0 0 t1) := by
    show (match (buildAC kws1).make_fails with
      | none => ((none : Option AhoCorasick), (none : Option (List (Nat × List Char))))
      | some ac2 =>
        (some ac2,
          scanGo ac2.keywords ac2.states ac2.outputs (ac2.fails.getD []) 0 0 t1)) = _
    rw [hmk1]
    rfl
  refine ⟨_, _, hmatch1, ?_⟩
  cases kws2 with
  | nil =>
    rw [List.append_nil, List.foldl_nil]
    have hmkA1 : AhoCorasick.make_fails
        { buildAC kws1 with fails := some f1, outputs := o1 } =
        some { buildAC kws1 with fails := some f1, outputs := o1 } := rfl
    have hm2 : ({ buildAC kws1 with fails := some f1, outputs := o1 } :
        AhoCorasick).match_ text =
        (some { buildAC kws1 with fails := some f1, outputs := o1 },
         scanGo (buildAC kws1).keywords (buildAC kws1).states o1 f1 0 0 text) := by
      show (match AhoCorasick.make_fails
          { buildAC kws1 with fails := some f1, outputs := o1 } with
        | none => ((none : Option AhoCorasick), (none : Option (List (Nat × List Char))))
        | some ac2 =>
          (some ac2,
            scanGo ac2.keywords ac2.states ac2.outputs (ac2.fails.getD []) 0 0 text)) = _
      rw [hmkA1]
      rfl
    have hm3 : (buildAC kws1).match_ text =
        (some { buildAC kws1 with fails := some f1, outputs := o1 },
         scanGo (buildAC kws1).keywords (buildAC kws1).states o1 f1 0 0 text) := by
      show (match (buildAC kws1).make_fails with
        | none => ((none : Option AhoCorasick), (none : Option (List (Nat × List Char))))
        | some ac2 =>
          (some ac2,
            scanGo ac2.keywords ac2.states ac2.outputs (ac2.fails.getD []) 0 0 text)) = _
      rw [hmk1]
      rfl
    rw [hm2, hm3]
  | cons kw2 rest =>
    have hAF : buildAC (kws1 ++ kw2 :: rest) =
        (kw2 :: rest).foldl AhoCorasick.add_keyword (buildAC kws1) := by
      unfold buildAC
      rw [List.foldl_append]
    have hAFinv : ACInv ((kw2 :: rest).foldl AhoCorasick.add_keyword (buildAC kws1)) := by
      rw [← hAF]
      exact acInv_buildAC _
    have hkwAF : ∀ kw ∈ ((kw2 :: rest).foldl AhoCorasick.add_keyword
        (buildAC kws1)).keywords, kw ≠ [] := by
      intro kw h
      rw [← hAF, buildAC_keywords] at h
      exact hne kw h
    have hTExt : TrieExt (buildAC kws1).states
        ((kw2 :: rest).foldl AhoCorasick.add_keyword (buildAC kws1)).states :=
      trieExt_foldl_add_keyword (kw2 :: rest) (buildAC kws1) hA0
    have hpathst : ∀ u, u < (buildAC kws1).states.length →
        path ((kw2 :: rest).foldl AhoCorasick.add_keyword (buildAC kws1)).states u =
          path (buildAC kws1).states u :=
      path_stable_ext hA0.trie hAFinv.trie hTExt
    have hn0n : (buildAC kws1).states.length ≤
        ((kw2 :: rest).foldl AhoCorasick.add_keyword (buildAC kws1)).states.length :=
      hTExt.len_le
    have hRel1 : ∀ t k,
        k ∈ ({ buildAC kws1 with fails := some f1, outputs := o1 } :
          AhoCorasick).outputs.getD t [] ↔
        k ∈ (buildAC kws1).outputs.getD t [] ∨
          (1 ≤ t ∧ t < (buildAC kws1).states.length ∧
            ∃ u, 1 ≤ u ∧ u < (buildAC kws1).states.length ∧
              path (buildAC kws1).states u <:+ path (buildAC kws1).states t ∧
              path (buildAC kws1).states u ≠ path (buildAC kws1).states t ∧
              k ∈ (buildAC kws1).outputs.getD u []) := by
      intro t k
      show k ∈ o1.getD t [] ↔ _
      by_cases h1 : 1 ≤ t ∧ t < (buildAC kws1).states.length
      · rw [ho1merge t h1.1 h1.2]
        constructor
        · rintro (h | ⟨u, hu⟩)
          · exact Or.inl h
          · exact Or.inr ⟨h1.1, h1.2, u, hu⟩
        · rintro (h | ⟨_, _, u, hu⟩)
          · exact Or.inl h
          · exact Or.inr ⟨u, hu⟩
      · rw [ho1frozen t (by omega)]
        constructor
        · exact Or.inl
        · rintro (h | hE)
          · exact h
          · exact absurd ⟨hE.1, hE.2.1⟩ h1
    obtain ⟨hsBA, hkBA, hBlen, hRel2⟩ := foldl_add_keyword_pair
      (fun t k => 1 ≤ t ∧ t < (buildAC kws1).states.length ∧
        ∃ u, 1 ≤ u ∧ u < (buildAC kws1).states.length ∧
          path (buildAC kws1).states u <:+ path (buildAC kws1).states t ∧
          path (buildAC kws1).states u ≠ path (buildAC kws1).states t ∧
          k ∈ (buildAC kws1).outputs.getD u [])
      (kw2 :: rest) { buildAC kws1 with fails := some f1, outputs := o1 }
      (buildAC kws1) rfl rfl hA0
      (by show o1.length = (buildAC kws1).states.length
          rw [ho1len]
          exact hA0.outs_len)
      hRel1
    rw [hAF]
    refine rebuilt_match_toFinset_eq
      (fun t k => 1 ≤ t ∧ t < (buildAC kws1).states.length ∧
        ∃ u, 1 ≤ u ∧ u < (buildAC kws1).states.length ∧
          path (buildAC kws1).states u <:+ path (buildAC kws1).states t ∧
          path (buildAC kws1).states u ≠ path (buildAC kws1).states t ∧
          k ∈ (buildAC kws1).outputs.getD u [])
      hAFinv hsBA hkBA (foldl_add_keyword_fails_cons kw2 rest _)
      (by rw [← hAF]; exact buildAC_fails _) hkwAF hBlen hRel2
      (fun t k hE => hE.1) (fun t k hE => lt_of_lt_of_le hE.2.1 hn0n) ?_ text
    rintro t k ⟨ht1, htn0, u, hu1, hu2, husuf, hune, hku⟩
    refine ⟨u, hu1, lt_of_lt_of_le hu2 hn0n, ?_, ?_, ?_⟩
    · rw [hpathst u hu2, hpathst t htn0]
      exact husuf
    · rw [hpathst u hu2, hpathst t htn0]
      exact hune
    · exact foldl_add_keyword_outputs_mono (kw2 :: rest) (buildAC kws1) u k hku

theorem c4_no_stale_state_after_rebuild_witness :
    (∀ kw ∈ [['a']] ++ [['b']], kw ≠ ([] : List Char)) ∧
    (∃ acMid res1,
      (buildAC [['a']]).match_ [] = (some acMid, res1) ∧
      Option.map List.toFinset
          (([['b']].foldl AhoCorasick.add_keyword acMid).match_ ['a']).2 =
        Option.map List.toFinset ((buildAC ([['a']] ++ [['b']])).match_ ['a']).2) :=
  ⟨by decide, c4_no_stale_state_after_rebuild [] ['a'] (by decide)⟩

/-! #### Scan-state characterization and duplicate-keyword reporting (C10) -/

theorem reportOff_eq (i : Nat) (kw : List Char) :
    reportOff i kw = if 1 ≤ byteLen kw then
      (if byteLen kw - 1 ≤ i then some (i - (byteLen kw - 1)) else none)
    else none := by
  unfold reportOff checkedSub
  by_cases h1 : 1 ≤ byteLen kw
  · rw [if_pos h1, if_pos h1]
    rfl
  · rw [if_neg h1, if_neg h1]
    rfl

theorem reportOff_some_shape {i : Nat} {kw : List Char} {o : Nat}
    (h : reportOff i kw = some o) :
    1 ≤ byteLen kw ∧ byteLen kw - 1 ≤ i ∧ o = i - (byteLen kw - 1) := by
  rw [reportOff_eq] at h
  by_cases h1 : 1 ≤ byteLen kw
  · rw [if_pos h1] at h
    by_cases h2 : byteLen kw - 1 ≤ i
    · rw [if_pos h2] at h
      exact ⟨h1, h2, (Option.some.inj h).symm⟩
    · rw [if_neg h2] at h
      cases h
  · rw [if_neg h1] at h
    cases h

theorem reports_some_forall {kws : List (List Char)} {i : Nat} {l : List Nat}
    {rs : List (Nat × List Char)} (h : reports kws i l = some rs) :
    ∀ k ∈ l, ∃ o, reportOff i (kws.getD k []) = some o := by
  intro k hk
  cases ho : reportOff i (kws.getD k []) with
  | some o => exact ⟨o, rfl⟩
  | none =>
    exfalso
    have h2 := reports_none_iff.2 ⟨k, hk, ho⟩
    rw [h] at h2
    cases h2

theorem reports_count {kws : List (List Char)} {i : Nat} :
    ∀ {l : List Nat} {rs : List (Nat × List Char)}, reports kws i l = some rs →
      ∀ p : Nat × List Char, rs.count p =
        l.countP (fun k => decide (kws.getD k [] = p.2 ∧ reportOff i p.2 = some p.1)) := by
  intro l
  induction l with
  | nil =>
    intro rs h p
    have h2 : some ([] : List (Nat × List Char)) = some rs := h
    cases h2
    simp
  | cons k rest ih =>
    intro rs h p
    have hunf : reports kws i (k :: rest) =
        (do
          let off ← reportOff i (kws.getD k [])
          let rs2 ← reports kws i rest
          pure ((off, kws.getD k []) :: rs2)) := rfl
    rw [hunf] at h
    cases hoff : reportOff i (kws.getD k []) with
    | none =>
      rw [hoff] at h
      cases h
    | some off =>
      rw [hoff] at h
      cases hrs : reports kws i rest with
      | none =>
        rw [hrs] at h
        cases h
      | some rs2 =>
        rw [hrs] at h
        have h2 : some ((off, kws.getD k []) :: rs2) = some rs := h
        cases h2
        rw [List.count_cons, List.countP_cons, ih hrs p]
        have hiff : ((off, kws.getD k []) = p) ↔
            (kws.getD k [] = p.2 ∧ reportOff i p.2 = some p.1) := by
          constructor
          · intro he
            rw [← he]
            exact ⟨rfl, hoff⟩
          · rintro ⟨h1, h2⟩
            rw [← h1] at h2
            rw [hoff] at h2
            have hp1 : off = p.1 := Option.some.inj h2
            rw [Prod.ext_iff]
            exact ⟨hp1, h1⟩
        by_cases hc : (off, kws.getD k []) = p
        · have hb1 : ((off, kws.getD k []) == p) = true := by
            rw [beq_iff_eq]
            exact hc
          rw [if_pos hb1]
          have hb : (fun k => decide (kws.getD k [] = p.2 ∧
              reportOff i p.2 = some p.1)) k = true := by
            simp only [decide_eq_true_iff]
            exact hiff.1 hc
          rw [if_pos hb]
        · have hb1 : ¬ (((off, kws.getD k []) == p) = true) := by
            rw [beq_iff_eq]
            exact hc
          rw [if_neg hb1]
          have hb : ¬ ((fun k => decide (kws.getD k [] = p.2 ∧
              reportOff i p.2 = some p.1)) k = true) := by
            simp only [decide_eq_true_iff]
            exact fun hh => hc (hiff.2 hh)
          rw [if_neg hb]

theorem countP_nodup_range {l : List Nat} (hl : l.Nodup) (len : Nat) (Q : Nat → Bool)
    (h : ∀ k, Q k = true → (k ∈ l ↔ k < len)) :
    l.countP Q = ((List.range len).filter Q).length := by
  rw [List.countP_eq_length_filter]
  have h1 : (l.filter Q).Nodup := hl.filter _
  have h2 : ((List.range len).filter Q).Nodup := (List.nodup_range len).filter _
  have hmem : ∀ k, k ∈ l.filter Q ↔ k ∈ (List.range len).filter Q := by
    intro k
    rw [List.mem_filter, List.mem_filter, List.mem_range]
    constructor
    · rintro ⟨hk, hq⟩
      exact ⟨(h k hq).1 hk, hq⟩
    · rintro ⟨hk, hq⟩
      exact ⟨(h k hq).2 hk, hq⟩
  have hfe : (l.filter Q).toFinset = ((List.range len).filter Q).toFinset := by
    apply Finset.ext
    intro k
    rw [List.mem_toFinset, List.mem_toFinset]
    exact hmem k
  calc (l.filter Q).length = (l.filter Q).toFinset.card :=
        (List.toFinset_card_of_nodup h1).symm
    _ = ((List.range len).filter Q).toFinset.card := by rw [hfe]
    _ = ((List.range len).filter Q).length := List.toFinset_card_of_nodup h2

theorem scanGo_mem_report {kws : List (List Char)} {states : List AMap}
    {outputs : List (List Nat)} {fails : List Nat} :
    ∀ (cs : List Char) (v m : Nat) (res : List (Nat × List Char)),
      scanGo kws states outputs fails v m cs = some res →
      ∀ p : Nat × List Char, p ∈ res → ∃ j s k, m ≤ j ∧ k ∈ outputs.getD s [] ∧
        kws.getD k [] = p.2 ∧ reportOff j p.2 = some p.1 := by
  intro cs
  induction cs with
  | nil =>
    intro v m res h p hp
    have h2 : some ([] : List (Nat × List Char)) = some res := h
    cases h2
    cases hp
  | cons c cs ih =>
    intro v m res h p hp
    cases hch : chase states fails c states.length v with
    | none =>
      have e1 : scanGo kws states outputs fails v m (c :: cs) = none := by
        simp only [scanGo]
        rw [hch]
        rfl
      rw [e1] at h
      cases h
    | some s1 =>
      have hunf : scanGo kws states outputs fails v m (c :: cs) =
          (do
            let rs ← reports kws m (outputs.getD ((lookupA (states.getD s1 []) c).getD 0) [])
            let rest ← scanGo kws states outputs fails
              ((lookupA (states.getD s1 []) c).getD 0) (m+1) cs
            pure (rs ++ rest)) := by
        simp only [scanGo]
        rw [hch]
        rfl
      rw [hunf] at h
      cases hr : reports kws m (outputs.getD ((lookupA (states.getD s1 []) c).getD 0) []) with
      | none =>
        rw [hr] at h
        cases h
      | some rs =>
        rw [hr] at h
        cases hsc : scanGo kws states outputs fails
            ((lookupA (states.getD s1 []) c).getD 0) (m+1) cs with
        | none =>
          rw [hsc] at h
          cases h
        | some rest =>
          rw [hsc] at h
          have h2 : some (rs ++ rest) = some res := h
          cases h2
          rcases List.mem_append.1 hp with hmem | hmem
          · obtain ⟨k, hk, hw, ho⟩ := (reports_mem_some hr p).1 hmem
            exact ⟨m, _, k, le_refl m, hk, hw, ho⟩
          · obtain ⟨j, s, k, hj, hrest⟩ := ih _ (m+1) rest hsc p hmem
            exact ⟨j, s, k, by omega, hrest⟩

/-- After chasing failure links from an arbitrary start state, the chase
stops at the deepest suffix state of the start that has an edge on `c` (or
at the root). -/
theorem chase_start {states : List AMap} (hT : TrieInv states) {f : List Nat}
    (hfc : ∀ t, 1 ≤ t → t < states.length → f.getD (t - 1) 0 = idealFail states t)
    {v : Nat} (hv : v < states.length) (c : Char) :
    ∃ res, chase states f c states.length v = some res ∧ res < states.length ∧
      path states res <:+ path states v ∧
      (res = 0 ∨ lookupA (states.getD res []) c ≠ none) ∧
      (∀ u, u < states.length → path states u <:+ path states v →
        lookupA (states.getD u []) c ≠ none →
        (path states u).length ≤ (path states res).length) := by
  have hn1 : 1 ≤ states.length := List.length_pos.2 hT.root_exists
  obtain ⟨m, hm⟩ : ∃ m, states.length = m + 1 := ⟨states.length - 1, by omega⟩
  by_cases hcond : v ≠ 0 ∧ lookupA (states.getD v []) c = none
  · have hv1 : 1 ≤ v := by
      have := hcond.1
      omega
    have hfv := hfc v hv1 hv
    have hspec := idealFail_spec hT hv1 hv
    have hdlt := idealFail_depth_lt hT hv1 hv
    have hfc' : ∀ u, 1 ≤ u → u < states.length → path states u <:+ path states v →
        path states u ≠ path states v → f.getD (u - 1) 0 = idealFail states u :=
      fun u hu1 hu2 _ _ => hfc u hu1 hu2
    have hdm : depth states (idealFail states v) < m := by
      have h1 : depth states (idealFail states v) < depth states v := hdlt
      have h2 : depth states v ≤ v := depth_le_self hT v hv
      omega
    obtain ⟨res, hres, hr1, hr2, hr3, hr4, hr5⟩ := chase_ideal hT hfc' m
      (idealFail states v) hspec.1 hspec.2.1 hspec.2.2.1 hdm
    refine ⟨res, ?_, hr1, hr2, hr4, ?_⟩
    · rw [hm, chase, if_pos hcond, hfv]
      exact hres
    · intro u hu hus hedge
      by_cases huv : path states u = path states v
      · exfalso
        have heq : u = v := path_inj hT u hu v hv huv
        rw [heq] at hedge
        exact hedge hcond.2
      · have hle := hspec.2.2.2 u hu hus huv
        exact hr5 u hu (suffix_of_suffix_length_le hus hspec.2.1 hle) hedge
  · refine ⟨v, ?_, hv, List.suffix_refl _, ?_, ?_⟩
    · rw [hm, chase, if_neg hcond]
    · by_cases hv0 : v = 0
      · exact Or.inl hv0
      · exact Or.inr (fun hn => hcond ⟨hv0, hn⟩)
    · intro u hu hus _
      exact hus.length_le

/-- One scan step: from the deepest state whose path is a suffix of the
consumed prefix `p`, the goto/fail transition on `c` reaches the deepest
state whose path is a suffix of `p ++ [c]`. -/
theorem scan_step {states : List AMap} (hT : TrieInv states) {f : List Nat}
    (hfc : ∀ t, 1 ≤ t → t < states.length → f.getD (t - 1) 0 = idealFail states t)
    {v : Nat} (hv : v < states.length) (c : Char) (p : List Char)
    (hvp : path states v <:+ p)
    (hvmax : ∀ u, u < states.length → path states u <:+ p →
      (path states u).length ≤ (path states v).length) :
    ∃ s1, chase states f c states.length v = some s1 ∧
      (lookupA (states.getD s1 []) c).getD 0 < states.length ∧
      path states ((lookupA (states.getD s1 []) c).getD 0) <:+ p ++ [c] ∧
      (∀ u, u < states.length → path states u <:+ p ++ [c] →
        (path states u).length ≤
          (path states ((lookupA (states.getD s1 []) c).getD 0)).length) := by
  have hn1 : 1 ≤ states.length := List.length_pos.2 hT.root_exists
  obtain ⟨res, hres, hr1, hrsuf, hrstop, hrmax⟩ := chase_start hT hfc hv c
  have hauxmax : ∀ u, u < states.length → path states u <:+ p →
      lookupA (states.getD u []) c ≠ none →
      (path states u).length ≤ (path states res).length := by
    intro u hu hus hedge
    have hle := hvmax u hu hus
    exact hrmax u hu (suffix_of_suffix_length_le hus hvp hle) hedge
  cases hlook : lookupA (states.getD res []) c with
  | some tgt =>
    have hmem := lookupA_mem hlook
    have htl := hT.edge_lt res _ hmem
    have hpt : path states tgt = path states res ++ [c] := path_edge hT hmem
    refine ⟨res, hres, ?_, ?_, ?_⟩
    · rw [hlook]
      exact htl.2
    · rw [hlook]
      show path states tgt <:+ p ++ [c]
      rw [hpt]
      obtain ⟨x, hx⟩ := hrsuf.trans hvp
      exact ⟨x, by rw [← List.append_assoc, hx]⟩
    · intro u hu hus
      rw [hlook]
      show (path states u).length ≤ (path states tgt).length
      rw [hpt]
      simp only [List.length_append, List.length_singleton]
      by_cases hpu : path states u = []
      · rw [hpu]
        simp
      · obtain ⟨z, hz, hzdec⟩ := suffix_snoc_decomp hus hpu
        have hu0 : u ≠ 0 := by
          intro h0
          rw [h0, path_zero] at hpu
          exact hpu rfl
        have hmemu := hT.targets_complete u (by omega) hu
        rw [mem_allTargets] at hmemu
        obtain ⟨s, cy, hedge⟩ := hmemu
        have hpe : path states u = path states s ++ [cy] := path_edge hT hedge
        have heq : z ++ [c] = path states s ++ [cy] := by
          rw [← hzdec, hpe]
        rw [← List.concat_eq_append, ← List.concat_eq_append, List.concat_inj] at heq
        have hs2 : s < states.length := mem_getD_lt hedge
        have hedgec : (c, u) ∈ states.getD s [] := by
          rw [heq.2]
          exact hedge
        have hlook2 : lookupA (states.getD s []) c = some u :=
          mem_lookupA (hT.keys_nodup s) hedgec
        have hsle := hauxmax s hs2 (by rw [← heq.1]; exact hz) (by rw [hlook2]; simp)
        have hlen : (path states u).length = (path states s).length + 1 := by
          rw [hpe, List.length_append]
          rfl
        omega
  | none =>
    have hr0 : res = 0 := by
      rcases hrstop with h | h
      · exact h
      · exact absurd hlook h
    refine ⟨res, hres, ?_, ?_, ?_⟩
    · rw [hlook]
      show (0:Nat) < states.length
      omega
    · rw [hlook]
      show path states 0 <:+ p ++ [c]
      rw [path_zero]
      exact List.nil_suffix
    · intro u hu hus
      rw [hlook]
      show (path states u).length ≤ (path states 0).length
      rw [path_zero]
      by_cases hpu : path states u = []
      · rw [hpu]
      · exfalso
        obtain ⟨z, hz, hzdec⟩ := suffix_snoc_decomp hus hpu
        have hu0 : u ≠ 0 := by
          intro h0
          rw [h0, path_zero] at hpu
          exact hpu rfl
        have hmemu := hT.targets_complete u (by omega) hu
        rw [mem_allTargets] at hmemu
        obtain ⟨s, cy, hedge⟩ := hmemu
        have hpe : path states u = path states s ++ [cy] := path_edge hT hedge
        have heq : z ++ [c] = path states s ++ [cy] := by
          rw [← hzdec, hpe]
        rw [← List.concat_eq_append, ← List.concat_eq_append, List.concat_inj] at heq
        have hs2 : s < states.length := mem_getD_lt hedge
        have hedgec : (c, u) ∈ states.getD s [] := by
          rw [heq.2]
          exact hedge
        have hlook2 : lookupA (states.getD s []) c = some u :=
          mem_lookupA (hT.keys_nodup s) hedgec
        have hsle := hauxmax s hs2 (by rw [← heq.1]; exact hz)
          (by rw [hlook2]; simp)
        rw [hr0, path_zero] at hsle
        have hnil : path states s = [] := List.length_eq_zero.1 (by simpa using hsle)
        have hs0 : s = 0 := path_eq_nil hT hs2 hnil
        rw [hs0] at hlook2
        rw [hr0] at hlook
        rw [hlook] at hlook2
        cases hlook2

/-- The central counting lemma for duplicate keywords: scanning from the
deepest suffix state of the consumed prefix, an occurrence of the literal `L`
ending at relative position `i` is reported exactly once per keyword index
spelling `L`. -/
theorem scanGo_count_occ {kws : List (List Char)} {states : List AMap}
    {outputs : List (List Nat)} {f2 : List Nat}
    (hT : TrieInv states)
    (hfc : ∀ t, 1 ≤ t → t < states.length → f2.getD (t - 1) 0 = idealFail states t)
    (hout_iff : ∀ s, s < states.length → ∀ k, k ∈ outputs.getD s [] ↔
      k < kws.length ∧ kws.getD k [] <:+ path states s)
    (hout_len : outputs.length = states.length)
    (hout_nodup : ∀ s, (outputs.getD s []).Nodup)
    (hkw_state : ∀ k, k < kws.length →
      ∃ u, u < states.length ∧ path states u = kws.getD k [])
    (L : List Char) ( _hL : L ≠ []) :
    ∀ (cs p : List Char) (v : Nat) (res : List (Nat × List Char)),
      v < states.length →
      path states v <:+ p →
      (∀ u, u < states.length → path states u <:+ p →
        (path states u).length ≤ (path states v).length) →
      scanGo kws states outputs f2 v p.length cs = some res →
      ∀ i, i < cs.length → L <:+ p ++ cs.take (i + 1) →
        res.count (p.length + i - (byteLen L - 1), L) =
          ((List.range kws.length).filter
            (fun k => decide (kws.getD k [] = L))).length := by
  intro cs
  induction cs with
  | nil =>
    intro p v res _ _ _ _ i hi _
    simp at hi
  | cons c cs ih =>
    intro p v res hv hvp hvmax h i hi hocc
    obtain ⟨s1, hch, hs2lt, hs2suf, hs2max⟩ := scan_step hT hfc hv c p hvp hvmax
    have hunf : scanGo kws states outputs f2 v p.length (c :: cs) =
        (do
          let rs ← reports kws p.length
            (outputs.getD ((lookupA (states.getD s1 []) c).getD 0) [])
          let rest ← scanGo kws states outputs f2
            ((lookupA (states.getD s1 []) c).getD 0) (p.length + 1) cs
          pure (rs ++ rest)) := by
      simp only [scanGo]
      rw [hch]
      rfl
    rw [hunf] at h
    cases hr : reports kws p.length
        (outputs.getD ((lookupA (states.getD s1 []) c).getD 0) []) with
    | none =>
      rw [hr] at h
      cases h
    | some rs =>
      rw [hr] at h
      cases hsc : scanGo kws states outputs f2
          ((lookupA (states.getD s1 []) c).getD 0) (p.length + 1) cs with
      | none =>
        rw [hsc] at h
        cases h
      | some rest =>
        rw [hsc] at h
        have h2 : some (rs ++ rest) = some res := h
        cases h2
        rw [List.count_append]
        -- membership of any keyword-L index in the output set of the new state,
        -- valid when L is a suffix of p ++ [c]
        have hmemL : L <:+ p ++ [c] → ∀ k, k < kws.length → kws.getD k [] = L →
            k ∈ outputs.getD ((lookupA (states.getD s1 []) c).getD 0) [] := by
          intro hLsuf k hk hkL
          rw [hout_iff _ hs2lt k]
          refine ⟨hk, ?_⟩
          rw [hkL]
          obtain ⟨u, hu, hup⟩ := hkw_state k hk
          have hule := hs2max u hu (by rw [hup, hkL]; exact hLsuf)
          rw [hup, hkL] at hule
          exact suffix_of_suffix_length_le hLsuf hs2suf hule
        -- if some keyword spells L and L ends here, its report offset computes
        have hoffL : L <:+ p ++ [c] →
            (∃ k, k < kws.length ∧ kws.getD k [] = L) →
            byteLen L - 1 ≤ p.length ∧
              reportOff p.length L = some (p.length - (byteLen L - 1)) := by
          rintro hLsuf ⟨k, hk, hkL⟩
          have hkmem := hmemL hLsuf k hk hkL
          obtain ⟨o, ho⟩ := reports_some_forall hr k hkmem
          rw [hkL] at ho
          obtain ⟨hb1, hb2, hb3⟩ := reportOff_some_shape ho
          refine ⟨hb2, ?_⟩
          rw [ho, hb3]
        cases i with
        | zero =>
          simp only [Nat.add_zero]
          have hocc1 : L <:+ p ++ [c] := by
            simpa using hocc
          have hA : rs.count (p.length - (byteLen L - 1), L) =
              ((List.range kws.length).filter
                (fun k => decide (kws.getD k [] = L))).length := by
            rw [reports_count hr]
            have hQ : ∀ k, (fun k => decide (kws.getD k [] =
                (p.length - (byteLen L - 1), L).2 ∧
                reportOff p.length (p.length - (byteLen L - 1), L).2 =
                  some (p.length - (byteLen L - 1), L).1)) k = true →
                (k ∈ outputs.getD ((lookupA (states.getD s1 []) c).getD 0) [] ↔
                  k < kws.length) := by
              intro k hq
              simp only [decide_eq_true_iff] at hq
              constructor
              · intro hkin
                exact ((hout_iff _ hs2lt k).1 hkin).1
              · intro hk
                exact hmemL hocc1 k hk hq.1
            rw [countP_nodup_range (hout_nodup _) kws.length _ hQ]
            congr 1
            apply List.filter_congr
            intro k hk
            rw [List.mem_range] at hk
            by_cases hkL : kws.getD k [] = L
            · have hoff := hoffL hocc1 ⟨k, hk, hkL⟩
              rw [decide_eq_true hkL]
              apply decide_eq_true
              show kws.getD k [] = (p.length - (byteLen L - 1), L).2 ∧
                reportOff p.length (p.length - (byteLen L - 1), L).2 =
                  some (p.length - (byteLen L - 1), L).1
              refine ⟨hkL, ?_⟩
              show reportOff p.length L = some (p.length - (byteLen L - 1))
              exact hoff.2
            · rw [decide_eq_false hkL]
              apply decide_eq_false
              intro hcon
              exact hkL hcon.1
          have hB : rest.count (p.length - (byteLen L - 1), L) = 0 := by
            rw [List.count_eq_zero]
            intro hmem
            obtain ⟨j, s, k, hj, hkout, hw, ho⟩ :=
              scanGo_mem_report cs _ (p.length + 1) rest hsc _ hmem
            dsimp only at hw ho
            obtain ⟨hb1, hb2, hb3⟩ := reportOff_some_shape ho
            have hkw : k < kws.length := by
              by_cases hslt : s < states.length
              · exact ((hout_iff s hslt k).1 hkout).1
              · exfalso
                rw [List.getD_eq_default _ _
                  (by rw [hout_len]; omega : outputs.length ≤ s)] at hkout
                cases hkout
            have hoff := hoffL hocc1 ⟨k, hkw, hw⟩
            omega
          rw [hA, hB]
          omega
        | succ i' =>
          have hocc2 : L <:+ (p ++ [c]) ++ cs.take (i' + 1) := by
            rw [List.append_assoc, List.singleton_append]
            rw [List.take_succ_cons] at hocc
            exact hocc
          have hlen2 : (p ++ [c]).length = p.length + 1 := by
            rw [List.length_append, List.length_singleton]
          have hsc' : scanGo kws states outputs f2
              ((lookupA (states.getD s1 []) c).getD 0) (p ++ [c]).length cs =
              some rest := by
            rw [hlen2]
            exact hsc
          have hih := ih (p ++ [c]) ((lookupA (states.getD s1 []) c).getD 0) rest
            hs2lt hs2suf hs2max hsc' i' (by simpa using hi) hocc2
          rw [hlen2] at hih
          have harith : p.length + 1 + i' = p.length + (i' + 1) := by omega
          rw [harith] at hih
          have hB : rs.count (p.length + (i' + 1) - (byteLen L - 1), L) = 0 := by
            rw [reports_count hr, List.countP_eq_zero]
            intro k hkin hq
            simp only [decide_eq_true_iff] at hq
            have hkw : k < kws.length :=
              ((hout_iff _ hs2lt k).1 hkin).1
            obtain ⟨o, ho⟩ := reports_some_forall hr k hkin
            rw [hq.1] at ho
            obtain ⟨hb1, hb2, hb3⟩ := reportOff_some_shape ho
            have hq2 := hq.2
            rw [ho] at hq2
            have hoeq := Option.some.inj hq2
            omega
          rw [hB, hih]
          omega

/-- C10 counterexample: with the multi-byte literal `é` inserted twice, the
occurrence of `é` in the text `é` is not reported twice — `match_` panics
(byte-length offset underflow) and returns no list at all. -/
theorem c10_multibyte_duplicate_panics :
    ((buildAC [['é'], ['é']]).match_ ['é']).2 = none := by decide

/-- C10 (amended): inserting the same literal repeatedly never deduplicates —
`buildAC` keeps one keyword index per insertion — and whenever `match_`
returns a result list (instead of panicking on the byte-based offset
underflow), an occurrence of a non-empty literal `L` ending at text position
`i` is reported exactly once per inserted copy of `L`, every time as the same
pair `(i - (byteLen L - 1), L)`. -/
theorem c10_duplicate_keyword_reported_per_copy {kws : List (List Char)}
    (hne : ∀ kw ∈ kws, kw ≠ []) (text L : List Char) (hL : L ≠ [])
    {res : List (Nat × List Char)}
    (hm : ((buildAC kws).match_ text).2 = some res) :
    (buildAC kws).keywords = kws ∧
    ∀ i, i < text.length → L <:+ text.take (i + 1) →
      res.count (i - (byteLen L - 1), L) =
        ((List.range kws.length).filter
          (fun k => decide (kws.getD k [] = L))).length := by
  have hA0 : ACInv (buildAC kws) := acInv_buildAC kws
  have hkeq : (buildAC kws).keywords = kws := buildAC_keywords kws
  have hkw1 : ∀ kw ∈ (buildAC kws).keywords, kw ≠ [] := by
    intro kw h
    exact hne kw (by rwa [hkeq] at h)
  obtain ⟨f2, o2, hmk2, hf2len, hf2cor, ho2len, ho2merge, ho2frozen⟩ :=
    make_fails_correct hA0.trie (buildAC_fails kws) (outputs_root_nil hA0 hkw1)
      hA0.outs_len
  have hms : ((buildAC kws).match_ text).2 =
      scanGo (buildAC kws).keywords (buildAC kws).states o2 f2 0 0 text := by
    show (match (buildAC kws).make_fails with
      | none => ((none : Option AhoCorasick), (none : Option (List (Nat × List Char))))
      | some ac2 =>
        (some ac2,
          scanGo ac2.keywords ac2.states ac2.outputs (ac2.fails.getD []) 0 0 text)).2 = _
    rw [hmk2]
    rfl
  rw [hms, hkeq] at hm
  have hgd : ∀ k, k < kws.length → kws.getD k [] ∈ kws := by
    intro k hk
    rw [List.getD_eq_getElem _ _ hk]
    exact List.getElem_mem hk
  have hkw_state : ∀ k, k < kws.length →
      ∃ u, u < (buildAC kws).states.length ∧
        path (buildAC kws).states u = kws.getD k [] := by
    intro k hk
    exact hA0.kw_paths (kws.getD k []) (by rw [hkeq]; exact hgd k hk) (kws.getD k [])
      (List.prefix_refl _)
  have hout_iff : ∀ s, s < (buildAC kws).states.length → ∀ k,
      k ∈ o2.getD s [] ↔ k < kws.length ∧
        kws.getD k [] <:+ path (buildAC kws).states s := by
    intro s hslt k
    by_cases hs1 : 1 ≤ s
    · rw [ho2merge s hs1 hslt]
      constructor
      · rintro (h | ⟨u, hu1, hu2, husuf, hune, hku⟩)
        · obtain ⟨hk1, _, hpath⟩ := (hA0.outs_char s k).1 h
          rw [hkeq] at hk1 hpath
          exact ⟨hk1, by rw [hpath]⟩
        · obtain ⟨hk1, _, hpathu⟩ := (hA0.outs_char u k).1 hku
          rw [hkeq] at hk1 hpathu
          refine ⟨hk1, ?_⟩
          rw [← hpathu]
          exact husuf
      · rintro ⟨hk1, hsuf⟩
        by_cases heq : kws.getD k [] = path (buildAC kws).states s
        · left
          rw [hA0.outs_char s k]
          refine ⟨by rw [hkeq]; exact hk1, hslt, ?_⟩
          rw [hkeq]
          exact heq.symm
        · right
          obtain ⟨u, hu, hup⟩ := hkw_state k hk1
          have hkne : kws.getD k [] ≠ [] := hne _ (hgd k hk1)
          have hu1 : 1 ≤ u := by
            rcases Nat.eq_zero_or_pos u with rfl | h
            · rw [path_zero] at hup
              exact absurd hup.symm hkne
            · exact h
          refine ⟨u, hu1, hu, by rw [hup]; exact hsuf, by rw [hup]; exact heq, ?_⟩
          rw [hA0.outs_char u k]
          refine ⟨by rw [hkeq]; exact hk1, hu, ?_⟩
          rw [hup, hkeq]
    · have hs0 : s = 0 := by omega
      subst hs0
      rw [ho2frozen 0 (Or.inl rfl), outputs_root_nil hA0 hkw1]
      constructor
      · intro h
        cases h
      · rintro ⟨hk1, hsuf⟩
        rw [path_zero] at hsuf
        have := List.suffix_nil.1 hsuf
        exact absurd this (hne _ (hgd k hk1))
  have hOK2 : OutputsOK kws.length o2 := by
    have h1 := outputsOK_buildAC kws
    have h2 := outputsOK_make_fails h1 hmk2
    rw [← hkeq]
    exact h2
  have hout_nodup : ∀ s, (o2.getD s []).Nodup := by
    intro s
    by_cases hs : s < o2.length
    · rw [List.getD_eq_getElem _ _ hs]
      exact (hOK2 _ (List.getElem_mem hs)).1
    · rw [List.getD_eq_default _ _ (le_of_not_lt hs)]
      exact List.nodup_nil
  have hout_len : o2.length = (buildAC kws).states.length := by
    rw [ho2len]
    exact hA0.outs_len
  refine ⟨hkeq, ?_⟩
  intro i hi hocc
  have hres := scanGo_count_occ hA0.trie hf2cor hout_iff hout_len hout_nodup
    hkw_state L hL text [] 0 res
    (List.length_pos.2 hA0.trie.root_exists)
    (by rw [path_zero]; try exact List.nil_suffix)
    (by
      intro u hu hsuf
      have h1 := List.suffix_nil.1 hsuf
      rw [h1, path_zero])
    hm i hi
    (by rw [List.nil_append]; exact hocc)
  simpa using hres

theorem c10_duplicate_keyword_reported_per_copy_witness :
    ((∀ kw ∈ [['a'], ['a']], kw ≠ ([] : List Char)) ∧ (['a'] : List Char) ≠ [] ∧
      ((buildAC [['a'], ['a']]).match_ ['a']).2 = some [(0, ['a']), (0, ['a'])]) ∧
    ((buildAC [['a'], ['a']]).keywords = [['a'], ['a']] ∧
      ∀ i, i < (['a'] : List Char).length → ['a'] <:+ (['a'] : List Char).take (i + 1) →
        List.count (i - (byteLen ['a'] - 1), (['a'] : List Char))
            [(0, ['a']), (0, ['a'])] =
          ((List.range ([['a'], ['a']] : List (List Char)).length).filter
            (fun k => decide (([['a'], ['a']] : List (List Char)).getD k [] =
              ['a']))).length) :=
  ⟨⟨by decide, by decide, by decide⟩,
    c10_duplicate_keyword_reported_per_copy (by decide) ['a'] ['a'] (by decide)
      (by decide)⟩

end StringMatching
